import Mathlib

set_option linter.unusedSectionVars false

/-!
# Models of the four containers

Shallow embedding of `ConcurrentHashtable.h`, `ConcurrentQueue.h`, `LockFreeStack.h` and the
two variants of `ConcurrentList.h`.  A member function is modelled as the state transformer
a single thread executes, statement by statement; mutexes and condition variables carry no
data and are left out of the state.  The three linked containers live in an explicit free
store, so that `new`, `delete` and every dereference are part of the model.  A run that the
C++ standard leaves undefined (null or dangling dereference, `%` by zero) or that can never
return (a wait whose predicate stays false) is reported as a `Fault`.

Concurrency is modelled where a property is about it: `PopThread` and `runPops` interleave
the steps of concurrent `LockFreeStack::Pop` calls, `ConcurrentQueue.lockEvents` and
`runLocks` give the order in which the queue operations take their two mutexes, and the
`...Locked` versions of the list traversals record their lock, unlock and unlink events.
-/

namespace ConcurrentDS

/-- Ways in which a single-threaded run of a member function fails to return normally. -/
inductive Fault where
  /-- a null pointer or a pointer to a deleted node is dereferenced or deleted -/
  | invalidAccess
  /-- the right operand of `%` is zero -/
  | divideByZero
  /-- a condition wait whose predicate is false and that no other thread can make true -/
  | blocked
  /-- a loop did not finish within the number of iterations allotted to it -/
  | fuelExhausted
  deriving DecidableEq

/-! ## ConcurrentHashtable -/

/-- Mirror of `ConcurrentHashtable::Bucket`: the `std::list` of key-value pairs
(the `std::shared_mutex` holds no data). -/
structure Bucket (K V : Type) where
  keyValueList : List (K × V)

/-- Mirror of `ConcurrentHashtable`: the vector of buckets and the hash function object.
`size_t` hash values are natural numbers. -/
structure ConcurrentHashtable (K V : Type) where
  m_buckets : List (Bucket K V)
  m_hashFunction : K → Nat

section Hashtable

variable {K V : Type} [DecidableEq K]

/-- The function `Bucket::GetEntryForKey`: `std::find_if` on `pair.first == key`.  An iterator
is the position it points at; `keyValueList.end()` is the length of the list. -/
def Bucket.GetEntryForKey (bucket : Bucket K V) (key : K) : Nat :=
  bucket.keyValueList.findIdx (fun pair => decide (pair.1 = key))

/-- The constructor: `numBuckets` fresh empty buckets. -/
def ConcurrentHashtable.new (numBuckets : Nat) (hashFunction : K → Nat) :
    ConcurrentHashtable K V :=
  { m_buckets := List.replicate numBuckets { keyValueList := [] }
    m_hashFunction := hashFunction }

/-- The function `GetBucket`: `m_hashFunction(key) % m_buckets.size()`, then the indexing
`m_buckets[bucketIndex]`.  The result is the index together with the bucket found there. -/
def ConcurrentHashtable.GetBucket (t : ConcurrentHashtable K V) (key : K) :
    Except Fault (Nat × Bucket K V) :=
  if t.m_buckets.length = 0 then .error .divideByZero
  else
    let bucketIndex := t.m_hashFunction key % t.m_buckets.length
    match t.m_buckets[bucketIndex]? with
    | some bucket => .ok (bucketIndex, bucket)
    | none => .error .invalidAccess

/-- The function `GetValueForKey`: a copy of the value of the entry found, or the empty
pointer (`none`). -/
def ConcurrentHashtable.GetValueForKey (t : ConcurrentHashtable K V) (key : K) :
    Except Fault (Option V) :=
  match t.GetBucket key with
  | .error e => .error e
  | .ok (_, bucket) =>
    let iterator := bucket.GetEntryForKey key
    match bucket.keyValueList[iterator]? with
    | some pair => .ok (some pair.2)
    | none => .ok none

/-- The function `SetValueForKey`: overwrite `iterator->second`, or `emplace_back`. -/
def ConcurrentHashtable.SetValueForKey (t : ConcurrentHashtable K V) (key : K) (value : V) :
    Except Fault (ConcurrentHashtable K V) :=
  match t.GetBucket key with
  | .error e => .error e
  | .ok (bucketIndex, bucket) =>
    let iterator := bucket.GetEntryForKey key
    let keyValueList :=
      match bucket.keyValueList[iterator]? with
      | some pair => bucket.keyValueList.set iterator (pair.1, value)
      | none => bucket.keyValueList ++ [(key, value)]
    .ok { t with m_buckets := t.m_buckets.set bucketIndex { keyValueList := keyValueList } }

/-- The function `RemoveEntry`: `erase(iterator)` when the key was found. -/
def ConcurrentHashtable.RemoveEntry (t : ConcurrentHashtable K V) (key : K) :
    Except Fault (ConcurrentHashtable K V) :=
  match t.GetBucket key with
  | .error e => .error e
  | .ok (bucketIndex, bucket) =>
    let iterator := bucket.GetEntryForKey key
    let keyValueList :=
      match bucket.keyValueList[iterator]? with
      | some _ => bucket.keyValueList.eraseIdx iterator
      | none => bucket.keyValueList
    .ok { t with m_buckets := t.m_buckets.set bucketIndex { keyValueList := keyValueList } }

/-- The function `Clear`: `keyValueList.clear()` on every bucket in turn. -/
def ConcurrentHashtable.Clear (t : ConcurrentHashtable K V) : ConcurrentHashtable K V :=
  { t with m_buckets := t.m_buckets.map (fun _ => { keyValueList := [] }) }

/-- One mutating call on the table. -/
inductive HashtableCall (K V : Type) where
  | SetValueForKey (key : K) (value : V)
  | RemoveEntry (key : K)
  | Clear

/-- Perform one mutating call. -/
def ConcurrentHashtable.call (t : ConcurrentHashtable K V) :
    HashtableCall K V → Except Fault (ConcurrentHashtable K V)
  | .SetValueForKey key value => t.SetValueForKey key value
  | .RemoveEntry key => t.RemoveEntry key
  | .Clear => .ok t.Clear

/-- Perform a sequence of mutating calls, first call first. -/
def ConcurrentHashtable.run (t : ConcurrentHashtable K V) :
    List (HashtableCall K V) → Except Fault (ConcurrentHashtable K V)
  | [] => .ok t
  | c :: cs =>
    match t.call c with
    | .error e => .error e
    | .ok t' => t'.run cs

end Hashtable

/-! ## Free store shared by the three linked containers -/

/-- The node type of `ConcurrentQueue`, `ConcurrentList` and `LockFreeStack`:
`std::shared_ptr<T> data; Node* next;` (the list node's mutex holds no data).  An empty
`shared_ptr` and a null `Node*` are `none`; a non-null `Node*` is an address. -/
structure Node (T : Type) where
  data : Option T
  next : Option Nat
  deriving DecidableEq

/-- The free store: cell `a` is `some node` while the node at address `a` is live and `none`
once it has been deleted.  `new` takes the first address never used before, so the length
of the list is the number of nodes allocated so far. -/
abbrev Heap (T : Type) := List (Option (Node T))

section HeapOps

variable {T : Type}

/-- The live node at address `a`, if any. -/
def Heap.lookup (h : Heap T) (a : Nat) : Option (Node T) :=
  match h[a]? with
  | some cell => cell
  | none => none

/-- Dereference a `Node*`: a fault for a null pointer and for a pointer to a deleted node. -/
def Heap.deref (h : Heap T) : Option Nat → Except Fault (Nat × Node T)
  | none => .error .invalidAccess
  | some a =>
    match h.lookup a with
    | some node => .ok (a, node)
    | none => .error .invalidAccess

/-- The expression `new Node(...)`: the store with the node added and its address. -/
def Heap.alloc (h : Heap T) (node : Node T) : Heap T × Nat :=
  (h ++ [some node], h.length)

/-- Overwrite the fields of the node at address `a`. -/
def Heap.store (h : Heap T) (a : Nat) (node : Node T) : Heap T :=
  h.set a (some node)

/-- The statement `delete p`: a fault unless `p` points to a live node. -/
def Heap.delete (h : Heap T) (a : Nat) : Except Fault (Heap T) :=
  match h.lookup a with
  | some _ => .ok (h.set a none)
  | none => .error .invalidAccess

end HeapOps

/-! ## ConcurrentQueue -/

/-- Mirror of `ConcurrentQueue`: the nodes it owns and the two end pointers. -/
structure ConcurrentQueue (T : Type) where
  heap : Heap T
  m_head : Option Nat
  m_tail : Option Nat
  deriving DecidableEq

section Queue

variable {T : Type}

/-- The constructor: `m_head(new Node()), m_tail(m_head)`. -/
def ConcurrentQueue.new : ConcurrentQueue T :=
  let (heap, node) := Heap.alloc [] { data := none, next := none }
  { heap := heap, m_head := some node, m_tail := some node }

/-- The function `Push`. -/
def ConcurrentQueue.Push (q : ConcurrentQueue T) (value : T) :
    Except Fault (ConcurrentQueue T) := do
  -- m_tail->next = new Node(value);
  let (heap, newNode) := q.heap.alloc { data := some value, next := none }
  let (tail, tailNode) ← heap.deref q.m_tail
  let heap := heap.store tail { tailNode with next := some newNode }
  -- std::swap(m_tail->data, m_tail->next->data);
  let (tail, tailNode) ← heap.deref q.m_tail
  let (next, nextNode) ← heap.deref tailNode.next
  let heap := heap.store tail { tailNode with data := nextNode.data }
  let (next, nextNode) ← heap.deref (some next)
  let heap := heap.store next { nextNode with data := tailNode.data }
  -- m_tail = m_tail->next;
  let (_, tailNode) ← heap.deref q.m_tail
  .ok { heap := heap, m_head := q.m_head, m_tail := tailNode.next }

/-- The function `TryPop()`: the data pointer of the dequeued node, or the empty pointer.
The node owned by `dequedNodePtr` is deleted when the function returns. -/
def ConcurrentQueue.TryPop (q : ConcurrentQueue T) :
    Except Fault (Option T × ConcurrentQueue T) :=
  if q.m_head = q.m_tail then .ok (none, q)
  else do
    -- std::unique_ptr<Node> dequedNodePtr(m_head); m_head = m_head->next;
    let dequedNodePtr := q.m_head
    let (_, headNode) ← q.heap.deref q.m_head
    let m_head := headNode.next
    -- std::shared_ptr<T> dataPtr = dequedNodePtr->data;
    let (dequedNode, node) ← q.heap.deref dequedNodePtr
    let dataPtr := node.data
    let heap ← q.heap.delete dequedNode
    .ok (dataPtr, { heap := heap, m_head := m_head, m_tail := q.m_tail })

/-- The function `TryPop(T& result)`: the returned flag, the caller's variable and the queue.
`*(dequedNodePtr->data.get())` faults on an empty data pointer. -/
def ConcurrentQueue.TryPopRef (q : ConcurrentQueue T) (result : T) :
    Except Fault (Bool × T × ConcurrentQueue T) :=
  if q.m_head = q.m_tail then .ok (false, result, q)
  else do
    -- std::unique_ptr<Node> dequedNodePtr(m_head); m_head = m_head->next;
    let dequedNodePtr := q.m_head
    let (_, headNode) ← q.heap.deref q.m_head
    let m_head := headNode.next
    -- result = *(dequedNodePtr->data.get());
    let (dequedNode, node) ← q.heap.deref dequedNodePtr
    match node.data with
    | none => .error .invalidAccess
    | some value =>
      let heap ← q.heap.delete dequedNode
      .ok (true, value, { heap := heap, m_head := m_head, m_tail := q.m_tail })

/-- The function `WaitAndPop()`: with a single thread the wait on `m_head != m_tail` returns
at once when the predicate holds and never otherwise. -/
def ConcurrentQueue.WaitAndPop (q : ConcurrentQueue T) :
    Except Fault (Option T × ConcurrentQueue T) :=
  if q.m_head ≠ q.m_tail then do
    -- std::unique_ptr<Node> dequedNodePtr(m_head);
    let dequedNodePtr := q.m_head
    -- std::shared_ptr<T> dataPtr = dequedNodePtr->data;
    let (dequedNode, node) ← q.heap.deref dequedNodePtr
    let dataPtr := node.data
    -- m_head = m_head->next;
    let (_, headNode) ← q.heap.deref q.m_head
    let m_head := headNode.next
    let heap ← q.heap.delete dequedNode
    .ok (dataPtr, { heap := heap, m_head := m_head, m_tail := q.m_tail })
  else .error .blocked

/-- The function `WaitAndPop(T& result)`; it always returns `true`. -/
def ConcurrentQueue.WaitAndPopRef (q : ConcurrentQueue T) (_result : T) :
    Except Fault (Bool × T × ConcurrentQueue T) :=
  if q.m_head ≠ q.m_tail then do
    -- std::unique_ptr<Node> dequedNodePtr(m_head); m_head = m_head->next;
    let dequedNodePtr := q.m_head
    let (_, headNode) ← q.heap.deref q.m_head
    let m_head := headNode.next
    -- result = *(dequedNodePtr->data);
    let (dequedNode, node) ← q.heap.deref dequedNodePtr
    match node.data with
    | none => .error .invalidAccess
    | some value =>
      let heap ← q.heap.delete dequedNode
      .ok (true, value, { heap := heap, m_head := m_head, m_tail := q.m_tail })
  else .error .blocked

/-- The function `Empty`. -/
def ConcurrentQueue.Empty (q : ConcurrentQueue T) : Bool :=
  decide (q.m_head = q.m_tail)

end Queue

/-! ## LockFreeStack -/

/-- Mirror of `LockFreeStack`: the nodes it owns and the atomic head pointer. -/
structure LockFreeStack (T : Type) where
  heap : Heap T
  m_head : Option Nat
  deriving DecidableEq

section Stack

variable {T : Type}

/-- The call `object.compare_exchange_weak(expected, desired)` as one thread sees it.
It fails when the object differs from `expected`, and it may fail spuriously
(`spurious = true`) although they are equal; a failure loads the object into `expected`.
The result is the returned flag, the object and `expected` after the call. -/
def compareExchangeWeak (object expected desired : Option Nat) (spurious : Bool) :
    Bool × Option Nat × Option Nat :=
  if object = expected ∧ spurious = false then (true, desired, expected)
  else (false, object, object)

/-- The constructor: `m_head(nullptr)`. -/
def LockFreeStack.new : LockFreeStack T :=
  { heap := [], m_head := none }

/-- The loop `while (!m_head.compare_exchange_weak(newNode->next, newNode, ...));` of `Push`.
The first `spurious` attempts fail spuriously. -/
def LockFreeStack.pushLoop (newNode : Nat) :
    Nat → Nat → LockFreeStack T → Except Fault (LockFreeStack T)
  | 0, _, _ => .error .fuelExhausted
  | fuel + 1, spurious, s => do
    let (_, node) ← s.heap.deref (some newNode)
    let (exchanged, m_head, expected) :=
      compareExchangeWeak s.m_head node.next (some newNode) (decide (0 < spurious))
    let heap := s.heap.store newNode { node with next := expected }
    if exchanged then .ok { heap := heap, m_head := m_head }
    else LockFreeStack.pushLoop newNode fuel (spurious - 1) { heap := heap, m_head := m_head }

/-- The function `Push`.  After one failed exchange `newNode->next` equals the head, so the
loop body runs at most `spurious + 2` times. -/
def LockFreeStack.Push (s : LockFreeStack T) (data : T) (spurious : Nat) :
    Except Fault (LockFreeStack T) := do
  -- Node* newNode = new Node(data);
  let (heap, newNode) := s.heap.alloc { data := some data, next := none }
  -- newNode->next = m_head;
  let (_, node) ← heap.deref (some newNode)
  let heap := heap.store newNode { node with next := s.m_head }
  LockFreeStack.pushLoop newNode (spurious + 2) spurious { heap := heap, m_head := s.m_head }

/-- The loop
`while (nodeToPop != nullptr && !m_head.compare_exchange_weak(nodeToPop, nodeToPop->next));`
of `Pop`; the result is the stack and the final `nodeToPop`. -/
def LockFreeStack.popLoop :
    Nat → Nat → LockFreeStack T → Option Nat → Except Fault (LockFreeStack T × Option Nat)
  | 0, _, _, _ => .error .fuelExhausted
  | _ + 1, _, s, none => .ok (s, none)
  | fuel + 1, spurious, s, some nodeToPop => do
    let (_, node) ← s.heap.deref (some nodeToPop)
    let (exchanged, m_head, expected) :=
      compareExchangeWeak s.m_head (some nodeToPop) node.next (decide (0 < spurious))
    if exchanged then .ok ({ s with m_head := m_head }, expected)
    else LockFreeStack.popLoop fuel (spurious - 1) { s with m_head := m_head } expected

/-- The function `Pop`: the data pointer taken out of the unlinked node, or the empty
pointer. -/
def LockFreeStack.Pop (s : LockFreeStack T) (spurious : Nat) :
    Except Fault (Option T × LockFreeStack T) := do
  -- Node* nodeToPop = m_head.load();
  let (s, nodeToPop) ← LockFreeStack.popLoop (spurious + 2) spurious s s.m_head
  match nodeToPop with
  | none => .ok (none, s)
  | some nodeToPop =>
    -- dataPtr.swap(nodeToPop->data);
    let (_, node) ← s.heap.deref (some nodeToPop)
    let dataPtr := node.data
    let heap := s.heap.store nodeToPop { node with data := none }
    -- delete nodeToPop;
    let heap ← heap.delete nodeToPop
    .ok (dataPtr, { s with heap := heap })

end Stack

/-! ## ConcurrentList (fixed sentinel: `Visual-Studio-Project-With-Tests`) -/

/-- Mirror of `ConcurrentList`: the nodes it owns and the pointer to the sentinel. -/
structure ConcurrentList (T : Type) where
  heap : Heap T
  m_head : Option Nat
  deriving DecidableEq

section FixedSentinelList

variable {T : Type}

/-- The constructor: `m_head(new Node)`. -/
def ConcurrentList.new : ConcurrentList T :=
  let (heap, node) := Heap.alloc [] { data := none, next := none }
  { heap := heap, m_head := some node }

/-- The function `PushToFront`. -/
def ConcurrentList.PushToFront (l : ConcurrentList T) (data : T) :
    Except Fault (ConcurrentList T) := do
  -- Node* newNode = new Node(data);
  let (heap, newNode) := l.heap.alloc { data := some data, next := none }
  -- newNode->next = m_head->next;
  let (_, headNode) ← heap.deref l.m_head
  let (_, node) ← heap.deref (some newNode)
  let heap := heap.store newNode { node with next := headNode.next }
  -- m_head->next = newNode;
  let (head, headNode) ← heap.deref l.m_head
  let heap := heap.store head { headNode with next := some newNode }
  .ok { l with heap := heap }

/-- The loop of `ForEach`: `function` is applied in place to `*(currentNode->data)`; the
arguments it is called with are appended to `calls`. -/
def ConcurrentList.forEachLoop (function : T → T) :
    Nat → Heap T → Option Nat → List T → Except Fault (Heap T × List T)
  | _, heap, none, calls => .ok (heap, calls)
  | 0, _, some _, _ => .error .fuelExhausted
  | fuel + 1, heap, some currentNode, calls => do
    let (_, node) ← heap.deref (some currentNode)
    match node.data with
    | none => .error .invalidAccess
    | some value =>
      let heap := heap.store currentNode { node with data := some (function value) }
      let (_, node) ← heap.deref (some currentNode)
      ConcurrentList.forEachLoop function fuel heap node.next (calls ++ [value])

/-- The function `ForEach`: the list afterwards and the sequence of arguments `function`
was called with.  A loop over an acyclic chain visits every live node at most once, so
one iteration per allocated cell is enough. -/
def ConcurrentList.ForEach (l : ConcurrentList T) (function : T → T) :
    Except Fault (ConcurrentList T × List T) := do
  -- Node* currentNode = m_head->next;
  let (_, headNode) ← l.heap.deref l.m_head
  let (heap, calls) ← ConcurrentList.forEachLoop function l.heap.length l.heap headNode.next []
  .ok ({ l with heap := heap }, calls)

/-- The loop of `FindFirstIf`. -/
def ConcurrentList.findFirstIfLoop (predicate : T → Bool) :
    Nat → Heap T → Option Nat → Except Fault (Option T)
  | _, _, none => .ok none
  | 0, _, some _ => .error .fuelExhausted
  | fuel + 1, heap, some currentNode => do
    let (_, node) ← heap.deref (some currentNode)
    match node.data with
    | none => .error .invalidAccess
    | some value =>
      if predicate value then .ok node.data
      else ConcurrentList.findFirstIfLoop predicate fuel heap node.next

/-- The function `FindFirstIf`: the data pointer of the first node whose value satisfies
`predicate`, or the empty pointer.  The list is not written to. -/
def ConcurrentList.FindFirstIf (l : ConcurrentList T) (predicate : T → Bool) :
    Except Fault (Option T) := do
  -- Node* currentNode = m_head->next;
  let (_, headNode) ← l.heap.deref l.m_head
  ConcurrentList.findFirstIfLoop predicate l.heap.length l.heap headNode.next

/-- The loop of `RemoveIf`, on `previouseNode` and `currentNode`. -/
def ConcurrentList.removeIfLoop (predicate : T → Bool) :
    Nat → Heap T → Nat → Option Nat → Except Fault (Heap T)
  | _, heap, _, none => .ok heap
  | 0, _, _, some _ => .error .fuelExhausted
  | fuel + 1, heap, previouseNode, some currentNode => do
    let (_, node) ← heap.deref (some currentNode)
    match node.data with
    | none => .error .invalidAccess
    | some value =>
      if predicate value then
        -- previouseNode->next = currentNode->next;
        let (_, previous) ← heap.deref (some previouseNode)
        let heap := heap.store previouseNode { previous with next := node.next }
        -- Node* nodeToDelete = currentNode; currentNode = currentNode->next;
        let (nodeToDelete, node) ← heap.deref (some currentNode)
        -- delete nodeToDelete;
        let heap ← heap.delete nodeToDelete
        ConcurrentList.removeIfLoop predicate fuel heap previouseNode node.next
      else
        -- previouseNode = currentNode; currentNode = currentNode->next;
        ConcurrentList.removeIfLoop predicate fuel heap currentNode node.next

/-- The function `RemoveIf`. -/
def ConcurrentList.RemoveIf (l : ConcurrentList T) (predicate : T → Bool) :
    Except Fault (ConcurrentList T) := do
  -- Node* previouseNode = m_head; Node* currentNode = m_head->next;
  let (previouseNode, headNode) ← l.heap.deref l.m_head
  let heap ← ConcurrentList.removeIfLoop predicate l.heap.length l.heap previouseNode
    headNode.next
  .ok { l with heap := heap }

end FixedSentinelList

section QueueRuns

variable {T : Type}

/-- One call on the queue; the reference overloads carry the caller's variable. -/
inductive QueueCall (T : Type) where
  | Push (value : T)
  | TryPop
  | TryPopRef (result : T)
  | WaitAndPop
  | WaitAndPopRef (result : T)

/-- Perform one call; the second component is the value handed to the caller, if any:
the target of a non-empty returned pointer, or the caller's variable after a `true` return. -/
def ConcurrentQueue.call (q : ConcurrentQueue T) :
    QueueCall T → Except Fault (ConcurrentQueue T × Option T)
  | .Push value => do
    let q' ← q.Push value
    .ok (q', none)
  | .TryPop => do
    let (dataPtr, q') ← q.TryPop
    .ok (q', dataPtr)
  | .TryPopRef result => do
    let (popped, result, q') ← q.TryPopRef result
    .ok (q', if popped then some result else none)
  | .WaitAndPop => do
    let (dataPtr, q') ← q.WaitAndPop
    .ok (q', dataPtr)
  | .WaitAndPopRef result => do
    let (popped, result, q') ← q.WaitAndPopRef result
    .ok (q', if popped then some result else none)

/-- Perform a sequence of calls, first call first; the second component lists the values
handed to the caller, in the order of the calls. -/
def ConcurrentQueue.run (q : ConcurrentQueue T) :
    List (QueueCall T) → Except Fault (ConcurrentQueue T × List T)
  | [] => .ok (q, [])
  | c :: cs => do
    let (q1, r) ← q.call c
    let (q2, rs) ← q1.run cs
    .ok (q2, r.toList ++ rs)

/-- The values pushed by a sequence of calls, in the order of the calls. -/
def QueueCall.pushed : List (QueueCall T) → List T
  | [] => []
  | .Push value :: cs => value :: QueueCall.pushed cs
  | _ :: cs => QueueCall.pushed cs

/-- Number of elements after one call on a queue of `n` elements. -/
def QueueCall.sizeAfter (n : Nat) : QueueCall T → Nat
  | .Push _ => n + 1
  | _ => n - 1

/-- Whether every blocking pop of the sequence is made while the queue is non-empty, when
the sequence starts on a queue of `n` elements: `Push` adds one element, every pop removes
one if there is any. -/
def QueueCall.waitsOnNonEmpty : Nat → List (QueueCall T) → Bool
  | _, [] => true
  | n, .Push _ :: cs => QueueCall.waitsOnNonEmpty (n + 1) cs
  | n, .TryPop :: cs => QueueCall.waitsOnNonEmpty (n - 1) cs
  | n, .TryPopRef _ :: cs => QueueCall.waitsOnNonEmpty (n - 1) cs
  | n, .WaitAndPop :: cs => decide (0 < n) && QueueCall.waitsOnNonEmpty (n - 1) cs
  | n, .WaitAndPopRef _ :: cs => decide (0 < n) && QueueCall.waitsOnNonEmpty (n - 1) cs

end QueueRuns

section StackRuns

variable {T : Type}

/-- One call on the stack, with the number of spurious exchange failures it meets. -/
inductive StackCall (T : Type) where
  | Push (data : T) (spurious : Nat)
  | Pop (spurious : Nat)

/-- Perform one call; a `Pop` reports the pointer it returned. -/
def LockFreeStack.call (s : LockFreeStack T) :
    StackCall T → Except Fault (LockFreeStack T × List (Option T))
  | .Push data spurious => do
    let s' ← s.Push data spurious
    .ok (s', [])
  | .Pop spurious => do
    let (dataPtr, s') ← s.Pop spurious
    .ok (s', [dataPtr])

/-- Perform a sequence of calls, first call first; the second component lists the pointers
returned by the `Pop` calls, in the order of the calls. -/
def LockFreeStack.run (s : LockFreeStack T) :
    List (StackCall T) → Except Fault (LockFreeStack T × List (Option T))
  | [] => .ok (s, [])
  | c :: cs => do
    let (s1, r) ← s.call c
    let (s2, rs) ← s1.run cs
    .ok (s2, r ++ rs)

/-- The values pushed by a sequence of calls, in the order of the calls. -/
def StackCall.pushed : List (StackCall T) → List T
  | [] => []
  | .Push data _ :: cs => data :: StackCall.pushed cs
  | .Pop _ :: cs => StackCall.pushed cs

end StackRuns

/-! ## Representation predicates -/

section Representation

variable {T : Type}

/-- The segment predicate `Seg h p cells q`: starting at pointer `p` and following `next`,
one passes exactly the live nodes at the addresses listed in `cells`, which carry the listed
values, and arrives at pointer `q`. -/
def Seg (h : Heap T) : Option Nat → List (Nat × T) → Option Nat → Prop
  | p, [], q => p = q
  | p, (a, x) :: rest, q =>
    p = some a ∧ ∃ next, h.lookup a = some { data := some x, next := next } ∧ Seg h next rest q

/-- The queue holds the values `xs`, front first: the nodes from `m_head` up to, not
including, `m_tail` carry `xs`, and `m_tail` is a live dummy node with no value and no
successor. -/
def ConcurrentQueue.Holds (q : ConcurrentQueue T) (xs : List T) : Prop :=
  ∃ cells tail, Seg q.heap q.m_head cells (some tail) ∧ cells.map Prod.snd = xs ∧
    q.m_tail = some tail ∧ q.heap.lookup tail = some { data := none, next := none }

/-- The stack holds the values `xs`, top first: the nodes from `m_head` to the null pointer
carry `xs`. -/
def LockFreeStack.Holds (s : LockFreeStack T) (xs : List T) : Prop :=
  ∃ cells, Seg s.heap s.m_head cells none ∧ cells.map Prod.snd = xs

/-- The list holds the values `xs`, front first: `m_head` is a live sentinel without a
value, and the nodes from its successor to the null pointer carry `xs`. -/
def ConcurrentList.Holds (l : ConcurrentList T) (xs : List T) : Prop :=
  ∃ head first cells, l.m_head = some head ∧
    l.heap.lookup head = some { data := none, next := first } ∧
    Seg l.heap first cells none ∧ cells.map Prod.snd = xs

end Representation

/-! ## Auxiliary definitions used in the proofs -/

section Auxiliary

variable {K V T : Type} [DecidableEq K]

/-- Value of the first entry for `key` in an entry list. -/
def entryLookup (key : K) : List (K × V) → Option V
  | [] => none
  | (k, v) :: rest => if k = key then some v else entryLookup key rest

/-- What `GetValueForKey` reads from a bucket. -/
def bucketRead (kvs : List (K × V)) (key : K) : Option V :=
  match kvs[kvs.findIdx (fun pair => decide (pair.1 = key))]? with
  | some pair => some pair.2
  | none => none

/-- What `SetValueForKey` writes to a bucket. -/
def bucketSet (kvs : List (K × V)) (key : K) (value : V) : List (K × V) :=
  match kvs[kvs.findIdx (fun pair => decide (pair.1 = key))]? with
  | some pair => kvs.set (kvs.findIdx (fun pair => decide (pair.1 = key))) (pair.1, value)
  | none => kvs ++ [(key, value)]

/-- What `RemoveEntry` writes to a bucket. -/
def bucketErase (kvs : List (K × V)) (key : K) : List (K × V) :=
  match kvs[kvs.findIdx (fun pair => decide (pair.1 = key))]? with
  | some _ => kvs.eraseIdx (kvs.findIdx (fun pair => decide (pair.1 = key)))
  | none => kvs

/-- Entry list of the bucket that `key` hashes to (empty when there is no such bucket). -/
def ConcurrentHashtable.entriesFor (t : ConcurrentHashtable K V) (key : K) : List (K × V) :=
  match t.m_buckets[t.m_hashFunction key % t.m_buckets.length]? with
  | some bucket => bucket.keyValueList
  | none => []

/-- Every bucket holds at most one entry per key. -/
def ConcurrentHashtable.KeysNodup (t : ConcurrentHashtable K V) : Prop :=
  ∀ bucket ∈ t.m_buckets, (bucket.keyValueList.map Prod.fst).Nodup

/-- What `GetValueForKey` is expected to return after one more call, given what it returned
before the call: the finite-map reading of the three mutating calls. -/
def mapStep (key : K) (current : Option V) : HashtableCall K V → Option V
  | .SetValueForKey k v => if k = key then some v else current
  | .RemoveEntry k => if k = key then none else current
  | .Clear => none

/-- The value `GetValueForKey` reads for `key`, as a function of the state. -/
def ConcurrentHashtable.view (t : ConcurrentHashtable K V) (key : K) : Option V :=
  entryLookup key (t.entriesFor key)

/-- The end pointer `q` is not the address of a node that carries a value. -/
def Terminal (h : Heap T) (q : Option Nat) : Prop :=
  ∀ a, q = some a → ∀ x next, h.lookup a ≠ some { data := some x, next := next }

end Auxiliary

/-! ## Functions of the test files and concrete states used as examples -/

/-- A table with three buckets in which key 4 is already stored with value 40. -/
def sampleTable : ConcurrentHashtable Nat Nat :=
  { m_buckets := [Bucket.mk [], Bucket.mk [(1, 10), (4, 40)], Bucket.mk []]
    m_hashFunction := fun k => k }

/-- A queue that holds 1, 2 (front first); the node at address 2 is the trailing dummy. -/
def sampleQueue : ConcurrentQueue Nat :=
  { heap := [some { data := some 1, next := some 1 }, some { data := some 2, next := some 2 },
             some { data := none, next := none }]
    m_head := some 0
    m_tail := some 2 }

/-- A stack that holds 2, 1 (top first). -/
def sampleStack : LockFreeStack Nat :=
  { heap := [some { data := some 1, next := none }, some { data := some 2, next := some 0 }]
    m_head := some 1 }

/-- A list that holds 2, 4, 1, 6 (front first); the node at address 0 is the sentinel. -/
def sampleList : ConcurrentList Int :=
  { heap := [some { data := none, next := some 1 }, some { data := some 2, next := some 2 },
             some { data := some 4, next := some 3 }, some { data := some 1, next := some 4 },
             some { data := some 6, next := none }]
    m_head := some 0 }

/-- The predicate `IsEven` of the list tests: `value % 2 == 0` on `int`, where `%` truncates
towards zero. -/
def IsEven (value : Int) : Bool := value.tmod 2 == 0

/-- The predicate `IsOdd` of the list tests: `value % 2 != 0` on `int`. -/
def IsOdd (value : Int) : Bool := value.tmod 2 != 0

/-- The `int` with the same 32-bit two's-complement pattern as `value`. -/
def wrapInt32 (value : Int) : Int := (value + 2147483648) % 4294967296 - 2147483648

/-- The function `DoubleInteger` of the list tests: `i *= 2` on `int`.  A product outside
the range of `int` is reduced modulo 2^32, as the two's-complement multiplication does. -/
def DoubleInteger (i : Int) : Int := wrapInt32 (i * 2)

section TestLoops

variable {T : Type}

/-- The loop of the list tests that calls `AppendToFront`, that is `PushToFront`, once per
value, here one call after the other. -/
def ConcurrentList.pushAll (l : ConcurrentList T) : List T → Except Fault (ConcurrentList T)
  | [] => .ok l
  | value :: values => do
    let l' ← l.PushToFront value
    l'.pushAll values

/-- The loop `while (!g_concurrentQueue.Empty()) { g_concurrentQueue.TryPop(); }` of the
queue tests' `Cleanup`; the result is the queue and the number of `TryPop` calls made. -/
def ConcurrentQueue.cleanupLoop :
    Nat → ConcurrentQueue T → Except Fault (ConcurrentQueue T × Nat)
  | 0, q => if q.Empty then .ok (q, 0) else .error .fuelExhausted
  | fuel + 1, q =>
    if q.Empty then .ok (q, 0)
    else do
      let (_, q') ← q.TryPop
      let (q'', pops) ← ConcurrentQueue.cleanupLoop fuel q'
      .ok (q'', pops + 1)

/-- The `Cleanup` loop of the queue tests.  Every iteration deletes one live node, so one
iteration per allocated cell is enough. -/
def ConcurrentQueue.Cleanup (q : ConcurrentQueue T) : Except Fault (ConcurrentQueue T × Nat) :=
  ConcurrentQueue.cleanupLoop q.heap.length q

end TestLoops

/-- The list the tests build by pushing 0, 1, ..., 9 in this order: it holds 9, 8, ..., 0
(front first); the node at address 0 is the sentinel. -/
def sampleDigits : ConcurrentList Int :=
  { heap := [some { data := none, next := some 10 }, some { data := some 0, next := none },
             some { data := some 1, next := some 1 }, some { data := some 2, next := some 2 },
             some { data := some 3, next := some 3 }, some { data := some 4, next := some 4 },
             some { data := some 5, next := some 5 }, some { data := some 6, next := some 6 },
             some { data := some 7, next := some 7 }, some { data := some 8, next := some 8 },
             some { data := some 9, next := some 9 }]
    m_head := some 0 }

section HashtableInvariant

variable {K V : Type}

/-- Every stored entry lies in the bucket whose index is the hash of its key modulo the
number of buckets. -/
def ConcurrentHashtable.Placed (t : ConcurrentHashtable K V) : Prop :=
  ∀ i bucket, t.m_buckets[i]? = some bucket → ∀ pair ∈ bucket.keyValueList,
    t.m_hashFunction pair.1 % t.m_buckets.length = i

end HashtableInvariant

section ListRuns

variable {T : Type}

/-- One call on the fixed-sentinel list. -/
inductive ListCall (T : Type) where
  | PushToFront (data : T)
  | ForEach (function : T → T)
  | FindFirstIf (predicate : T → Bool)
  | RemoveIf (predicate : T → Bool)

/-- What a call on a list lets its caller observe: nothing, the arguments `ForEach` called
its function with, or the pointer `FindFirstIf` returned. -/
inductive ListResult (T : Type) where
  | done
  | visited (calls : List T)
  | found (dataPtr : Option T)

/-- Perform one call on the fixed-sentinel list. -/
def ConcurrentList.call (l : ConcurrentList T) :
    ListCall T → Except Fault (ConcurrentList T × ListResult T)
  | .PushToFront data => do
    let l' ← l.PushToFront data
    .ok (l', .done)
  | .ForEach function => do
    let (l', calls) ← l.ForEach function
    .ok (l', .visited calls)
  | .FindFirstIf predicate => do
    let dataPtr ← l.FindFirstIf predicate
    .ok (l, .found dataPtr)
  | .RemoveIf predicate => do
    let l' ← l.RemoveIf predicate
    .ok (l', .done)

/-- Perform a sequence of calls on the fixed-sentinel list, first call first. -/
def ConcurrentList.run (l : ConcurrentList T) :
    List (ListCall T) → Except Fault (ConcurrentList T × List (ListResult T))
  | [] => .ok (l, [])
  | c :: cs => do
    let (l1, r) ← l.call c
    let (l2, rs) ← l1.run cs
    .ok (l2, r :: rs)

end ListRuns

section ListDestructor

variable {T : Type}

/-- The loop `while (currentNode->next != nullptr)` of `~ConcurrentList`; the result is the
final `currentNode`.  The body assigns `nodeToDelete` and never deletes it, so the free
store is not written to. -/
def ConcurrentList.destructorLoop : Nat → Heap T → Nat → Except Fault Nat
  | 0, _, _ => .error .fuelExhausted
  | fuel + 1, heap, currentNode => do
    let (_, node) ← heap.deref (some currentNode)
    match node.next with
    | none => .ok currentNode
    | some next =>
      -- Node* nodeToDelete = currentNode; currentNode = currentNode->next;
      -- lock = std::move(std::unique_lock<std::mutex>(currentNode->mutex));
      let (currentNode, _) ← heap.deref (some next)
      ConcurrentList.destructorLoop fuel heap currentNode

/-- The destructor `~ConcurrentList` of the fixed-sentinel list; the result is the free
store it leaves behind. -/
def ConcurrentList.destructor (l : ConcurrentList T) : Except Fault (Heap T) := do
  -- std::unique_lock<std::mutex> lock(m_head->mutex); Node* currentNode = m_head;
  let (currentNode, _) ← l.heap.deref l.m_head
  let currentNode ← ConcurrentList.destructorLoop l.heap.length l.heap currentNode
  -- lock.unlock(); delete currentNode;
  l.heap.delete currentNode

end ListDestructor

/-! ## ConcurrentList (trailing dummy: `Lock-Based/List/Concurrent-List`) -/

/-- Mirror of the `ConcurrentList` of `Lock-Based/List/Concurrent-List`: the nodes it owns
and the pointer to the first node.  The node created by the constructor stays last. -/
structure TrailingDummy.ConcurrentList (T : Type) where
  heap : Heap T
  m_head : Option Nat
  deriving DecidableEq

section TrailingDummyList

variable {T : Type}

/-- The constructor: `m_head(new Node)`. -/
def TrailingDummy.ConcurrentList.new : TrailingDummy.ConcurrentList T :=
  let (heap, node) := Heap.alloc [] { data := none, next := none }
  { heap := heap, m_head := some node }

/-- The function `PushToFront` of the trailing-dummy variant. -/
def TrailingDummy.ConcurrentList.PushToFront (l : TrailingDummy.ConcurrentList T) (data : T) :
    Except Fault (TrailingDummy.ConcurrentList T) := do
  -- Node* newNode = new Node(data);
  let (heap, newNode) := l.heap.alloc { data := some data, next := none }
  -- std::lock_guard<std::mutex> lock(m_head->mutex);
  let _ ← heap.deref l.m_head
  -- newNode->next = m_head;
  let (_, node) ← heap.deref (some newNode)
  let heap := heap.store newNode { node with next := l.m_head }
  -- m_head = newNode;
  .ok { heap := heap, m_head := some newNode }

/-- The loop `while (currentNode->data != nullptr)` of `ForEach` in the trailing-dummy
variant: `function` is applied in place to `*(currentNode->data)`; the arguments it is
called with are appended to `calls`. -/
def TrailingDummy.ConcurrentList.forEachLoop (function : T → T) :
    Nat → Heap T → Nat → List T → Except Fault (Heap T × List T)
  | 0, _, _, _ => .error .fuelExhausted
  | fuel + 1, heap, currentNode, calls => do
    let (_, node) ← heap.deref (some currentNode)
    match node.data with
    | none => .ok (heap, calls)
    | some value =>
      -- function(*(currentNode->data));
      let heap := heap.store currentNode { node with data := some (function value) }
      -- std::unique_lock<std::mutex> secondLock(currentNode->next->mutex);
      let (_, node) ← heap.deref (some currentNode)
      let (next, _) ← heap.deref node.next
      -- currentNode = currentNode->next;
      TrailingDummy.ConcurrentList.forEachLoop function fuel heap next (calls ++ [value])

/-- The function `ForEach` of the trailing-dummy variant: the list afterwards and the
sequence of arguments `function` was called with. -/
def TrailingDummy.ConcurrentList.ForEach (l : TrailingDummy.ConcurrentList T)
    (function : T → T) : Except Fault (TrailingDummy.ConcurrentList T × List T) := do
  -- std::unique_lock<std::mutex> firstLock(m_head->mutex); Node* currentNode = m_head;
  let (currentNode, _) ← l.heap.deref l.m_head
  let (heap, calls) ←
    TrailingDummy.ConcurrentList.forEachLoop function l.heap.length l.heap currentNode []
  .ok ({ l with heap := heap }, calls)

/-- The loop of `FindFirstIf` in the trailing-dummy variant. -/
def TrailingDummy.ConcurrentList.findFirstIfLoop (predicate : T → Bool) :
    Nat → Heap T → Nat → Except Fault (Option T)
  | 0, _, _ => .error .fuelExhausted
  | fuel + 1, heap, currentNode => do
    let (_, node) ← heap.deref (some currentNode)
    match node.data with
    | none => .ok none
    | some value =>
      if predicate value then .ok node.data
      else
        -- std::unique_lock<std::mutex> secondLock(currentNode->next->mutex);
        let (next, _) ← heap.deref node.next
        -- currentNode = currentNode->next;
        TrailingDummy.ConcurrentList.findFirstIfLoop predicate fuel heap next

/-- The function `FindFirstIf` of the trailing-dummy variant. -/
def TrailingDummy.ConcurrentList.FindFirstIf (l : TrailingDummy.ConcurrentList T)
    (predicate : T → Bool) : Except Fault (Option T) := do
  -- std::unique_lock<std::mutex> firstLock(m_head->mutex); Node* currentNode = m_head;
  let (currentNode, _) ← l.heap.deref l.m_head
  TrailingDummy.ConcurrentList.findFirstIfLoop predicate l.heap.length l.heap currentNode

/-- One call of a member function that both list variants define (`RemoveIf` is declared in
both and defined only in the fixed-sentinel variant). -/
inductive CommonListCall (T : Type) where
  | PushToFront (data : T)
  | ForEach (function : T → T)
  | FindFirstIf (predicate : T → Bool)

/-- The same call on the fixed-sentinel list. -/
def CommonListCall.toListCall : CommonListCall T → ListCall T
  | .PushToFront data => .PushToFront data
  | .ForEach function => .ForEach function
  | .FindFirstIf predicate => .FindFirstIf predicate

/-- Perform one call on the trailing-dummy list. -/
def TrailingDummy.ConcurrentList.call (l : TrailingDummy.ConcurrentList T) :
    CommonListCall T → Except Fault (TrailingDummy.ConcurrentList T × ListResult T)
  | .PushToFront data => do
    let l' ← l.PushToFront data
    .ok (l', .done)
  | .ForEach function => do
    let (l', calls) ← l.ForEach function
    .ok (l', .visited calls)
  | .FindFirstIf predicate => do
    let dataPtr ← l.FindFirstIf predicate
    .ok (l, .found dataPtr)

/-- Perform a sequence of calls on the trailing-dummy list, first call first. -/
def TrailingDummy.ConcurrentList.run (l : TrailingDummy.ConcurrentList T) :
    List (CommonListCall T) → Except Fault (TrailingDummy.ConcurrentList T × List (ListResult T))
  | [] => .ok (l, [])
  | c :: cs => do
    let (l1, r) ← l.call c
    let (l2, rs) ← l1.run cs
    .ok (l2, r :: rs)

/-- The trailing-dummy list holds the values `xs`, front first: the nodes from `m_head` up
to, not including, a live node without a value and without a successor carry `xs`. -/
def TrailingDummy.ConcurrentList.Holds (l : TrailingDummy.ConcurrentList T) (xs : List T) :
    Prop :=
  ∃ cells dummy, Seg l.heap l.m_head cells (some dummy) ∧ cells.map Prod.snd = xs ∧
    l.heap.lookup dummy = some { data := none, next := none }

end TrailingDummyList

/-! ## Concurrent calls of `LockFreeStack::Pop` -/

/-- The point a thread has reached inside `Pop`, with the values of its local variables.
Between two points the thread performs one access to memory shared with other threads. -/
inductive PopThread (T : Type) where
  /-- before `Node* nodeToPop = m_head.load();` -/
  | atLoad
  /-- before the loop condition is evaluated -/
  | atLoopTest (nodeToPop : Option Nat)
  /-- the argument `nodeToPop->next` has been read, before `compare_exchange_weak` -/
  | atExchange (nodeToPop : Nat) (desired : Option Nat)
  /-- the exchange succeeded, before `dataPtr.swap(nodeToPop->data);` -/
  | atSwap (nodeToPop : Nat)
  /-- before `delete nodeToPop;` -/
  | atDelete (nodeToPop : Nat) (dataPtr : Option T)
  /-- the call has returned `dataPtr` -/
  | returned (dataPtr : Option T)
  deriving DecidableEq

section StackThreads

variable {T : Type}

/-- One step of a thread inside `Pop` on the shared stack; `spurious` tells whether a
`compare_exchange_weak` performed in this step fails spuriously. -/
def PopThread.step (s : LockFreeStack T) (spurious : Bool) :
    PopThread T → Except Fault (LockFreeStack T × PopThread T)
  -- Node* nodeToPop = m_head.load();
  | .atLoad => .ok (s, .atLoopTest s.m_head)
  -- nodeToPop != nullptr is false: the loop and the if statement are skipped
  | .atLoopTest none => .ok (s, .returned none)
  -- nodeToPop != nullptr is true: the argument nodeToPop->next is read
  | .atLoopTest (some nodeToPop) => do
    let (_, node) ← s.heap.deref (some nodeToPop)
    .ok (s, .atExchange nodeToPop node.next)
  -- m_head.compare_exchange_weak(nodeToPop, nodeToPop->next)
  | .atExchange nodeToPop desired =>
    let (exchanged, m_head, expected) :=
      compareExchangeWeak s.m_head (some nodeToPop) desired spurious
    if exchanged then .ok ({ s with m_head := m_head }, .atSwap nodeToPop)
    else .ok ({ s with m_head := m_head }, .atLoopTest expected)
  -- dataPtr.swap(nodeToPop->data);
  | .atSwap nodeToPop => do
    let (_, node) ← s.heap.deref (some nodeToPop)
    let heap := s.heap.store nodeToPop { node with data := none }
    .ok ({ s with heap := heap }, .atDelete nodeToPop node.data)
  -- delete nodeToPop;
  | .atDelete nodeToPop dataPtr => do
    let heap ← s.heap.delete nodeToPop
    .ok ({ s with heap := heap }, .returned dataPtr)
  | .returned dataPtr => .ok (s, .returned dataPtr)

/-- Run an interleaving of concurrent `Pop` calls: every entry of the schedule names the
thread that takes the next step and tells whether its exchange fails spuriously. -/
def runPops : LockFreeStack T → List (PopThread T) → List (Nat × Bool) →
    Except Fault (LockFreeStack T × List (PopThread T))
  | s, threads, [] => .ok (s, threads)
  | s, threads, (i, spurious) :: schedule =>
    match threads[i]? with
    | none => runPops s threads schedule
    | some thread => do
      let (s, thread) ← thread.step s spurious
      runPops s (threads.set i thread) schedule

end StackThreads

/-! ## Lock events of `ConcurrentQueue` -/

/-- The two mutexes of `ConcurrentQueue`. -/
inductive QueueMutex where
  | m_headMutex
  | m_tailMutex
  deriving DecidableEq

/-- A thread locks or unlocks one of the two mutexes. -/
inductive QueueLockEvent where
  | lock (mutex : QueueMutex)
  | unlock (mutex : QueueMutex)
  deriving DecidableEq

/-- The member functions of `ConcurrentQueue` that take a lock. -/
inductive QueueMethod where
  | Push
  | TryPop
  | TryPopRef
  | WaitAndPop
  | WaitAndPopRef
  | Empty
  deriving DecidableEq

/-- The owners of the two mutexes: the number of the thread that holds each, if any. -/
structure QueueLocks where
  headOwner : Option Nat
  tailOwner : Option Nat
  deriving DecidableEq

section QueueLockEvents

variable {T : Type}

/-- The lock and unlock operations one call performs on the queue `q`, in program order.
A `lock_guard` or `unique_lock` locks where it is declared and unlocks, unless unlocked
before, at the end of its scope, later declarations first.
* `Push`: `lock_guard lock(m_tailMutex)`.
* `TryPop`, both overloads: `tailLock(m_tailMutex)`, `headLock(m_headMutex)`; on the empty
  queue the function returns at once, otherwise `tailLock.unlock()` comes before
  `headLock.unlock()`.
* `WaitAndPop`, both overloads: `headLock(m_headMutex)`, then `wait` evaluates the predicate,
  which holds `lock_guard tailLock(m_tailMutex)` while it compares; then `headLock` is
  unlocked, by `headLock.unlock()` when the predicate was true and by `wait` itself, which
  then blocks, when it was false.
* `Empty`: `lock_guard headLock(m_headMutex)`, `lock_guard tailLock(m_tailMutex)`. -/
def ConcurrentQueue.lockEvents (q : ConcurrentQueue T) : QueueMethod → List QueueLockEvent
  | .Push => [.lock .m_tailMutex, .unlock .m_tailMutex]
  | .TryPop =>
    if q.m_head = q.m_tail then
      [.lock .m_tailMutex, .lock .m_headMutex, .unlock .m_headMutex, .unlock .m_tailMutex]
    else
      [.lock .m_tailMutex, .lock .m_headMutex, .unlock .m_tailMutex, .unlock .m_headMutex]
  | .TryPopRef =>
    if q.m_head = q.m_tail then
      [.lock .m_tailMutex, .lock .m_headMutex, .unlock .m_headMutex, .unlock .m_tailMutex]
    else
      [.lock .m_tailMutex, .lock .m_headMutex, .unlock .m_tailMutex, .unlock .m_headMutex]
  | .WaitAndPop =>
    [.lock .m_headMutex, .lock .m_tailMutex, .unlock .m_tailMutex, .unlock .m_headMutex]
  | .WaitAndPopRef =>
    [.lock .m_headMutex, .lock .m_tailMutex, .unlock .m_tailMutex, .unlock .m_headMutex]
  | .Empty =>
    [.lock .m_headMutex, .lock .m_tailMutex, .unlock .m_tailMutex, .unlock .m_headMutex]

/-- Whether somewhere in the events `second` is locked while `first` is held; `holding`
tells whether `first` is held at the start. -/
def locksWhileHolding (first second : QueueMutex) : Bool → List QueueLockEvent → Bool
  | _, [] => false
  | holding, .lock mutex :: rest =>
    (holding && decide (mutex = second)) ||
      locksWhileHolding first second (holding || decide (mutex = first)) rest
  | holding, .unlock mutex :: rest =>
    locksWhileHolding first second (holding && !decide (mutex = first)) rest

/-- The owner of a mutex. -/
def QueueLocks.owner (locks : QueueLocks) : QueueMutex → Option Nat
  | .m_headMutex => locks.headOwner
  | .m_tailMutex => locks.tailOwner

/-- Change the owner of a mutex. -/
def QueueLocks.setOwner (locks : QueueLocks) (owner : Option Nat) : QueueMutex → QueueLocks
  | .m_headMutex => { locks with headOwner := owner }
  | .m_tailMutex => { locks with tailOwner := owner }

/-- One step of thread `thread`, which still has `events` to perform: `lock` on a mutex
that is owned makes no progress, the thread keeps waiting for it. -/
def QueueLocks.step (locks : QueueLocks) (thread : Nat) :
    List QueueLockEvent → QueueLocks × List QueueLockEvent
  | [] => (locks, [])
  | .lock mutex :: rest =>
    if locks.owner mutex = none then (locks.setOwner (some thread) mutex, rest)
    else (locks, .lock mutex :: rest)
  | .unlock mutex :: rest => (locks.setOwner none mutex, rest)

/-- Run threads, each with the lock events it still has to perform, under a schedule that
names the thread to take each step. -/
def runLocks : QueueLocks → List (List QueueLockEvent) → List Nat →
    QueueLocks × List (List QueueLockEvent)
  | locks, threads, [] => (locks, threads)
  | locks, threads, i :: schedule =>
    match threads[i]? with
    | none => runLocks locks threads schedule
    | some events =>
      let (locks, events) := locks.step i events
      runLocks locks (threads.set i events) schedule

end QueueLockEvents

/-! ## Lock events of the fixed-sentinel `ConcurrentList` -/

/-- What a traversal does to the node mutexes and to the chain: it locks the mutex of a
node, unlocks it, or executes `previouseNode->next = currentNode->next`. -/
inductive ListLockEvent where
  | lock (node : Nat)
  | unlock (node : Nat)
  | unlink (previous node : Nat)
  deriving DecidableEq

section ListLockEvents

variable {T : Type}

/-- The loop of `ForEach` together with the events it produces; `locked` is the node whose
mutex `lock` owns.  The move assignment of a `unique_lock` unlocks the mutex it owned after
the temporary on its right has locked the new one; the destructor of `lock` unlocks when
the function returns. -/
def ConcurrentList.forEachLoopLocked (function : T → T) :
    Nat → Heap T → Nat → Option Nat → List T → List ListLockEvent →
      Except Fault (Heap T × List T × List ListLockEvent)
  | _, heap, locked, none, calls, events => .ok (heap, calls, events ++ [.unlock locked])
  | 0, _, _, some _, _, _ => .error .fuelExhausted
  | fuel + 1, heap, locked, some currentNode, calls, events => do
    -- lock = std::move(std::unique_lock<std::mutex>(currentNode->mutex));
    let (_, node) ← heap.deref (some currentNode)
    let events := events ++ [.lock currentNode, .unlock locked]
    match node.data with
    | none => .error .invalidAccess
    | some value =>
      let heap := heap.store currentNode { node with data := some (function value) }
      let (_, node) ← heap.deref (some currentNode)
      ConcurrentList.forEachLoopLocked function fuel heap currentNode node.next
        (calls ++ [value]) events

/-- The function `ForEach` together with the events it produces. -/
def ConcurrentList.ForEachLocked (l : ConcurrentList T) (function : T → T) :
    Except Fault ((ConcurrentList T × List T) × List ListLockEvent) := do
  -- std::unique_lock<std::mutex> lock(m_head->mutex); Node* currentNode = m_head->next;
  let (head, headNode) ← l.heap.deref l.m_head
  let (heap, calls, events) ← ConcurrentList.forEachLoopLocked function l.heap.length l.heap
    head headNode.next [] [.lock head]
  .ok (({ l with heap := heap }, calls), events)

/-- The loop of `FindFirstIf` together with the events it produces; on both exits the
destructor of `lock` unlocks the mutex it owns. -/
def ConcurrentList.findFirstIfLoopLocked (predicate : T → Bool) :
    Nat → Heap T → Nat → Option Nat → List ListLockEvent →
      Except Fault (Option T × List ListLockEvent)
  | _, _, locked, none, events => .ok (none, events ++ [.unlock locked])
  | 0, _, _, some _, _ => .error .fuelExhausted
  | fuel + 1, heap, locked, some currentNode, events => do
    -- lock = std::move(std::unique_lock<std::mutex>(currentNode->mutex));
    let (_, node) ← heap.deref (some currentNode)
    let events := events ++ [.lock currentNode, .unlock locked]
    match node.data with
    | none => .error .invalidAccess
    | some value =>
      if predicate value then .ok (node.data, events ++ [.unlock currentNode])
      else ConcurrentList.findFirstIfLoopLocked predicate fuel heap currentNode node.next events

/-- The function `FindFirstIf` together with the events it produces. -/
def ConcurrentList.FindFirstIfLocked (l : ConcurrentList T) (predicate : T → Bool) :
    Except Fault (Option T × List ListLockEvent) := do
  -- std::unique_lock<std::mutex> lock(m_head->mutex); Node* currentNode = m_head->next;
  let (head, headNode) ← l.heap.deref l.m_head
  ConcurrentList.findFirstIfLoopLocked predicate l.heap.length l.heap head headNode.next
    [.lock head]

/-- The loop of `RemoveIf` together with the events it produces; `firstLock` owns the mutex
of `previouseNode` throughout, and its destructor unlocks when the function returns. -/
def ConcurrentList.removeIfLoopLocked (predicate : T → Bool) :
    Nat → Heap T → Nat → Option Nat → List ListLockEvent →
      Except Fault (Heap T × List ListLockEvent)
  | _, heap, previouseNode, none, events => .ok (heap, events ++ [.unlock previouseNode])
  | 0, _, _, some _, _ => .error .fuelExhausted
  | fuel + 1, heap, previouseNode, some currentNode, events => do
    -- std::unique_lock<std::mutex> secondLock(currentNode->mutex);
    let (_, node) ← heap.deref (some currentNode)
    let events := events ++ [.lock currentNode]
    match node.data with
    | none => .error .invalidAccess
    | some value =>
      if predicate value then
        -- previouseNode->next = currentNode->next;
        let (_, previous) ← heap.deref (some previouseNode)
        let heap := heap.store previouseNode { previous with next := node.next }
        let events := events ++ [.unlink previouseNode currentNode]
        -- Node* nodeToDelete = currentNode; currentNode = currentNode->next;
        let (nodeToDelete, node) ← heap.deref (some currentNode)
        -- secondLock.unlock();
        let events := events ++ [.unlock nodeToDelete]
        -- delete nodeToDelete;
        let heap ← heap.delete nodeToDelete
        ConcurrentList.removeIfLoopLocked predicate fuel heap previouseNode node.next events
      else
        -- previouseNode = currentNode; currentNode = currentNode->next;
        -- firstLock = std::move(secondLock);
        let events := events ++ [.unlock previouseNode]
        ConcurrentList.removeIfLoopLocked predicate fuel heap currentNode node.next events

/-- The function `RemoveIf` together with the events it produces. -/
def ConcurrentList.RemoveIfLocked (l : ConcurrentList T) (predicate : T → Bool) :
    Except Fault (ConcurrentList T × List ListLockEvent) := do
  -- std::unique_lock<std::mutex> firstLock(m_head->mutex);
  -- Node* previouseNode = m_head; Node* currentNode = m_head->next;
  let (previouseNode, headNode) ← l.heap.deref l.m_head
  let (heap, events) ← ConcurrentList.removeIfLoopLocked predicate l.heap.length l.heap
    previouseNode headNode.next [.lock previouseNode]
  .ok ({ l with heap := heap }, events)

/-- The nodes whose mutexes are held after the events, given those held before, in the
order in which they were locked. -/
def heldAfter : List Nat → List ListLockEvent → List Nat
  | held, [] => held
  | held, .lock node :: rest => heldAfter (held ++ [node]) rest
  | held, .unlock node :: rest => heldAfter (held.erase node) rest
  | held, .unlink _ _ :: rest => heldAfter held rest

/-- The nodes whose mutexes the events lock, in order. -/
def locksTaken : List ListLockEvent → List Nat
  | [] => []
  | .lock node :: rest => node :: locksTaken rest
  | .unlock _ :: rest => locksTaken rest
  | .unlink _ _ :: rest => locksTaken rest

/-- Between any two consecutive events a mutex is held. -/
def alwaysHolding : List Nat → List ListLockEvent → Bool
  | _, [] => true
  | held, event :: rest =>
    rest.isEmpty ||
      (!(heldAfter held [event]).isEmpty && alwaysHolding (heldAfter held [event]) rest)

/-- Every unlinking happens while the mutexes of the unlinked node and of its predecessor
are both held. -/
def unlinksUnderBothLocks : List Nat → List ListLockEvent → Bool
  | _, [] => true
  | held, .lock node :: rest => unlinksUnderBothLocks (held ++ [node]) rest
  | held, .unlock node :: rest => unlinksUnderBothLocks (held.erase node) rest
  | held, .unlink previous node :: rest =>
    held.contains previous && held.contains node && unlinksUnderBothLocks held rest

/-- Every unlock, except one that is the last event, unlocks a held mutex while a mutex
locked later is held too. -/
def handsOver : List Nat → List ListLockEvent → Bool
  | _, [] => true
  | held, .lock node :: rest => handsOver (held ++ [node]) rest
  | held, .unlock node :: rest =>
    (rest.isEmpty || (held.contains node && held.getLast? != some node)) &&
      handsOver (held.erase node) rest
  | held, .unlink _ _ :: rest => handsOver held rest

/-- The same as `handsOver`, except for unlinked nodes: the event right after an unlinking
must be the unlock of the unlinked node, performed while the mutexes of that node and of
its predecessor are held.  Here `unlinked` is the unlinking the previous event performed, if
it was one; any other event, or the end of the events, right after an unlinking is
rejected. -/
def handsOverOrUnlinked : Option (Nat × Nat) → List Nat → List ListLockEvent → Bool
  | unlinked, _, [] => unlinked.isNone
  | unlinked, held, .lock node :: rest =>
    unlinked.isNone && handsOverOrUnlinked none (held ++ [node]) rest
  | unlinked, held, .unlock node :: rest =>
    (match unlinked with
      | some (previous, removed) =>
        removed == node && held.contains node && held.contains previous
      | none => rest.isEmpty || (held.contains node && held.getLast? != some node)) &&
      handsOverOrUnlinked none (held.erase node) rest
  | unlinked, held, .unlink previous node :: rest =>
    unlinked.isNone && handsOverOrUnlinked (some (previous, node)) held rest

/-- The events of a hand-over-hand walk over the nodes `addrs` that starts with the mutex
of `locked` held. -/
def handOverHandEvents : Nat → List Nat → List ListLockEvent
  | locked, [] => [.unlock locked]
  | locked, node :: rest => .lock node :: .unlock locked :: handOverHandEvents node rest

/-- The events of the loop of `FindFirstIf` over the given cells. -/
def findEvents (predicate : T → Bool) : Nat → List (Nat × T) → List ListLockEvent
  | locked, [] => [.unlock locked]
  | locked, (node, value) :: rest =>
    .lock node :: .unlock locked ::
      (if predicate value then [.unlock node] else findEvents predicate node rest)

/-- The events of the loop of `RemoveIf` over the given cells. -/
def removeEvents (predicate : T → Bool) : Nat → List (Nat × T) → List ListLockEvent
  | previous, [] => [.unlock previous]
  | previous, (node, value) :: rest =>
    .lock node ::
      (if predicate value then
        .unlink previous node :: .unlock node :: removeEvents predicate previous rest
      else .unlock previous :: removeEvents predicate node rest)

end ListLockEvents

section ListRunValues

variable {T : Type}

/-- The values a sequence of calls on a list pushes, in call order. -/
def ListCall.pushed : List (ListCall T) → List T
  | [] => []
  | .PushToFront data :: calls => data :: ListCall.pushed calls
  | .ForEach _ :: calls => ListCall.pushed calls
  | .FindFirstIf _ :: calls => ListCall.pushed calls
  | .RemoveIf _ :: calls => ListCall.pushed calls

/-- Whether a call is a `ForEach` call. -/
def ListCall.isForEach : ListCall T → Bool
  | .ForEach _ => true
  | .PushToFront _ => false
  | .FindFirstIf _ => false
  | .RemoveIf _ => false

/-- The values `acc` and the values the calls push, each changed by the functions of the
`ForEach` calls that come after it. -/
def ListCall.pushedThenMapped : List T → List (ListCall T) → List T
  | acc, [] => acc
  | acc, .PushToFront data :: calls => ListCall.pushedThenMapped (data :: acc) calls
  | acc, .ForEach function :: calls => ListCall.pushedThenMapped (acc.map function) calls
  | acc, .FindFirstIf _ :: calls => ListCall.pushedThenMapped acc calls
  | acc, .RemoveIf _ :: calls => ListCall.pushedThenMapped acc calls

end ListRunValues

/-! # Theorems -/

section HashtableLemmas

variable {K V : Type} [DecidableEq K]

theorem bucketRead_nil (key : K) : bucketRead ([] : List (K × V)) key = none := rfl

theorem bucketRead_cons (k : K) (v : V) (rest : List (K × V)) (key : K) :
    bucketRead ((k, v) :: rest) key = if k = key then some v else bucketRead rest key := by
  unfold bucketRead
  rw [List.findIdx_cons]
  by_cases h : k = key
  · simp [h]
  · simp [h]

theorem bucketRead_eq_entryLookup (kvs : List (K × V)) (key : K) :
    bucketRead kvs key = entryLookup key kvs := by
  induction kvs with
  | nil => rfl
  | cons a rest ih =>
    obtain ⟨k, v⟩ := a
    rw [bucketRead_cons, entryLookup, ih]

theorem bucketSet_nil (key : K) (value : V) :
    bucketSet ([] : List (K × V)) key value = [(key, value)] := rfl

theorem bucketSet_cons (k : K) (v : V) (rest : List (K × V)) (key : K) (value : V) :
    bucketSet ((k, v) :: rest) key value =
      if k = key then (k, value) :: rest else (k, v) :: bucketSet rest key value := by
  unfold bucketSet
  rw [List.findIdx_cons]
  by_cases h : k = key
  · simp [h]
  · simp only [h, decide_False, cond_false, List.getElem?_cons_succ, if_false]
    cases rest[List.findIdx (fun pair => decide (pair.1 = key)) rest]? <;> simp

theorem bucketErase_nil (key : K) : bucketErase ([] : List (K × V)) key = [] := rfl

theorem bucketErase_cons (k : K) (v : V) (rest : List (K × V)) (key : K) :
    bucketErase ((k, v) :: rest) key =
      if k = key then rest else (k, v) :: bucketErase rest key := by
  unfold bucketErase
  rw [List.findIdx_cons]
  by_cases h : k = key
  · simp [h]
  · simp only [h, decide_False, cond_false, List.getElem?_cons_succ, if_false]
    cases rest[List.findIdx (fun pair => decide (pair.1 = key)) rest]? <;> simp

theorem entryLookup_bucketSet (kvs : List (K × V)) (key : K) (value : V) (k' : K) :
    entryLookup k' (bucketSet kvs key value) =
      if key = k' then some value else entryLookup k' kvs := by
  induction kvs with
  | nil => simp [bucketSet_nil, entryLookup]
  | cons a rest ih =>
    obtain ⟨k, v⟩ := a
    rw [bucketSet_cons]
    by_cases h : k = key
    · subst h
      by_cases h' : k = k' <;> simp [entryLookup, h']
    · by_cases h' : k = k'
      · subst h'
        have : ¬ key = k := fun e => h e.symm
        simp [entryLookup, h, this]
      · simp [entryLookup, h, h', ih]

theorem entryLookup_eq_none_of_not_mem (kvs : List (K × V)) (key : K)
    (h : key ∉ kvs.map Prod.fst) : entryLookup key kvs = none := by
  induction kvs with
  | nil => rfl
  | cons a rest ih =>
    obtain ⟨k, v⟩ := a
    simp only [List.map_cons, List.mem_cons, not_or] at h
    have hk : ¬ k = key := fun e => h.1 e.symm
    simp [entryLookup, hk, ih h.2]

theorem entryLookup_bucketErase (kvs : List (K × V)) (key : K) (k' : K)
    (hnd : (kvs.map Prod.fst).Nodup) :
    entryLookup k' (bucketErase kvs key) =
      if key = k' then none else entryLookup k' kvs := by
  induction kvs with
  | nil => simp [bucketErase_nil, entryLookup]
  | cons a rest ih =>
    obtain ⟨k, v⟩ := a
    simp only [List.map_cons, List.nodup_cons] at hnd
    rw [bucketErase_cons]
    by_cases h : k = key
    · subst h
      by_cases h' : k = k'
      · subst h'
        simp [entryLookup, entryLookup_eq_none_of_not_mem rest k hnd.1]
      · simp [entryLookup, h']
    · by_cases h' : k = k'
      · subst h'
        have : ¬ key = k := fun e => h e.symm
        simp [entryLookup, h, this]
      · simp [entryLookup, h, h', ih hnd.2]

theorem keys_bucketSet (kvs : List (K × V)) (key : K) (value : V) :
    (bucketSet kvs key value).map Prod.fst =
      if key ∈ kvs.map Prod.fst then kvs.map Prod.fst else kvs.map Prod.fst ++ [key] := by
  induction kvs with
  | nil => simp [bucketSet_nil]
  | cons a rest ih =>
    obtain ⟨k, v⟩ := a
    rw [bucketSet_cons]
    by_cases h : k = key
    · subst h; simp
    · have : ¬ key = k := fun e => h e.symm
      simp only [h, if_false, List.map_cons, ih, List.mem_cons, this, false_or]
      split <;> simp

theorem nodup_keys_bucketSet (kvs : List (K × V)) (key : K) (value : V)
    (hnd : (kvs.map Prod.fst).Nodup) : ((bucketSet kvs key value).map Prod.fst).Nodup := by
  rw [keys_bucketSet]
  split
  · exact hnd
  · rename_i h
    rw [List.nodup_append]
    refine ⟨hnd, by simp, ?_⟩
    intro a ha hb
    simp only [List.mem_singleton] at hb
    subst hb
    exact h ha

theorem keys_bucketErase_sublist (kvs : List (K × V)) (key : K) :
    ((bucketErase kvs key).map Prod.fst).Sublist (kvs.map Prod.fst) := by
  induction kvs with
  | nil => simp [bucketErase_nil]
  | cons a rest ih =>
    obtain ⟨k, v⟩ := a
    rw [bucketErase_cons]
    by_cases h : k = key
    · simp [h]
    · simp only [h, if_false, List.map_cons]
      exact ih.cons₂ _

theorem nodup_keys_bucketErase (kvs : List (K × V)) (key : K)
    (hnd : (kvs.map Prod.fst).Nodup) : ((bucketErase kvs key).map Prod.fst).Nodup :=
  hnd.sublist (keys_bucketErase_sublist kvs key)

end HashtableLemmas

section HashtableTable

variable {K V : Type} [DecidableEq K]

theorem ConcurrentHashtable.GetBucket_eq (t : ConcurrentHashtable K V) (key : K)
    (hpos : 0 < t.m_buckets.length) :
    t.GetBucket key =
      .ok (t.m_hashFunction key % t.m_buckets.length, { keyValueList := t.entriesFor key }) := by
  have hlt : t.m_hashFunction key % t.m_buckets.length < t.m_buckets.length :=
    Nat.mod_lt _ hpos
  unfold ConcurrentHashtable.GetBucket ConcurrentHashtable.entriesFor
  rw [if_neg (by omega)]
  simp only [List.getElem?_eq_getElem hlt]

theorem ConcurrentHashtable.GetValueForKey_eq (t : ConcurrentHashtable K V) (key : K)
    (hpos : 0 < t.m_buckets.length) :
    t.GetValueForKey key = .ok (entryLookup key (t.entriesFor key)) := by
  unfold ConcurrentHashtable.GetValueForKey
  rw [t.GetBucket_eq key hpos, ← bucketRead_eq_entryLookup]
  simp only [Bucket.GetEntryForKey, bucketRead]
  cases (t.entriesFor key)[List.findIdx (fun pair => decide (pair.1 = key)) (t.entriesFor key)]? <;> rfl

theorem ConcurrentHashtable.SetValueForKey_eq (t : ConcurrentHashtable K V) (key : K) (value : V)
    (hpos : 0 < t.m_buckets.length) :
    t.SetValueForKey key value =
      .ok { t with m_buckets := t.m_buckets.set
                                (t.m_hashFunction key % t.m_buckets.length)
                                (Bucket.mk (bucketSet (t.entriesFor key) key value)) } := by
  unfold ConcurrentHashtable.SetValueForKey
  rw [t.GetBucket_eq key hpos]
  rfl

theorem ConcurrentHashtable.RemoveEntry_eq (t : ConcurrentHashtable K V) (key : K)
    (hpos : 0 < t.m_buckets.length) :
    t.RemoveEntry key =
      .ok { t with m_buckets := t.m_buckets.set
                                (t.m_hashFunction key % t.m_buckets.length)
                                (Bucket.mk (bucketErase (t.entriesFor key) key)) } := by
  unfold ConcurrentHashtable.RemoveEntry
  rw [t.GetBucket_eq key hpos]
  rfl

/-- Entry list seen by `k'` after the bucket of `key` has been replaced. -/
theorem ConcurrentHashtable.entriesFor_set (t : ConcurrentHashtable K V) (key k' : K)
    (kvs : List (K × V)) (hpos : 0 < t.m_buckets.length) :
    ConcurrentHashtable.entriesFor
        { t with m_buckets := t.m_buckets.set
                                (t.m_hashFunction key % t.m_buckets.length) (Bucket.mk kvs) } k' =
      if t.m_hashFunction key % t.m_buckets.length = t.m_hashFunction k' % t.m_buckets.length
      then kvs else t.entriesFor k' := by
  have hlt : t.m_hashFunction key % t.m_buckets.length < t.m_buckets.length :=
    Nat.mod_lt _ hpos
  unfold ConcurrentHashtable.entriesFor
  simp only [List.length_set, List.getElem?_set]
  by_cases h : t.m_hashFunction key % t.m_buckets.length
      = t.m_hashFunction k' % t.m_buckets.length
  · rw [if_pos h, if_pos h, if_pos hlt]
  · rw [if_neg h, if_neg h]

theorem ConcurrentHashtable.entriesFor_nodup (t : ConcurrentHashtable K V) (key : K)
    (hnd : t.KeysNodup) : ((t.entriesFor key).map Prod.fst).Nodup := by
  unfold ConcurrentHashtable.entriesFor
  cases h : t.m_buckets[t.m_hashFunction key % t.m_buckets.length]? with
  | none => simp
  | some bucket => exact hnd bucket (List.getElem?_mem h)

theorem ConcurrentHashtable.KeysNodup_set (t : ConcurrentHashtable K V) (i : Nat)
    (kvs : List (K × V)) (hnd : t.KeysNodup) (hk : (kvs.map Prod.fst).Nodup) :
    ConcurrentHashtable.KeysNodup
      { t with m_buckets := t.m_buckets.set i (Bucket.mk kvs) } := by
  intro bucket hb
  rcases List.mem_or_eq_of_mem_set hb with h | h
  · exact hnd bucket h
  · subst h; exact hk

end HashtableTable

section HashtableRuns

variable {K V : Type} [DecidableEq K]

theorem ConcurrentHashtable.view_set (t : ConcurrentHashtable K V) (key k' : K) (value : V)
    (hpos : 0 < t.m_buckets.length) :
    ConcurrentHashtable.view
        { t with m_buckets := t.m_buckets.set
                                (t.m_hashFunction key % t.m_buckets.length)
                                (Bucket.mk (bucketSet (t.entriesFor key) key value)) } k' =
      if key = k' then some value else t.view k' := by
  unfold ConcurrentHashtable.view
  rw [t.entriesFor_set key k' _ hpos]
  by_cases hk : key = k'
  · subst hk
    simp [entryLookup_bucketSet]
  · rw [if_neg hk]
    split
    · rename_i hh
      rw [entryLookup_bucketSet, if_neg hk]
      unfold ConcurrentHashtable.entriesFor
      rw [hh]
    · rfl

theorem ConcurrentHashtable.view_erase (t : ConcurrentHashtable K V) (key k' : K)
    (hpos : 0 < t.m_buckets.length) (hnd : t.KeysNodup) :
    ConcurrentHashtable.view
        { t with m_buckets := t.m_buckets.set
                                (t.m_hashFunction key % t.m_buckets.length)
                                (Bucket.mk (bucketErase (t.entriesFor key) key)) } k' =
      if key = k' then none else t.view k' := by
  unfold ConcurrentHashtable.view
  rw [t.entriesFor_set key k' _ hpos]
  by_cases hk : key = k'
  · subst hk
    simp [entryLookup_bucketErase _ _ _ (t.entriesFor_nodup key hnd)]
  · rw [if_neg hk]
    split
    · rename_i hh
      rw [entryLookup_bucketErase _ _ _ (t.entriesFor_nodup key hnd), if_neg hk]
      unfold ConcurrentHashtable.entriesFor
      rw [hh]
    · rfl

theorem ConcurrentHashtable.view_Clear (t : ConcurrentHashtable K V) (k' : K) :
    t.Clear.view k' = none := by
  unfold ConcurrentHashtable.view ConcurrentHashtable.entriesFor ConcurrentHashtable.Clear
  simp only [List.length_map, List.getElem?_map]
  cases t.m_buckets[t.m_hashFunction k' % t.m_buckets.length]? <;> rfl

theorem ConcurrentHashtable.KeysNodup_Clear (t : ConcurrentHashtable K V) :
    t.Clear.KeysNodup := by
  intro bucket hb
  simp only [ConcurrentHashtable.Clear, List.mem_map] at hb
  obtain ⟨_, _, rfl⟩ := hb
  simp

/-- One call on a table with at least one bucket and no duplicate keys succeeds, keeps both
properties and the hash function, and changes what is read for each key as `mapStep` says. -/
theorem ConcurrentHashtable.call_spec (t : ConcurrentHashtable K V) (c : HashtableCall K V)
    (hpos : 0 < t.m_buckets.length) (hnd : t.KeysNodup) :
    ∃ t', t.call c = .ok t' ∧ t'.m_buckets.length = t.m_buckets.length ∧ t'.KeysNodup ∧
      ∀ key, t'.view key = mapStep key (t.view key) c := by
  cases c with
  | SetValueForKey k v =>
    refine ⟨_, t.SetValueForKey_eq k v hpos, by simp, ?_, ?_⟩
    · exact t.KeysNodup_set _ _ hnd
        (nodup_keys_bucketSet _ _ _ (t.entriesFor_nodup k hnd))
    · intro key
      rw [t.view_set k key v hpos]; rfl
  | RemoveEntry k =>
    refine ⟨_, t.RemoveEntry_eq k hpos, by simp, ?_, ?_⟩
    · exact t.KeysNodup_set _ _ hnd
        (nodup_keys_bucketErase _ _ (t.entriesFor_nodup k hnd))
    · intro key
      rw [t.view_erase k key hpos hnd]; rfl
  | Clear =>
    refine ⟨t.Clear, rfl, by simp [ConcurrentHashtable.Clear], t.KeysNodup_Clear, ?_⟩
    intro key
    rw [t.view_Clear key]; rfl

theorem ConcurrentHashtable.run_spec (calls : List (HashtableCall K V)) :
    ∀ (t : ConcurrentHashtable K V), 0 < t.m_buckets.length → t.KeysNodup →
    ∃ t', t.run calls = .ok t' ∧ t'.m_buckets.length = t.m_buckets.length ∧ t'.KeysNodup ∧
      ∀ key, t'.view key = calls.foldl (mapStep key) (t.view key) := by
  induction calls with
  | nil => intro t _ hnd; exact ⟨t, rfl, rfl, hnd, fun _ => rfl⟩
  | cons c cs ih =>
    intro t hpos hnd
    obtain ⟨t1, h1, hlen1, hnd1, hv1⟩ := t.call_spec c hpos hnd
    obtain ⟨t2, h2, hlen2, hnd2, hv2⟩ := ih t1 (by omega) hnd1
    refine ⟨t2, ?_, by omega, hnd2, ?_⟩
    · simp only [ConcurrentHashtable.run, h1]; exact h2
    · intro key
      rw [hv2 key, hv1 key]; rfl

theorem ConcurrentHashtable.new_length (numBuckets : Nat) (hashFunction : K → Nat) :
    (ConcurrentHashtable.new numBuckets hashFunction : ConcurrentHashtable K V).m_buckets.length
      = numBuckets := by
  simp [ConcurrentHashtable.new]

theorem ConcurrentHashtable.new_KeysNodup (numBuckets : Nat) (hashFunction : K → Nat) :
    (ConcurrentHashtable.new numBuckets hashFunction : ConcurrentHashtable K V).KeysNodup := by
  intro bucket hb
  simp only [ConcurrentHashtable.new] at hb
  rw [List.eq_of_mem_replicate hb]
  simp

theorem ConcurrentHashtable.new_view (numBuckets : Nat) (hashFunction : K → Nat) (key : K) :
    (ConcurrentHashtable.new numBuckets hashFunction : ConcurrentHashtable K V).view key
      = none := by
  unfold ConcurrentHashtable.view ConcurrentHashtable.entriesFor
  cases h : (ConcurrentHashtable.new numBuckets hashFunction :
      ConcurrentHashtable K V).m_buckets[hashFunction key % (ConcurrentHashtable.new numBuckets
        hashFunction : ConcurrentHashtable K V).m_buckets.length]? with
  | none => simp only [ConcurrentHashtable.new] at h ⊢; rw [h]; rfl
  | some bucket =>
    have hb := List.getElem?_mem h
    simp only [ConcurrentHashtable.new] at hb h ⊢
    rw [h, List.eq_of_mem_replicate hb]
    rfl

/-- The fold of `mapStep` from the empty reading yields `some v` exactly when the call list
ends with a `SetValueForKey key v` followed only by calls that leave `key` alone. -/
theorem foldl_mapStep_eq_some (key : K) (v : V) (calls : List (HashtableCall K V)) :
    calls.foldl (mapStep key) none = some v ↔
      ∃ pre post, calls = pre ++ HashtableCall.SetValueForKey key v :: post ∧
        ∀ c ∈ post, c ≠ HashtableCall.Clear ∧ c ≠ HashtableCall.RemoveEntry key ∧
          ∀ w, c ≠ HashtableCall.SetValueForKey key w := by
  induction calls using List.reverseRecOn with
  | nil => simp
  | append_singleton cs c ih =>
    rw [List.foldl_append]
    simp only [List.foldl_cons, List.foldl_nil]
    constructor
    · intro h
      cases c with
      | SetValueForKey k w =>
        by_cases hk : k = key
        · subst hk
          simp only [mapStep, if_true, Option.some.injEq] at h
          subst h
          exact ⟨cs, [], rfl, by simp⟩
        · simp only [mapStep, if_neg hk] at h
          obtain ⟨pre, post, rfl, hp⟩ := ih.mp h
          refine ⟨pre, post ++ [HashtableCall.SetValueForKey k w], by simp, ?_⟩
          intro c hc
          rcases List.mem_append.mp hc with hc | hc
          · exact hp c hc
          · simp only [List.mem_singleton] at hc
            subst hc
            refine ⟨by simp, by simp, ?_⟩
            intro w' he
            injection he with he1 _
            exact hk he1
      | RemoveEntry k =>
        by_cases hk : k = key
        · simp [mapStep, hk] at h
        · simp only [mapStep, if_neg hk] at h
          obtain ⟨pre, post, rfl, hp⟩ := ih.mp h
          refine ⟨pre, post ++ [HashtableCall.RemoveEntry k], by simp, ?_⟩
          intro c hc
          rcases List.mem_append.mp hc with hc | hc
          · exact hp c hc
          · simp only [List.mem_singleton] at hc
            subst hc
            refine ⟨by simp, ?_, by simp⟩
            intro he
            injection he with he1
            exact hk he1
      | Clear => simp [mapStep] at h
    · rintro ⟨pre, post, heq, hp⟩
      rcases List.eq_nil_or_concat post with hpost | ⟨post', c', hpost⟩
      · subst hpost
        have h2 : cs ++ [c] = pre ++ [HashtableCall.SetValueForKey key v] := heq
        obtain ⟨_, hc⟩ := List.append_inj' h2 rfl
        simp only [List.cons.injEq, and_true] at hc
        subst hc
        simp [mapStep]
      · subst hpost
        have h2 : cs ++ [c] = (pre ++ HashtableCall.SetValueForKey key v :: post') ++ [c'] := by
          rw [heq]; simp
        obtain ⟨hcs, hc⟩ := List.append_inj' h2 rfl
        simp only [List.cons.injEq, and_true] at hc
        subst hc
        have hcs' : cs.foldl (mapStep key) none = some v :=
          ih.mpr ⟨pre, post', hcs, fun x hx => hp x (by simp [hx])⟩
        obtain ⟨h1, h2, h3⟩ := hp c (by simp)
        rw [hcs']
        cases c with
        | SetValueForKey k w =>
          have hk : ¬ k = key := fun e => h3 w (by rw [e])
          simp [mapStep, hk]
        | RemoveEntry k =>
          have hk : ¬ k = key := fun e => h2 (by rw [e])
          simp [mapStep, hk]
        | Clear => exact absurd rfl h1

end HashtableRuns

section HeapLemmas

variable {T : Type}

theorem Heap.lookup_lt {h : Heap T} {a : Nat} {node : Node T} (hl : h.lookup a = some node) :
    a < h.length := by
  unfold Heap.lookup at hl
  by_contra hge
  rw [List.getElem?_eq_none (by omega)] at hl
  cases hl

theorem Heap.lookup_alloc_old (h : Heap T) (node : Node T) (a : Nat) (ha : a < h.length) :
    (h.alloc node).1.lookup a = h.lookup a := by
  unfold Heap.lookup Heap.alloc
  simp only
  rw [List.getElem?_append_left ha]

theorem Heap.lookup_alloc_new (h : Heap T) (node : Node T) :
    (h.alloc node).1.lookup (h.alloc node).2 = some node := by
  unfold Heap.lookup Heap.alloc
  simp

theorem Heap.lookup_store_same (h : Heap T) (a : Nat) (node : Node T) (ha : a < h.length) :
    (h.store a node).lookup a = some node := by
  unfold Heap.lookup Heap.store
  rw [List.getElem?_set, if_pos rfl, if_pos ha]

theorem Heap.lookup_store_other (h : Heap T) (a b : Nat) (node : Node T) (hab : a ≠ b) :
    (h.store a node).lookup b = h.lookup b := by
  unfold Heap.lookup Heap.store
  rw [List.getElem?_set, if_neg hab]

theorem Heap.length_store (h : Heap T) (a : Nat) (node : Node T) :
    (h.store a node).length = h.length := by
  simp [Heap.store]

theorem Heap.length_alloc (h : Heap T) (node : Node T) :
    (h.alloc node).1.length = h.length + 1 := by
  simp [Heap.alloc]

theorem Heap.deref_eq {h : Heap T} {a : Nat} {node : Node T} (hl : h.lookup a = some node) :
    h.deref (some a) = .ok (a, node) := by
  simp [Heap.deref, hl]

theorem Heap.delete_eq {h : Heap T} {a : Nat} {node : Node T} (hl : h.lookup a = some node) :
    h.delete a = .ok (h.set a none) := by
  simp [Heap.delete, hl]

theorem Heap.lookup_set_none_same (h : Heap T) (a : Nat) :
    Heap.lookup (h.set a none) a = none := by
  unfold Heap.lookup
  rw [List.getElem?_set, if_pos rfl]
  by_cases ha : a < h.length
  · rw [if_pos ha]
  · rw [if_neg ha]

theorem Heap.lookup_set_none_other (h : Heap T) (a b : Nat) (hab : a ≠ b) :
    Heap.lookup (h.set a none) b = h.lookup b := by
  unfold Heap.lookup
  rw [List.getElem?_set, if_neg hab]

end HeapLemmas

section SegLemmas

variable {T : Type}

/-- A segment only depends on the cells it passes through. -/
theorem Seg.frame {h h' : Heap T} {cells : List (Nat × T)} :
    ∀ {p q : Option Nat}, Seg h p cells q →
      (∀ a ∈ cells.map Prod.fst, h'.lookup a = h.lookup a) → Seg h' p cells q := by
  induction cells with
  | nil => intro p q hs _; exact hs
  | cons c rest ih =>
    obtain ⟨a, x⟩ := c
    intro p q hs hfr
    obtain ⟨hp, next, hl, hrest⟩ := hs
    refine ⟨hp, next, ?_, ih hrest ?_⟩
    · rw [hfr a (by simp)]; exact hl
    · intro b hb
      exact hfr b (by simp only [List.map_cons, List.mem_cons]; exact Or.inr hb)

/-- Every address of a segment is an allocated cell. -/
theorem Seg.addr_lt {h : Heap T} {cells : List (Nat × T)} :
    ∀ {p q : Option Nat}, Seg h p cells q → ∀ a ∈ cells.map Prod.fst, a < h.length := by
  induction cells with
  | nil => intro p q _ a ha; simp at ha
  | cons c rest ih =>
    obtain ⟨a, x⟩ := c
    intro p q hs b hb
    obtain ⟨_, next, hl, hrest⟩ := hs
    simp only [List.map_cons, List.mem_cons] at hb
    rcases hb with rfl | hb
    · exact Heap.lookup_lt hl
    · exact ih hrest b hb

/-- Every address of a segment is the address of a node that carries a value. -/
theorem Seg.addr_data {h : Heap T} {cells : List (Nat × T)} :
    ∀ {p q : Option Nat}, Seg h p cells q → ∀ a ∈ cells.map Prod.fst,
      ∃ x next, h.lookup a = some { data := some x, next := next } := by
  induction cells with
  | nil => intro p q _ a ha; simp at ha
  | cons c rest ih =>
    obtain ⟨a, x⟩ := c
    intro p q hs b hb
    obtain ⟨_, next, hl, hrest⟩ := hs
    simp only [List.map_cons, List.mem_cons] at hb
    rcases hb with rfl | hb
    · exact ⟨x, next, hl⟩
    · exact ih hrest b hb

theorem Seg.append {h : Heap T} {c1 c2 : List (Nat × T)} {r q : Option Nat} :
    ∀ {p : Option Nat}, Seg h p c1 r → Seg h r c2 q → Seg h p (c1 ++ c2) q := by
  induction c1 with
  | nil => intro p h1 h2; cases h1; exact h2
  | cons c rest ih =>
    obtain ⟨a, x⟩ := c
    intro p h1 h2
    obtain ⟨hp, next, hl, hrest⟩ := h1
    exact ⟨hp, next, hl, ih hrest h2⟩

theorem Terminal.null (h : Heap T) : Terminal h none := by
  intro a ha; cases ha

/-- A segment with a terminal end is determined by its start. -/
theorem Seg.unique {h : Heap T} {q : Option Nat} (hq : Terminal h q) {c1 : List (Nat × T)} :
    ∀ {c2 : List (Nat × T)} {p : Option Nat}, Seg h p c1 q → Seg h p c2 q → c1 = c2 := by
  induction c1 with
  | nil =>
    intro c2 p h1 h2
    cases c2 with
    | nil => rfl
    | cons c rest =>
      obtain ⟨a, x⟩ := c
      obtain ⟨hp, next, hl, _⟩ := h2
      have h1' : p = q := h1
      exact absurd hl (hq a (h1' ▸ hp) x next)
  | cons c rest ih =>
    obtain ⟨a, x⟩ := c
    intro c2 p h1 h2
    obtain ⟨hp, next, hl, hrest⟩ := h1
    cases c2 with
    | nil =>
      have h2' : p = q := h2
      exact absurd hl (hq a (h2' ▸ hp) x next)
    | cons c' rest' =>
      obtain ⟨a', x'⟩ := c'
      obtain ⟨hp', next', hl', hrest'⟩ := h2
      have haa : a = a' := by rw [hp] at hp'; exact Option.some.inj hp'
      subst haa
      rw [hl] at hl'
      have hnode := Option.some.inj hl'
      have hx : x = x' := by
        have := congrArg Node.data hnode
        exact Option.some.inj this
      have hn : next = next' := congrArg Node.next hnode
      subst hx; subst hn
      rw [ih hrest hrest']

/-- The part of a segment that starts at one of its addresses. -/
theorem Seg.suffix {h : Heap T} {cells : List (Nat × T)} :
    ∀ {p q : Option Nat}, Seg h p cells q → ∀ a ∈ cells.map Prod.fst,
      ∃ pre suf, cells = pre ++ suf ∧ suf ≠ [] ∧ Seg h (some a) suf q := by
  induction cells with
  | nil => intro p q _ a ha; simp at ha
  | cons c rest ih =>
    obtain ⟨a, x⟩ := c
    intro p q hs b hb
    simp only [List.map_cons, List.mem_cons] at hb
    rcases hb with rfl | hb
    · obtain ⟨_, next, hl, hrest⟩ := hs
      exact ⟨[], (b, x) :: rest, rfl, by simp, rfl, next, hl, hrest⟩
    · obtain ⟨_, next, hl, hrest⟩ := hs
      obtain ⟨pre, suf, he, hne, hseg⟩ := ih hrest b hb
      exact ⟨(a, x) :: pre, suf, by rw [he]; rfl, hne, hseg⟩

/-- A segment with a terminal end passes no address twice. -/
theorem Seg.nodup {h : Heap T} {q : Option Nat} (hq : Terminal h q) {cells : List (Nat × T)} :
    ∀ {p : Option Nat}, Seg h p cells q → (cells.map Prod.fst).Nodup := by
  induction cells with
  | nil => intro p _; simp
  | cons c rest ih =>
    obtain ⟨a, x⟩ := c
    intro p hs
    have hs' := hs
    obtain ⟨hp, next, hl, hrest⟩ := hs
    rw [List.map_cons, List.nodup_cons]
    refine ⟨?_, ih hrest⟩
    intro hmem
    obtain ⟨pre, suf, he, _, hseg⟩ := Seg.suffix hrest a hmem
    rw [hp] at hs'
    have := Seg.unique hq hs' hseg
    have hlen := congrArg List.length this
    have hlen2 := congrArg List.length he
    simp only [List.length_cons, List.length_append] at hlen hlen2
    omega

/-- A segment with a terminal end has at most as many nodes as cells were ever allocated. -/
theorem Seg.length_le {h : Heap T} {q : Option Nat} (hq : Terminal h q)
    {cells : List (Nat × T)} {p : Option Nat} (hs : Seg h p cells q) :
    cells.length ≤ h.length := by
  have hnd := Seg.nodup hq hs
  have hsub : cells.map Prod.fst ⊆ List.range h.length := by
    intro a ha
    exact List.mem_range.mpr (Seg.addr_lt hs a ha)
  have := (List.subperm_of_subset hnd hsub).length_le
  simpa using this

end SegLemmas

section QueueLemmas

variable {T : Type}

/-- The tail of a queue that holds values is not one of the value nodes. -/
theorem ConcurrentQueue.tail_terminal {h : Heap T} {tail : Nat}
    (hl : h.lookup tail = some { data := none, next := none }) : Terminal h (some tail) := by
  intro a ha x next hx
  cases ha
  rw [hl] at hx
  cases hx

theorem Seg.ne_of_lookup_none {h : Heap T} {cells : List (Nat × T)} {p q : Option Nat}
    (hs : Seg h p cells q) {b : Nat} {next : Option Nat}
    (hb : h.lookup b = some { data := none, next := next }) : ∀ a ∈ cells.map Prod.fst, a ≠ b := by
  intro a ha hab
  subst hab
  obtain ⟨x, n, hx⟩ := Seg.addr_data hs a ha
  rw [hb] at hx
  cases hx

/-- The state `Push` returns on a queue whose tail is a live node. -/
theorem ConcurrentQueue.queuePush_eq (q : ConcurrentQueue T) (value : T) (tail : Nat)
    (tailNode : Node T) (ht : q.m_tail = some tail) (hl : q.heap.lookup tail = some tailNode) :
    q.Push value = .ok
      { heap := (((q.heap.alloc { data := some value, next := none }).1.store tail
                    { data := tailNode.data, next := some q.heap.length }).store tail
                    { data := some value, next := some q.heap.length }).store q.heap.length
                    { data := tailNode.data, next := none }
        m_head := q.m_head
        m_tail := some q.heap.length } := by
  have hlt : tail < q.heap.length := Heap.lookup_lt hl
  have hne : tail ≠ q.heap.length := by omega
  have h1 : (q.heap.alloc { data := some value, next := none }).1.lookup tail = some tailNode := by
    rw [Heap.lookup_alloc_old _ _ _ hlt]; exact hl
  have hlen1 : (q.heap.alloc { data := some value, next := none }).1.length
      = q.heap.length + 1 := Heap.length_alloc _ _
  have h2 : ((q.heap.alloc { data := some value, next := none }).1.store tail
      { data := tailNode.data, next := some q.heap.length }).lookup tail
        = some { data := tailNode.data, next := some q.heap.length } :=
    Heap.lookup_store_same _ _ _ (by omega)
  have h3 : ((q.heap.alloc { data := some value, next := none }).1.store tail
      { data := tailNode.data, next := some q.heap.length }).lookup q.heap.length
        = some { data := some value, next := none } := by
    rw [Heap.lookup_store_other _ _ _ _ hne]
    exact Heap.lookup_alloc_new _ _
  have h4 : (((q.heap.alloc { data := some value, next := none }).1.store tail
      { data := tailNode.data, next := some q.heap.length }).store tail
      { data := some value, next := some q.heap.length }).lookup q.heap.length
        = some { data := some value, next := none } := by
    rw [Heap.lookup_store_other _ _ _ _ hne]; exact h3
  have h5 : ((((q.heap.alloc { data := some value, next := none }).1.store tail
      { data := tailNode.data, next := some q.heap.length }).store tail
      { data := some value, next := some q.heap.length }).store q.heap.length
      { data := tailNode.data, next := none }).lookup tail
        = some { data := some value, next := some q.heap.length } := by
    rw [Heap.lookup_store_other _ _ _ _ (Ne.symm hne)]
    exact Heap.lookup_store_same _ _ _ (by rw [Heap.length_store, hlen1]; omega)
  unfold ConcurrentQueue.Push
  simp only [ht, bind, Except.bind, Heap.deref_eq h1, Heap.deref_eq h2]
  have hal : (q.heap.alloc { data := some value, next := none }).2 = q.heap.length := rfl
  simp only [hal, Heap.deref_eq h2, Heap.deref_eq h3, Heap.deref_eq h4, Heap.deref_eq h5]

end QueueLemmas

section QueueLemmas2

variable {T : Type}

theorem ConcurrentQueue.queuePush_holds (q : ConcurrentQueue T) (xs : List T) (value : T)
    (hq : q.Holds xs) : ∃ q', q.Push value = .ok q' ∧ q'.Holds (xs ++ [value]) := by
  obtain ⟨cells, tail, hseg, hmap, ht, hl⟩ := hq
  refine ⟨_, q.queuePush_eq value tail _ ht hl, ?_⟩
  have hlt : tail < q.heap.length := Heap.lookup_lt hl
  have hne : tail ≠ q.heap.length := by omega
  have hlen1 : (q.heap.alloc { data := some value, next := none }).1.length
      = q.heap.length + 1 := Heap.length_alloc _ _
  refine ⟨cells ++ [(tail, value)], q.heap.length, ?_, by simp [hmap], rfl, ?_⟩
  · refine Seg.append (?_ : Seg _ q.m_head cells (some tail)) ?_
    · apply Seg.frame hseg
      intro a ha
      have h1 : a ≠ tail := Seg.ne_of_lookup_none hseg hl a ha
      have h2 : a < q.heap.length := Seg.addr_lt hseg a ha
      rw [Heap.lookup_store_other _ _ _ _ (by omega), Heap.lookup_store_other _ _ _ _ (Ne.symm h1),
        Heap.lookup_store_other _ _ _ _ (Ne.symm h1), Heap.lookup_alloc_old _ _ _ h2]
    · refine ⟨rfl, some q.heap.length, ?_, rfl⟩
      rw [Heap.lookup_store_other _ _ _ _ (Ne.symm hne)]
      exact Heap.lookup_store_same _ _ _ (by rw [Heap.length_store, hlen1]; omega)
  · exact Heap.lookup_store_same _ _ _
      (by rw [Heap.length_store, Heap.length_store, hlen1]; omega)

/-- Facts about a non-empty queue used by all four pop functions. -/
theorem ConcurrentQueue.holds_cons {q : ConcurrentQueue T} {x : T} {rest : List T}
    (hq : q.Holds (x :: rest)) :
    ∃ head next, q.m_head = some head ∧ q.m_head ≠ q.m_tail ∧
      q.heap.lookup head = some { data := some x, next := next } ∧
      ConcurrentQueue.Holds
        { heap := q.heap.set head none, m_head := next, m_tail := q.m_tail } rest := by
  obtain ⟨cells, tail, hseg, hmap, ht, hl⟩ := hq
  cases cells with
  | nil => simp at hmap
  | cons c cells' =>
    obtain ⟨a, y⟩ := c
    simp only [List.map_cons, List.cons.injEq] at hmap
    obtain ⟨hy, hmap'⟩ := hmap
    subst hy
    have hnd := Seg.nodup (ConcurrentQueue.tail_terminal hl) hseg
    have hne := Seg.ne_of_lookup_none hseg hl
    obtain ⟨hp, next, hla, hrest⟩ := hseg
    rw [List.map_cons, List.nodup_cons] at hnd
    have hat : a ≠ tail := hne a (by simp)
    refine ⟨a, next, hp, ?_, hla, cells', tail, ?_, hmap', ht, ?_⟩
    · rw [hp, ht]; intro he; exact hat (Option.some.inj he)
    · apply Seg.frame hrest
      intro b hb
      apply Heap.lookup_set_none_other
      intro hab; subst hab; exact hnd.1 hb
    · show Heap.lookup (q.heap.set a none) tail = _
      rw [Heap.lookup_set_none_other _ _ _ hat]; exact hl

theorem ConcurrentQueue.TryPop_holds (q : ConcurrentQueue T) (x : T) (rest : List T)
    (hq : q.Holds (x :: rest)) : ∃ q', q.TryPop = .ok (some x, q') ∧ q'.Holds rest := by
  obtain ⟨head, next, hh, hne, hl, hrest⟩ := ConcurrentQueue.holds_cons hq
  refine ⟨_, ?_, hrest⟩
  unfold ConcurrentQueue.TryPop
  rw [if_neg hne]
  simp only [hh, bind, Except.bind, Heap.deref_eq hl, Heap.delete_eq hl]

theorem ConcurrentQueue.TryPopRef_holds (q : ConcurrentQueue T) (x : T) (rest : List T)
    (result : T) (hq : q.Holds (x :: rest)) :
    ∃ q', q.TryPopRef result = .ok (true, x, q') ∧ q'.Holds rest := by
  obtain ⟨head, next, hh, hne, hl, hrest⟩ := ConcurrentQueue.holds_cons hq
  refine ⟨_, ?_, hrest⟩
  unfold ConcurrentQueue.TryPopRef
  rw [if_neg hne]
  simp only [hh, bind, Except.bind, Heap.deref_eq hl, Heap.delete_eq hl]

theorem ConcurrentQueue.WaitAndPop_holds (q : ConcurrentQueue T) (x : T) (rest : List T)
    (hq : q.Holds (x :: rest)) : ∃ q', q.WaitAndPop = .ok (some x, q') ∧ q'.Holds rest := by
  obtain ⟨head, next, hh, hne, hl, hrest⟩ := ConcurrentQueue.holds_cons hq
  refine ⟨_, ?_, hrest⟩
  unfold ConcurrentQueue.WaitAndPop
  rw [if_pos hne]
  simp only [hh, bind, Except.bind, Heap.deref_eq hl, Heap.delete_eq hl]

theorem ConcurrentQueue.WaitAndPopRef_holds (q : ConcurrentQueue T) (x : T) (rest : List T)
    (result : T) (hq : q.Holds (x :: rest)) :
    ∃ q', q.WaitAndPopRef result = .ok (true, x, q') ∧ q'.Holds rest := by
  obtain ⟨head, next, hh, hne, hl, hrest⟩ := ConcurrentQueue.holds_cons hq
  refine ⟨_, ?_, hrest⟩
  unfold ConcurrentQueue.WaitAndPopRef
  rw [if_pos hne]
  simp only [hh, bind, Except.bind, Heap.deref_eq hl, Heap.delete_eq hl]

/-- An empty queue has `m_head == m_tail`. -/
theorem ConcurrentQueue.holds_nil {q : ConcurrentQueue T} (hq : q.Holds []) :
    q.m_head = q.m_tail := by
  obtain ⟨cells, tail, hseg, hmap, ht, _⟩ := hq
  cases cells with
  | nil => rw [ht]; exact hseg
  | cons c cells' => simp at hmap

theorem ConcurrentQueue.queueHolds_unique {q : ConcurrentQueue T} {xs ys : List T}
    (hx : q.Holds xs) (hy : q.Holds ys) : xs = ys := by
  obtain ⟨c1, t1, hs1, m1, ht1, hl1⟩ := hx
  obtain ⟨c2, t2, hs2, m2, ht2, _⟩ := hy
  rw [ht1] at ht2
  cases ht2
  rw [← m1, ← m2, Seg.unique (ConcurrentQueue.tail_terminal hl1) hs1 hs2]

theorem ConcurrentQueue.queueNew_holds : (ConcurrentQueue.new : ConcurrentQueue T).Holds [] :=
  ⟨[], 0, rfl, rfl, rfl, rfl⟩

end QueueLemmas2

section QueueRunLemmas

variable {T : Type}

theorem ConcurrentQueue.TryPop_nil (q : ConcurrentQueue T) (hq : q.Holds []) :
    q.TryPop = .ok (none, q) := by
  unfold ConcurrentQueue.TryPop
  rw [if_pos (ConcurrentQueue.holds_nil hq)]

theorem ConcurrentQueue.TryPopRef_nil (q : ConcurrentQueue T) (result : T) (hq : q.Holds []) :
    q.TryPopRef result = .ok (false, result, q) := by
  unfold ConcurrentQueue.TryPopRef
  rw [if_pos (ConcurrentQueue.holds_nil hq)]

/-- One call on a queue that holds `xs` (a blocking pop only when `xs` is non-empty)
succeeds; what is handed out followed by what is left equals `xs` followed by what the
call pushed. -/
theorem ConcurrentQueue.call_holds (q : ConcurrentQueue T) (xs : List T) (c : QueueCall T)
    (hq : q.Holds xs) (hw : QueueCall.waitsOnNonEmpty xs.length [c] = true) :
    ∃ q' r rest, q.call c = .ok (q', r) ∧ q'.Holds rest ∧
      r.toList ++ rest = xs ++ QueueCall.pushed [c] ∧
      rest.length = QueueCall.sizeAfter xs.length c := by
  cases c with
  | Push value =>
    obtain ⟨q', h1, h2⟩ := q.queuePush_holds xs value hq
    refine ⟨q', none, xs ++ [value], ?_, h2, rfl, by simp [QueueCall.sizeAfter]⟩
    simp only [ConcurrentQueue.call, h1, bind, Except.bind]
  | TryPop =>
    cases xs with
    | nil =>
      refine ⟨q, none, [], ?_, hq, rfl, rfl⟩
      simp only [ConcurrentQueue.call, q.TryPop_nil hq, bind, Except.bind]
    | cons x rest =>
      obtain ⟨q', h1, h2⟩ := q.TryPop_holds x rest hq
      refine ⟨q', some x, rest, ?_, h2, by simp [QueueCall.pushed], by simp [QueueCall.sizeAfter]⟩
      simp only [ConcurrentQueue.call, h1, bind, Except.bind]
  | TryPopRef result =>
    cases xs with
    | nil =>
      refine ⟨q, none, [], ?_, hq, rfl, rfl⟩
      simp [ConcurrentQueue.call, q.TryPopRef_nil result hq, bind, Except.bind]
    | cons x rest =>
      obtain ⟨q', h1, h2⟩ := q.TryPopRef_holds x rest result hq
      refine ⟨q', some x, rest, ?_, h2, by simp [QueueCall.pushed], by simp [QueueCall.sizeAfter]⟩
      simp [ConcurrentQueue.call, h1, bind, Except.bind]
  | WaitAndPop =>
    cases xs with
    | nil => simp [QueueCall.waitsOnNonEmpty] at hw
    | cons x rest =>
      obtain ⟨q', h1, h2⟩ := q.WaitAndPop_holds x rest hq
      refine ⟨q', some x, rest, ?_, h2, by simp [QueueCall.pushed], by simp [QueueCall.sizeAfter]⟩
      simp only [ConcurrentQueue.call, h1, bind, Except.bind]
  | WaitAndPopRef result =>
    cases xs with
    | nil => simp [QueueCall.waitsOnNonEmpty] at hw
    | cons x rest =>
      obtain ⟨q', h1, h2⟩ := q.WaitAndPopRef_holds x rest result hq
      refine ⟨q', some x, rest, ?_, h2, by simp [QueueCall.pushed], by simp [QueueCall.sizeAfter]⟩
      simp [ConcurrentQueue.call, h1, bind, Except.bind]

theorem QueueCall.pushed_cons (c : QueueCall T) (cs : List (QueueCall T)) :
    QueueCall.pushed (c :: cs) = QueueCall.pushed [c] ++ QueueCall.pushed cs := by
  cases c <;> simp [QueueCall.pushed]

theorem QueueCall.waitsOnNonEmpty_cons (n : Nat) (c : QueueCall T) (cs : List (QueueCall T)) :
    QueueCall.waitsOnNonEmpty n (c :: cs) =
      (QueueCall.waitsOnNonEmpty n [c] &&
        QueueCall.waitsOnNonEmpty (QueueCall.sizeAfter n c) cs) := by
  cases c <;> simp [QueueCall.waitsOnNonEmpty, QueueCall.sizeAfter]

theorem ConcurrentQueue.queueRun_holds (calls : List (QueueCall T)) :
    ∀ (q : ConcurrentQueue T) (xs : List T), q.Holds xs →
      QueueCall.waitsOnNonEmpty xs.length calls = true →
      ∃ q' popped rest, q.run calls = .ok (q', popped) ∧ q'.Holds rest ∧
        popped ++ rest = xs ++ QueueCall.pushed calls := by
  induction calls with
  | nil =>
    intro q xs hq _
    exact ⟨q, [], xs, rfl, hq, by simp [QueueCall.pushed]⟩
  | cons c cs ih =>
    intro q xs hq hw
    rw [QueueCall.waitsOnNonEmpty_cons, Bool.and_eq_true] at hw
    obtain ⟨q1, r, rest1, hc, hq1, hsplit, hlen⟩ := q.call_holds xs c hq hw.1
    obtain ⟨q2, popped, rest2, hr, hq2, hsplit2⟩ := ih q1 rest1 hq1 (by rw [hlen]; exact hw.2)
    refine ⟨q2, r.toList ++ popped, rest2, ?_, hq2, ?_⟩
    · simp only [ConcurrentQueue.run, hc, hr, bind, Except.bind]
    · rw [List.append_assoc, hsplit2, ← List.append_assoc, hsplit, QueueCall.pushed_cons c cs,
        List.append_assoc]

end QueueRunLemmas

section StackLemmas

variable {T : Type}

theorem Heap.store_lookup_self (h : Heap T) (a : Nat) (node : Node T)
    (hl : h.lookup a = some node) : h.store a node = h := by
  have hlt := Heap.lookup_lt hl
  unfold Heap.lookup at hl
  rw [List.getElem?_eq_getElem hlt] at hl
  simp only at hl
  unfold Heap.store
  apply List.ext_getElem?
  intro n
  rw [List.getElem?_set]
  by_cases hn : a = n
  · subst hn
    rw [if_pos rfl, if_pos hlt, List.getElem?_eq_getElem hlt, hl]
  · rw [if_neg hn]

/-- Once `newNode->next` equals the head, the exchange loop of `Push` ends with the head
pointing to the new node, whatever the number of spurious failures. -/
theorem LockFreeStack.pushLoop_eq (newNode : Nat) (h : Heap T) (head : Option Nat)
    (d : Option T) (hl : h.lookup newNode = some { data := d, next := head }) :
    ∀ (spurious fuel : Nat), spurious < fuel →
      LockFreeStack.pushLoop newNode fuel spurious { heap := h, m_head := head }
        = .ok { heap := h, m_head := some newNode } := by
  intro spurious
  induction spurious with
  | zero =>
    intro fuel hf
    obtain ⟨k, rfl⟩ : ∃ k, fuel = k + 1 := ⟨fuel - 1, by omega⟩
    simp only [LockFreeStack.pushLoop, bind, Except.bind, Heap.deref_eq hl, compareExchangeWeak]
    simp [Heap.store_lookup_self h newNode _ hl]
  | succ n ih =>
    intro fuel hf
    obtain ⟨k, rfl⟩ : ∃ k, fuel = k + 1 := ⟨fuel - 1, by omega⟩
    simp only [LockFreeStack.pushLoop, bind, Except.bind, Heap.deref_eq hl, compareExchangeWeak]
    simp only [Nat.zero_lt_succ, decide_True, Bool.true_eq_false, and_false, if_false,
      Bool.false_eq_true, Nat.add_sub_cancel]
    rw [Heap.store_lookup_self h newNode _ hl]
    exact ih k (by omega)

/-- The state `Push` returns. -/
theorem LockFreeStack.stackPush_eq (s : LockFreeStack T) (data : T) (spurious : Nat) :
    s.Push data spurious = .ok
      { heap := (s.heap.alloc { data := some data, next := none }).1.store s.heap.length
                  { data := some data, next := s.m_head }
        m_head := some s.heap.length } := by
  have h1 : (s.heap.alloc { data := some data, next := none }).1.lookup s.heap.length
      = some { data := some data, next := none } := Heap.lookup_alloc_new _ _
  have h2 : ((s.heap.alloc { data := some data, next := none }).1.store s.heap.length
      { data := some data, next := s.m_head }).lookup s.heap.length
        = some { data := some data, next := s.m_head } :=
    Heap.lookup_store_same _ _ _ (by rw [Heap.length_alloc]; omega)
  unfold LockFreeStack.Push
  have hal : (s.heap.alloc { data := some data, next := none }).2 = s.heap.length := rfl
  simp only [hal, bind, Except.bind, Heap.deref_eq h1]
  exact LockFreeStack.pushLoop_eq _ _ _ _ h2 spurious (spurious + 2) (by omega)

theorem LockFreeStack.stackPush_holds (s : LockFreeStack T) (xs : List T) (data : T)
    (spurious : Nat) (hs : s.Holds xs) :
    ∃ s', s.Push data spurious = .ok s' ∧ s'.Holds (data :: xs) := by
  obtain ⟨cells, hseg, hmap⟩ := hs
  refine ⟨_, s.stackPush_eq data spurious, (s.heap.length, data) :: cells, ?_, by simp [hmap]⟩
  refine ⟨rfl, s.m_head, ?_, ?_⟩
  · exact Heap.lookup_store_same _ _ _ (by rw [Heap.length_alloc]; omega)
  · apply Seg.frame hseg
    intro a ha
    have hlt : a < s.heap.length := Seg.addr_lt hseg a ha
    rw [Heap.lookup_store_other _ _ _ _ (by omega), Heap.lookup_alloc_old _ _ _ hlt]

/-- On a non-empty stack the exchange loop of `Pop` ends with the head moved to the second
node and `nodeToPop` pointing to the old top, whatever the number of spurious failures. -/
theorem LockFreeStack.popLoop_eq (h : Heap T) (a : Nat) (node : Node T)
    (hl : h.lookup a = some node) :
    ∀ (spurious fuel : Nat), spurious < fuel →
      LockFreeStack.popLoop fuel spurious { heap := h, m_head := some a } (some a)
        = .ok ({ heap := h, m_head := node.next }, some a) := by
  intro spurious
  induction spurious with
  | zero =>
    intro fuel hf
    obtain ⟨k, rfl⟩ : ∃ k, fuel = k + 1 := ⟨fuel - 1, by omega⟩
    simp [LockFreeStack.popLoop, bind, Except.bind, Heap.deref_eq hl, compareExchangeWeak]
  | succ n ih =>
    intro fuel hf
    obtain ⟨k, rfl⟩ : ∃ k, fuel = k + 1 := ⟨fuel - 1, by omega⟩
    simp only [LockFreeStack.popLoop, bind, Except.bind, Heap.deref_eq hl, compareExchangeWeak]
    simp only [Nat.zero_lt_succ, decide_True, Bool.true_eq_false, and_false, if_false,
      Bool.false_eq_true, Nat.add_sub_cancel]
    exact ih k (by omega)

theorem LockFreeStack.Pop_holds (s : LockFreeStack T) (x : T) (rest : List T)
    (spurious : Nat) (hs : s.Holds (x :: rest)) :
    ∃ s', s.Pop spurious = .ok (some x, s') ∧ s'.Holds rest := by
  obtain ⟨cells, hseg, hmap⟩ := hs
  cases cells with
  | nil => simp at hmap
  | cons c cells' =>
    obtain ⟨a, y⟩ := c
    simp only [List.map_cons, List.cons.injEq] at hmap
    obtain ⟨hy, hmap'⟩ := hmap
    subst hy
    have hnd := Seg.nodup (Terminal.null s.heap) hseg
    obtain ⟨hp, next, hla, hrest⟩ := hseg
    rw [List.map_cons, List.nodup_cons] at hnd
    have hlt := Heap.lookup_lt hla
    have hst : (s.heap.store a { data := none, next := next }).lookup a
        = some { data := none, next := next } := Heap.lookup_store_same _ _ _ hlt
    have hloop := LockFreeStack.popLoop_eq s.heap a _ hla spurious (spurious + 2) (by omega)
    refine ⟨{ heap := (s.heap.store a { data := none, next := next }).set a none,
              m_head := next }, ?_, cells', ?_, hmap'⟩
    · unfold LockFreeStack.Pop
      have hs' : s = { heap := s.heap, m_head := some a } := by
        cases s; simp only at hp; subst hp; rfl
      rw [hs']
      simp only [hp, hloop, bind, Except.bind, Heap.deref_eq hla, Heap.delete_eq hst]
    · apply Seg.frame hrest
      intro b hb
      have hab : a ≠ b := by intro hab; subst hab; exact hnd.1 hb
      show Heap.lookup ((s.heap.store a _).set a none) b = _
      rw [Heap.lookup_set_none_other _ _ _ hab, Heap.lookup_store_other _ _ _ _ hab]

theorem LockFreeStack.Pop_nil (s : LockFreeStack T) (spurious : Nat) (hs : s.Holds []) :
    s.Pop spurious = .ok (none, s) := by
  obtain ⟨cells, hseg, hmap⟩ := hs
  cases cells with
  | cons c cells' => simp at hmap
  | nil =>
    have hh : s.m_head = none := hseg
    unfold LockFreeStack.Pop
    simp [hh, LockFreeStack.popLoop, bind, Except.bind]

theorem LockFreeStack.stackNew_holds : (LockFreeStack.new : LockFreeStack T).Holds [] :=
  ⟨[], rfl, rfl⟩

theorem LockFreeStack.stackHolds_unique {s : LockFreeStack T} {xs ys : List T}
    (hx : s.Holds xs) (hy : s.Holds ys) : xs = ys := by
  obtain ⟨c1, h1, m1⟩ := hx
  obtain ⟨c2, h2, m2⟩ := hy
  rw [← m1, ← m2, Seg.unique (Terminal.null s.heap) h1 h2]

end StackLemmas

section StackRunLemmas

variable {T : Type}

theorem LockFreeStack.run_append (c1 c2 : List (StackCall T)) :
    ∀ (s s1 : LockFreeStack T) (r1 : List (Option T)), s.run c1 = .ok (s1, r1) →
      s.run (c1 ++ c2) = (match s1.run c2 with
        | .ok (s2, r2) => .ok (s2, r1 ++ r2)
        | .error e => .error e) := by
  induction c1 with
  | nil =>
    intro s s1 r1 h
    simp only [LockFreeStack.run, Except.ok.injEq, Prod.mk.injEq] at h
    obtain ⟨rfl, rfl⟩ := h
    simp only [List.nil_append]
    cases s.run c2 with
    | error e => rfl
    | ok p => rfl
  | cons c cs ih =>
    intro s s1 r1 h
    simp only [List.cons_append, LockFreeStack.run, bind, Except.bind] at h ⊢
    cases hc : s.call c with
    | error e => rw [hc] at h; cases h
    | ok p =>
      obtain ⟨sa, ra⟩ := p
      rw [hc] at h
      simp only at h ⊢
      cases hr : sa.run cs with
      | error e => rw [hr] at h; cases h
      | ok p2 =>
        obtain ⟨sb, rb⟩ := p2
        rw [hr] at h
        simp only [Except.ok.injEq, Prod.mk.injEq] at h
        obtain ⟨rfl, rfl⟩ := h
        rw [show cs.append c2 = cs ++ c2 from rfl, ih sa sb rb hr]
        cases sb.run c2 with
        | error e => rfl
        | ok p3 => simp

/-- Every run from a stack that holds `ys` succeeds, and the values handed out together with
the values left are, up to order, the values pushed together with `ys`. -/
theorem LockFreeStack.stackRun_holds (calls : List (StackCall T)) :
    ∀ (s : LockFreeStack T) (ys : List T), s.Holds ys →
      ∃ s' results rest, s.run calls = .ok (s', results) ∧ s'.Holds rest ∧
        (results.reduceOption ++ rest).Perm (StackCall.pushed calls ++ ys) := by
  induction calls with
  | nil =>
    intro s ys hs
    exact ⟨s, [], ys, rfl, hs, by simp [StackCall.pushed]⟩
  | cons c cs ih =>
    intro s ys hs
    cases c with
    | Push data spurious =>
      obtain ⟨s1, h1, hs1⟩ := s.stackPush_holds ys data spurious hs
      obtain ⟨s2, results, rest, hr, hs2, hperm⟩ := ih s1 (data :: ys) hs1
      refine ⟨s2, results, rest, ?_, hs2, ?_⟩
      · simp only [LockFreeStack.run, LockFreeStack.call, h1, hr, bind, Except.bind]
        simp
      · simp only [StackCall.pushed, List.cons_append]
        exact hperm.trans List.perm_middle
    | Pop spurious =>
      cases ys with
      | nil =>
        obtain ⟨s2, results, rest, hr, hs2, hperm⟩ := ih s [] hs
        refine ⟨s2, none :: results, rest, ?_, hs2, ?_⟩
        · simp only [LockFreeStack.run, LockFreeStack.call, s.Pop_nil spurious hs, hr, bind,
            Except.bind]
          simp
        · simpa [StackCall.pushed, List.reduceOption_cons_of_none] using hperm
      | cons y ys' =>
        obtain ⟨s1, h1, hs1⟩ := s.Pop_holds y ys' spurious hs
        obtain ⟨s2, results, rest, hr, hs2, hperm⟩ := ih s1 ys' hs1
        refine ⟨s2, some y :: results, rest, ?_, hs2, ?_⟩
        · simp only [LockFreeStack.run, LockFreeStack.call, h1, hr, bind, Except.bind]
          simp
        · simp only [StackCall.pushed, List.reduceOption_cons_of_some, List.cons_append]
          exact (hperm.cons y).trans List.perm_middle.symm

/-- Pushing the values `pushes` one after the other puts them on top in reverse order and
returns no pointer. -/
theorem LockFreeStack.run_pushes (pushes : List (T × Nat)) :
    ∀ (s : LockFreeStack T) (ys : List T), s.Holds ys →
      ∃ s', s.run (pushes.map (fun p => StackCall.Push p.1 p.2)) = .ok (s', []) ∧
        s'.Holds ((pushes.map Prod.fst).reverse ++ ys) := by
  induction pushes with
  | nil => intro s ys hs; exact ⟨s, rfl, hs⟩
  | cons p ps ih =>
    intro s ys hs
    obtain ⟨s1, h1, hs1⟩ := s.stackPush_holds ys p.1 p.2 hs
    obtain ⟨s2, hr, hs2⟩ := ih s1 (p.1 :: ys) hs1
    refine ⟨s2, ?_, ?_⟩
    · simp only [List.map_cons, LockFreeStack.run, LockFreeStack.call, h1, hr, bind, Except.bind]
      simp
    · simpa using hs2

/-- As many `Pop` calls as the stack holds values return these values, top first, and
empty the stack. -/
theorem LockFreeStack.run_pops (pops : List Nat) :
    ∀ (s : LockFreeStack T) (ys : List T), s.Holds ys → pops.length = ys.length →
      ∃ s', s.run (pops.map StackCall.Pop) = .ok (s', ys.map some) ∧ s'.Holds [] := by
  induction pops with
  | nil =>
    intro s ys hs hlen
    have : ys = [] := List.length_eq_zero.mp hlen.symm
    subst this
    exact ⟨s, rfl, hs⟩
  | cons n ns ih =>
    intro s ys hs hlen
    cases ys with
    | nil => simp at hlen
    | cons y ys' =>
      obtain ⟨s1, h1, hs1⟩ := s.Pop_holds y ys' n hs
      obtain ⟨s2, hr, hs2⟩ := ih s1 ys' hs1 (by simpa using hlen)
      refine ⟨s2, ?_, hs2⟩
      simp only [List.map_cons, LockFreeStack.run, LockFreeStack.call, h1, hr, bind, Except.bind]
      simp

end StackRunLemmas

section ListLemmas

variable {T : Type}

/-- The state `PushToFront` returns on a list whose sentinel is a live node. -/
theorem ConcurrentList.PushToFront_eq (l : ConcurrentList T) (data : T) (head : Nat)
    (headNode : Node T) (hh : l.m_head = some head) (hl : l.heap.lookup head = some headNode) :
    l.PushToFront data = .ok
      { heap := ((l.heap.alloc { data := some data, next := none }).1.store l.heap.length
                    { data := some data, next := headNode.next }).store head
                    { data := headNode.data, next := some l.heap.length }
        m_head := l.m_head } := by
  have hlt : head < l.heap.length := Heap.lookup_lt hl
  have hne : l.heap.length ≠ head := by omega
  have h1 : (l.heap.alloc { data := some data, next := none }).1.lookup head = some headNode := by
    rw [Heap.lookup_alloc_old _ _ _ hlt]; exact hl
  have h2 : (l.heap.alloc { data := some data, next := none }).1.lookup l.heap.length
      = some { data := some data, next := none } := Heap.lookup_alloc_new _ _
  have h3 : ((l.heap.alloc { data := some data, next := none }).1.store l.heap.length
      { data := some data, next := headNode.next }).lookup head = some headNode := by
    rw [Heap.lookup_store_other _ _ _ _ hne]; exact h1
  unfold ConcurrentList.PushToFront
  have hal : (l.heap.alloc { data := some data, next := none }).2 = l.heap.length := rfl
  simp only [hal, hh, bind, Except.bind, Heap.deref_eq h1, Heap.deref_eq h2, Heap.deref_eq h3]

theorem ConcurrentList.PushToFront_holds (l : ConcurrentList T) (xs : List T) (data : T)
    (hl : l.Holds xs) : ∃ l', l.PushToFront data = .ok l' ∧ l'.Holds (data :: xs) := by
  obtain ⟨head, first, cells, hh, hlk, hseg, hmap⟩ := hl
  refine ⟨_, l.PushToFront_eq data head _ hh hlk, ?_⟩
  have hlt : head < l.heap.length := Heap.lookup_lt hlk
  have hne : l.heap.length ≠ head := by omega
  refine ⟨head, some l.heap.length, (l.heap.length, data) :: cells, hh, ?_, ?_, by simp [hmap]⟩
  · exact Heap.lookup_store_same _ _ _ (by rw [Heap.length_store, Heap.length_alloc]; omega)
  · refine ⟨rfl, first, ?_, ?_⟩
    · show Heap.lookup (Heap.store _ head _) l.heap.length = _
      rw [Heap.lookup_store_other _ _ _ _ (Ne.symm hne)]
      exact Heap.lookup_store_same _ _ _ (by rw [Heap.length_alloc]; omega)
    · apply Seg.frame hseg
      intro a ha
      have h1 : a ≠ head := Seg.ne_of_lookup_none hseg hlk a ha
      have h2 : a < l.heap.length := Seg.addr_lt hseg a ha
      show Heap.lookup (Heap.store _ head _) a = _
      rw [Heap.lookup_store_other _ _ _ _ (Ne.symm h1), Heap.lookup_store_other _ _ _ _ (by omega),
        Heap.lookup_alloc_old _ _ _ h2]

theorem ConcurrentList.forEachLoop_none (function : T → T) (fuel : Nat) (h : Heap T)
    (calls : List T) :
    ConcurrentList.forEachLoop function fuel h none calls = .ok (h, calls) := by
  cases fuel <;> rfl

theorem ConcurrentList.forEachLoop_spec (function : T → T) (cells : List (Nat × T)) :
    ∀ (fuel : Nat) (h : Heap T) (p : Option Nat) (calls : List T),
      Seg h p cells none → cells.length ≤ fuel →
      ∃ h', ConcurrentList.forEachLoop function fuel h p calls
          = .ok (h', calls ++ cells.map Prod.snd) ∧
        Seg h' p (cells.map (fun c => (c.1, function c.2))) none ∧
        (∀ b, b ∉ cells.map Prod.fst → h'.lookup b = h.lookup b) := by
  induction cells with
  | nil =>
    intro fuel h p calls hseg _
    have hp : p = none := hseg
    subst hp
    exact ⟨h, by simp [ConcurrentList.forEachLoop_none], rfl, fun _ _ => rfl⟩
  | cons c rest ih =>
    obtain ⟨a, x⟩ := c
    intro fuel h p calls hseg hfuel
    have hnd := Seg.nodup (Terminal.null h) hseg
    rw [List.map_cons, List.nodup_cons] at hnd
    obtain ⟨hp, next, hla, hrest⟩ := hseg
    subst hp
    obtain ⟨k, rfl⟩ : ∃ k, fuel = k + 1 := ⟨fuel - 1, by simp at hfuel; omega⟩
    have hlt := Heap.lookup_lt hla
    have hst : (h.store a { data := some (function x), next := next }).lookup a
        = some { data := some (function x), next := next } := Heap.lookup_store_same _ _ _ hlt
    have hrest' : Seg (h.store a { data := some (function x), next := next }) next rest none := by
      apply Seg.frame hrest
      intro b hb
      apply Heap.lookup_store_other
      intro hab; subst hab; exact hnd.1 hb
    obtain ⟨h', hrun, hseg', hfr⟩ := ih k _ next (calls ++ [x]) hrest'
      (by simp at hfuel; omega)
    refine ⟨h', ?_, ?_, ?_⟩
    · simp only [ConcurrentList.forEachLoop, bind, Except.bind, Heap.deref_eq hla,
        Heap.deref_eq hst, hrun]
      simp
    · refine ⟨rfl, next, ?_, hseg'⟩
      rw [hfr a hnd.1]; exact hst
    · intro b hb
      simp only [List.map_cons, List.mem_cons, not_or] at hb
      rw [hfr b hb.2]
      exact Heap.lookup_store_other _ _ _ _ (Ne.symm hb.1)

theorem ConcurrentList.ForEach_holds (l : ConcurrentList T) (xs : List T) (function : T → T)
    (hl : l.Holds xs) : ∃ l', l.ForEach function = .ok (l', xs) ∧ l'.Holds (xs.map function) := by
  obtain ⟨head, first, cells, hh, hlk, hseg, hmap⟩ := hl
  obtain ⟨h', hrun, hseg', hfr⟩ := ConcurrentList.forEachLoop_spec function cells
    l.heap.length l.heap first [] hseg (Seg.length_le (Terminal.null _) hseg)
  refine ⟨{ l with heap := h' }, ?_, head, first, _, hh, ?_, hseg', ?_⟩
  · unfold ConcurrentList.ForEach
    simp only [hh, bind, Except.bind, Heap.deref_eq hlk, hrun]
    simp [hmap]
  · show h'.lookup head = _
    rw [hfr head (fun hmem => Seg.ne_of_lookup_none hseg hlk head hmem rfl)]
    exact hlk
  · rw [← hmap]; simp [List.map_map]

theorem ConcurrentList.findFirstIfLoop_spec (predicate : T → Bool) (cells : List (Nat × T)) :
    ∀ (fuel : Nat) (h : Heap T) (p : Option Nat),
      Seg h p cells none → cells.length ≤ fuel →
      ConcurrentList.findFirstIfLoop predicate fuel h p
        = .ok ((cells.map Prod.snd).find? predicate) := by
  induction cells with
  | nil =>
    intro fuel h p hseg _
    have hp : p = none := hseg
    subst hp
    cases fuel <;> rfl
  | cons c rest ih =>
    obtain ⟨a, x⟩ := c
    intro fuel h p hseg hfuel
    obtain ⟨hp, next, hla, hrest⟩ := hseg
    subst hp
    obtain ⟨k, rfl⟩ : ∃ k, fuel = k + 1 := ⟨fuel - 1, by simp at hfuel; omega⟩
    simp only [ConcurrentList.findFirstIfLoop, bind, Except.bind, Heap.deref_eq hla]
    by_cases hpx : predicate x = true
    · simp [hpx]
    · simp only [hpx, Bool.false_eq_true, if_false, List.map_cons, List.find?_cons]
      rw [ih k h next hrest (by simp at hfuel; omega)]

theorem ConcurrentList.FindFirstIf_holds (l : ConcurrentList T) (xs : List T)
    (predicate : T → Bool) (hl : l.Holds xs) :
    l.FindFirstIf predicate = .ok (xs.find? predicate) := by
  obtain ⟨head, first, cells, hh, hlk, hseg, hmap⟩ := hl
  unfold ConcurrentList.FindFirstIf
  simp only [hh, bind, Except.bind, Heap.deref_eq hlk]
  rw [ConcurrentList.findFirstIfLoop_spec predicate cells l.heap.length l.heap first hseg
    (Seg.length_le (Terminal.null _) hseg), hmap]

theorem map_snd_filter (predicate : T → Bool) (cells : List (Nat × T)) :
    (cells.filter (fun c => !predicate c.2)).map Prod.snd
      = (cells.map Prod.snd).filter (fun x => !predicate x) := by
  induction cells with
  | nil => rfl
  | cons c rest ih =>
    by_cases hc : predicate c.2 = true <;> simp [List.filter_cons, hc, ih]

theorem ConcurrentList.removeIfLoop_spec (predicate : T → Bool) (cells : List (Nat × T)) :
    ∀ (fuel : Nat) (h : Heap T) (previous : Nat) (current : Option Nat) (d : Option T),
      h.lookup previous = some { data := d, next := current } →
      Seg h current cells none → previous ∉ cells.map Prod.fst → cells.length ≤ fuel →
      ∃ h' current', ConcurrentList.removeIfLoop predicate fuel h previous current = .ok h' ∧
        h'.lookup previous = some { data := d, next := current' } ∧
        Seg h' current' (cells.filter (fun c => !predicate c.2)) none ∧
        (∀ b, b ≠ previous → b ∉ cells.map Prod.fst → h'.lookup b = h.lookup b) := by
  induction cells with
  | nil =>
    intro fuel h previous current d hprev hseg _ _
    have hp : current = none := hseg
    subst hp
    refine ⟨h, none, ?_, hprev, rfl, fun _ _ _ => rfl⟩
    cases fuel <;> rfl
  | cons c rest ih =>
    obtain ⟨a, x⟩ := c
    intro fuel h previous current d hprev hseg hnotin hfuel
    have hnd := Seg.nodup (Terminal.null h) hseg
    rw [List.map_cons, List.nodup_cons] at hnd
    obtain ⟨hp, next, hla, hrest⟩ := hseg
    subst hp
    simp only [List.map_cons, List.mem_cons, not_or] at hnotin
    obtain ⟨hpa, hprest⟩ := hnotin
    obtain ⟨k, rfl⟩ : ∃ k, fuel = k + 1 := ⟨fuel - 1, by simp at hfuel; omega⟩
    have hk : rest.length ≤ k := by simp at hfuel; omega
    by_cases hpx : predicate x = true
    · -- the node is unlinked and deleted
      have hltp := Heap.lookup_lt hprev
      have h1a : (h.store previous { data := d, next := next }).lookup a
          = some { data := some x, next := next } := by
        rw [Heap.lookup_store_other _ _ _ _ hpa]; exact hla
      have h2p : Heap.lookup ((h.store previous { data := d, next := next }).set a none) previous
          = some { data := d, next := next } := by
        rw [Heap.lookup_set_none_other _ _ _ (Ne.symm hpa)]
        exact Heap.lookup_store_same _ _ _ hltp
      have hrest' : Seg ((h.store previous { data := d, next := next }).set a none)
          next rest none := by
        apply Seg.frame hrest
        intro b hb
        have hba : a ≠ b := by intro hab; subst hab; exact hnd.1 hb
        have hbp : previous ≠ b := by intro hab; subst hab; exact hprest hb
        rw [Heap.lookup_set_none_other _ _ _ hba, Heap.lookup_store_other _ _ _ _ hbp]
      obtain ⟨h', cur', hrun, hprev', hseg', hfr⟩ := ih k _ previous next d h2p hrest' hprest hk
      refine ⟨h', cur', ?_, hprev', ?_, ?_⟩
      · simp only [ConcurrentList.removeIfLoop, bind, Except.bind, Heap.deref_eq hla, hpx,
          if_true, Heap.deref_eq hprev, Heap.deref_eq h1a, Heap.delete_eq h1a]
        exact hrun
      · simpa [List.filter_cons, hpx] using hseg'
      · intro b hbp hb
        simp only [List.map_cons, List.mem_cons, not_or] at hb
        rw [hfr b hbp hb.2, Heap.lookup_set_none_other _ _ _ (Ne.symm hb.1),
          Heap.lookup_store_other _ _ _ _ (Ne.symm hbp)]
    · -- the node is kept and becomes the predecessor
      obtain ⟨h', cur', hrun, hprev', hseg', hfr⟩ := ih k h a next (some x) hla hrest hnd.1 hk
      refine ⟨h', some a, ?_, ?_, ?_, ?_⟩
      · simp only [ConcurrentList.removeIfLoop, bind, Except.bind, Heap.deref_eq hla, hpx,
          Bool.false_eq_true, if_false]
        exact hrun
      · rw [hfr previous hpa hprest]; exact hprev
      · have : List.filter (fun c : Nat × T => !predicate c.2) ((a, x) :: rest)
            = (a, x) :: List.filter (fun c : Nat × T => !predicate c.2) rest := by
          simp [List.filter_cons, hpx]
        rw [this]
        exact ⟨rfl, cur', hprev', hseg'⟩
      · intro b _ hb
        simp only [List.map_cons, List.mem_cons, not_or] at hb
        exact hfr b hb.1 hb.2

theorem ConcurrentList.RemoveIf_holds (l : ConcurrentList T) (xs : List T)
    (predicate : T → Bool) (hl : l.Holds xs) :
    ∃ l', l.RemoveIf predicate = .ok l' ∧ l'.Holds (xs.filter (fun x => !predicate x)) := by
  obtain ⟨head, first, cells, hh, hlk, hseg, hmap⟩ := hl
  obtain ⟨h', cur', hrun, hprev', hseg', _⟩ := ConcurrentList.removeIfLoop_spec predicate cells
    l.heap.length l.heap head first none hlk hseg
    (fun hmem => Seg.ne_of_lookup_none hseg hlk head hmem rfl)
    (Seg.length_le (Terminal.null _) hseg)
  refine ⟨{ l with heap := h' }, ?_, head, cur', _, hh, hprev', hseg', ?_⟩
  · unfold ConcurrentList.RemoveIf
    simp only [hh, bind, Except.bind, Heap.deref_eq hlk, hrun]
  · rw [← hmap]
    exact map_snd_filter predicate cells

theorem ConcurrentList.listNew_holds : (ConcurrentList.new : ConcurrentList T).Holds [] :=
  ⟨0, none, [], rfl, rfl, rfl, rfl⟩

theorem ConcurrentList.listHolds_unique {l : ConcurrentList T} {xs ys : List T}
    (hx : l.Holds xs) (hy : l.Holds ys) : xs = ys := by
  obtain ⟨h1, f1, c1, hh1, hl1, hs1, m1⟩ := hx
  obtain ⟨h2, f2, c2, hh2, hl2, hs2, m2⟩ := hy
  rw [hh1] at hh2
  cases hh2
  rw [hl1] at hl2
  cases hl2
  rw [← m1, ← m2, Seg.unique (Terminal.null l.heap) hs1 hs2]

end ListLemmas

/-- Claim C1. Under sequential use the hashtable is a finite map: on a table freshly
constructed with at least one bucket and any hash function, every finite sequence of
`SetValueForKey` / `RemoveEntry` / `Clear` calls runs to completion, and `GetValueForKey key`
afterwards returns `some v` exactly when the calls contain a `SetValueForKey key v` that is
followed by no `Clear`, no `RemoveEntry key` and no further `SetValueForKey key _` (so it is
empty otherwise, in particular for a key never inserted); every non-empty result is a value
that was set for that key. -/
theorem hashtable_is_finite_map {K V : Type} [DecidableEq K] (numBuckets : Nat)
    (hashFunction : K → Nat) (calls : List (HashtableCall K V)) (key : K)
    (hBuckets : 1 ≤ numBuckets) :
    ∃ t r, (ConcurrentHashtable.new numBuckets hashFunction).run calls = .ok t ∧
      t.GetValueForKey key = .ok r ∧
      (∀ v, r = some v ↔
        ∃ pre post, calls = pre ++ HashtableCall.SetValueForKey key v :: post ∧
          ∀ c ∈ post, c ≠ HashtableCall.Clear ∧ c ≠ HashtableCall.RemoveEntry key ∧
            ∀ w, c ≠ HashtableCall.SetValueForKey key w) ∧
      (∀ v, r = some v → HashtableCall.SetValueForKey key v ∈ calls) := by
  obtain ⟨t, hrun, hlen, _, hview⟩ :=
    ConcurrentHashtable.run_spec calls
      (ConcurrentHashtable.new numBuckets hashFunction : ConcurrentHashtable K V)
      (by rw [ConcurrentHashtable.new_length]; omega)
      (ConcurrentHashtable.new_KeysNodup numBuckets hashFunction)
  have hpos : 0 < t.m_buckets.length := by
    rw [hlen, ConcurrentHashtable.new_length]; omega
  have hget := t.GetValueForKey_eq key hpos
  have hr : entryLookup key (t.entriesFor key) = calls.foldl (mapStep key) none := by
    have := hview key
    rw [ConcurrentHashtable.new_view] at this
    exact this
  refine ⟨t, _, hrun, hget, ?_, ?_⟩
  · intro v
    rw [hr]
    exact foldl_mapStep_eq_some key v calls
  · intro v hv
    rw [hr] at hv
    obtain ⟨pre, post, rfl, _⟩ := (foldl_mapStep_eq_some key v calls).mp hv
    simp

/-- Claim C1, at a concrete run: five buckets, the identity hash, and the calls
set(1,10), set(6,60), set(1,11), remove(6), read back at key 1. -/
theorem hashtable_is_finite_map_witness :
    ∃ t r, (ConcurrentHashtable.new 5 (fun k : Nat => k)).run
        [HashtableCall.SetValueForKey 1 10, HashtableCall.SetValueForKey 6 60,
         HashtableCall.SetValueForKey 1 11, HashtableCall.RemoveEntry 6] = .ok t ∧
      t.GetValueForKey 1 = .ok r ∧
      (∀ v : Nat, r = some v ↔
        ∃ pre post, [HashtableCall.SetValueForKey 1 10, HashtableCall.SetValueForKey 6 60,
            HashtableCall.SetValueForKey 1 11, HashtableCall.RemoveEntry 6]
              = pre ++ HashtableCall.SetValueForKey 1 v :: post ∧
          ∀ c ∈ post, c ≠ HashtableCall.Clear ∧ c ≠ HashtableCall.RemoveEntry 1 ∧
            ∀ w, c ≠ HashtableCall.SetValueForKey 1 w) ∧
      (∀ v : Nat, r = some v → HashtableCall.SetValueForKey 1 v ∈
          [HashtableCall.SetValueForKey 1 10, HashtableCall.SetValueForKey 6 60,
           HashtableCall.SetValueForKey 1 11, HashtableCall.RemoveEntry 6]) :=
  hashtable_is_finite_map 5 (fun k : Nat => k) _ 1 (by decide)

/-- Claim C2. The queue is FIFO at the level of single operations: on every queue that
holds `xs`, `Push value` succeeds and leaves a queue that holds `xs ++ [value]`; and when
`xs = x :: rest`, `TryPop()` returns a pointer to `x` and leaves a queue that holds `rest`. -/
theorem queue_push_trypop_fifo {T : Type} (q : ConcurrentQueue T) (xs : List T) (value : T)
    (hq : q.Holds xs) :
    (∃ q', q.Push value = .ok q' ∧ q'.Holds (xs ++ [value])) ∧
    (∀ x rest, xs = x :: rest → ∃ q', q.TryPop = .ok (some x, q') ∧ q'.Holds rest) := by
  refine ⟨q.queuePush_holds xs value hq, ?_⟩
  intro x rest hx
  subst hx
  exact q.TryPop_holds x rest hq

/-- Claim C2, on the queue that holds 1, 2: pushing 3 gives 1, 2, 3 and `TryPop()` returns 1
and leaves 2. -/
theorem queue_push_trypop_fifo_witness :
    sampleQueue.Holds [1, 2] ∧
    (∃ q', sampleQueue.Push 3 = .ok q' ∧ q'.Holds [1, 2, 3]) ∧
    (∃ q', sampleQueue.TryPop = .ok (some 1, q') ∧ q'.Holds [2]) :=
  have hq : sampleQueue.Holds [1, 2] :=
    ⟨[(0, 1), (1, 2)], 2, ⟨rfl, some 1, rfl, rfl, some 2, rfl, rfl⟩, rfl, rfl, rfl⟩
  ⟨hq, (queue_push_trypop_fifo sampleQueue [1, 2] 3 hq).1,
    (queue_push_trypop_fifo sampleQueue [1, 2] 3 hq).2 1 [2] rfl⟩

/-- Claim C3. On a freshly constructed queue, every sequence of `Push`, `TryPop()`,
`TryPop(T&)` and (on a non-empty queue only) `WaitAndPop` calls runs to completion, and the
values handed out by the pops, in order, followed by the values still in the queue, are
exactly the values pushed, in order.  So the popped sequence is an initial segment of the
pushed sequence: every popped value was pushed, none is handed out twice, and values are
popped in the order they were pushed. -/
theorem queue_pops_follow_pushes {T : Type} (calls : List (QueueCall T))
    (hw : QueueCall.waitsOnNonEmpty 0 calls = true) :
    ∃ q' popped rest, (ConcurrentQueue.new : ConcurrentQueue T).run calls = .ok (q', popped) ∧
      q'.Holds rest ∧ popped ++ rest = QueueCall.pushed calls ∧
      popped <+: QueueCall.pushed calls := by
  obtain ⟨q', popped, rest, hr, hq', hsplit⟩ :=
    ConcurrentQueue.queueRun_holds calls ConcurrentQueue.new [] ConcurrentQueue.queueNew_holds hw
  rw [List.nil_append] at hsplit
  exact ⟨q', popped, rest, hr, hq', hsplit, ⟨rest, hsplit⟩⟩

/-- Claim C3, on a run that uses all five calls: push 1, 2, 3, pop with each of the four
pop functions, pop once more on the empty queue, push 4. -/
theorem queue_pops_follow_pushes_witness :
    ∃ q' popped rest, (ConcurrentQueue.new : ConcurrentQueue Nat).run
        [QueueCall.Push 1, QueueCall.Push 2, QueueCall.TryPop, QueueCall.Push 3,
         QueueCall.WaitAndPop, QueueCall.WaitAndPopRef 0, QueueCall.TryPopRef 0,
         QueueCall.TryPop, QueueCall.Push 4] = .ok (q', popped) ∧
      q'.Holds rest ∧
      popped ++ rest = QueueCall.pushed
        [QueueCall.Push 1, QueueCall.Push 2, QueueCall.TryPop, QueueCall.Push 3,
         QueueCall.WaitAndPop, QueueCall.WaitAndPopRef 0, QueueCall.TryPopRef 0,
         QueueCall.TryPop, QueueCall.Push 4] ∧
      popped <+: QueueCall.pushed
        [QueueCall.Push 1, QueueCall.Push 2, QueueCall.TryPop, QueueCall.Push 3,
         QueueCall.WaitAndPop, QueueCall.WaitAndPopRef 0, QueueCall.TryPopRef 0,
         QueueCall.TryPop, QueueCall.Push 4] :=
  queue_pops_follow_pushes _ (by decide)

/-- Claim C4. The stack is exactly LIFO for a sequential caller: on every stack state,
`Push data` followed by `Pop()` succeeds whatever the number of spurious exchange failures,
the `Pop` returns a pointer to `data`, the head pointer and every live node are as before,
and if the stack held `xs` it holds `xs` again.  Pushing 1, 2, 3 onto an empty stack and
popping twice yields 3, then 2, and leaves a stack that holds exactly 1. -/
theorem stack_push_pop_lifo {T : Type} :
    (∀ (s : LockFreeStack T) (data : T) (n m : Nat),
      ∃ s1 s2, s.Push data n = .ok s1 ∧ s1.Pop m = .ok (some data, s2) ∧
        s2.m_head = s.m_head ∧ (∀ a, s2.heap.lookup a = s.heap.lookup a) ∧
        ∀ xs, s.Holds xs → s2.Holds xs) ∧
    (∀ n1 n2 n3 m1 m2 : Nat, ∃ s1 s2 s3 s4 s5 : LockFreeStack Nat,
      LockFreeStack.new.Push 1 n1 = .ok s1 ∧ s1.Push 2 n2 = .ok s2 ∧ s2.Push 3 n3 = .ok s3 ∧
      s3.Pop m1 = .ok (some 3, s4) ∧ s4.Pop m2 = .ok (some 2, s5) ∧ s5.Holds [1]) := by
  constructor
  · intro s data n m
    have hnew : ((s.heap.alloc { data := some data, next := none }).1.store s.heap.length
        { data := some data, next := s.m_head }).lookup s.heap.length
          = some { data := some data, next := s.m_head } :=
      Heap.lookup_store_same _ _ _ (by rw [Heap.length_alloc]; omega)
    have hst : (((s.heap.alloc { data := some data, next := none }).1.store s.heap.length
        { data := some data, next := s.m_head }).store s.heap.length
        { data := none, next := s.m_head }).lookup s.heap.length
          = some { data := none, next := s.m_head } :=
      Heap.lookup_store_same _ _ _ (by rw [Heap.length_store, Heap.length_alloc]; omega)
    have hframe : ∀ a, Heap.lookup ((((s.heap.alloc { data := some data, next := none }).1.store
        s.heap.length { data := some data, next := s.m_head }).store s.heap.length
        { data := none, next := s.m_head }).set s.heap.length none) a = s.heap.lookup a := by
      intro a
      by_cases ha : s.heap.length = a
      · subst ha
        rw [Heap.lookup_set_none_same]
        unfold Heap.lookup
        rw [List.getElem?_eq_none (Nat.le_refl _)]
      · rw [Heap.lookup_set_none_other _ _ _ ha, Heap.lookup_store_other _ _ _ _ ha,
          Heap.lookup_store_other _ _ _ _ ha]
        unfold Heap.lookup Heap.alloc
        by_cases hlt : a < s.heap.length
        · rw [List.getElem?_append_left hlt]
        · rw [List.getElem?_eq_none (by simp; omega), List.getElem?_eq_none (by omega)]
    refine ⟨_, { heap := (((s.heap.alloc { data := some data, next := none }).1.store
        s.heap.length { data := some data, next := s.m_head }).store s.heap.length
        { data := none, next := s.m_head }).set s.heap.length none, m_head := s.m_head },
      s.stackPush_eq data n, ?_, rfl, hframe, ?_⟩
    · unfold LockFreeStack.Pop
      simp only [LockFreeStack.popLoop_eq _ _ _ hnew m (m + 2) (by omega), bind, Except.bind,
        Heap.deref_eq hnew, Heap.delete_eq hst]
    · rintro xs ⟨cells, hseg, hmap⟩
      exact ⟨cells, Seg.frame hseg (fun a _ => hframe a), hmap⟩
  · intro n1 n2 n3 m1 m2
    obtain ⟨s1, h1, hs1⟩ := LockFreeStack.stackPush_holds LockFreeStack.new [] 1 n1
      LockFreeStack.stackNew_holds
    obtain ⟨s2, h2, hs2⟩ := s1.stackPush_holds [1] 2 n2 hs1
    obtain ⟨s3, h3, hs3⟩ := s2.stackPush_holds [2, 1] 3 n3 hs2
    obtain ⟨s4, h4, hs4⟩ := s3.Pop_holds 3 [2, 1] m1 hs3
    obtain ⟨s5, h5, hs5⟩ := s4.Pop_holds 2 [1] m2 hs4
    exact ⟨s1, s2, s3, s4, s5, h1, h2, h3, h4, h5, hs5⟩

/-- Claim C4, on the stack that holds 2, 1: pushing 7 (two spurious failures) and popping
(one spurious failure) returns 7 and leaves 2, 1. -/
theorem stack_push_pop_lifo_witness :
    sampleStack.Holds [2, 1] ∧
    ∃ s1 s2, sampleStack.Push 7 2 = .ok s1 ∧ s1.Pop 1 = .ok (some 7, s2) ∧ s2.Holds [2, 1] :=
  have hs : sampleStack.Holds [2, 1] :=
    ⟨[(1, 2), (0, 1)], ⟨rfl, some 0, rfl, rfl, none, rfl, rfl⟩, rfl⟩
  ⟨hs, (stack_push_pop_lifo.1 sampleStack 7 2 1).imp fun _ h1 =>
    h1.imp fun _ h2 => ⟨h2.1, h2.2.1, h2.2.2.2.2 [2, 1] hs⟩⟩

/-- Claim C5. On a freshly constructed stack every sequence of `Push` and `Pop` calls runs
to completion, whatever the spurious exchange failures; the values returned by the `Pop`
calls together with the values left on the stack are, counted with multiplicity, exactly
the values pushed.  Hence every returned value was pushed, no pushed occurrence is returned
twice, and the non-empty `Pop` results are at most as many as the pushes.  In particular,
after pushing values and calling `Pop` once per pushed value, the results are all non-empty
and are the pushed values in reverse order, and one further `Pop` returns empty. -/
theorem stack_pops_come_from_pushes {T : Type} :
    (∀ calls : List (StackCall T),
      ∃ s' results rest, (LockFreeStack.new : LockFreeStack T).run calls = .ok (s', results) ∧
        s'.Holds rest ∧
        (results.reduceOption ++ rest).Perm (StackCall.pushed calls) ∧
        results.reduceOption.Subperm (StackCall.pushed calls) ∧
        (∀ v ∈ results.reduceOption, v ∈ StackCall.pushed calls) ∧
        results.reduceOption.length ≤ (StackCall.pushed calls).length) ∧
    (∀ (pushes : List (T × Nat)) (pops : List Nat) (last : Nat),
      pops.length = pushes.length →
      ∃ s', (LockFreeStack.new : LockFreeStack T).run
          (pushes.map (fun p => StackCall.Push p.1 p.2) ++ pops.map StackCall.Pop
            ++ [StackCall.Pop last])
          = .ok (s', (pushes.map Prod.fst).reverse.map some ++ [none]) ∧ s'.Holds []) := by
  constructor
  · intro calls
    obtain ⟨s', results, rest, hr, hs', hperm⟩ :=
      LockFreeStack.stackRun_holds calls LockFreeStack.new [] LockFreeStack.stackNew_holds
    rw [List.append_nil] at hperm
    have hsub : results.reduceOption.Subperm (StackCall.pushed calls) :=
      (List.sublist_append_left _ rest).subperm.trans hperm.subperm
    exact ⟨s', results, rest, hr, hs', hperm, hsub, fun v hv => hsub.subset hv, hsub.length_le⟩
  · intro pushes pops last hlen
    obtain ⟨s1, h1, hs1⟩ := LockFreeStack.run_pushes pushes LockFreeStack.new []
      LockFreeStack.stackNew_holds
    rw [List.append_nil] at hs1
    obtain ⟨s2, h2, hs2⟩ := LockFreeStack.run_pops pops s1 _ hs1 (by simp [hlen])
    have h3 : s2.run [StackCall.Pop last] = .ok (s2, [none]) := by
      simp only [LockFreeStack.run, LockFreeStack.call, s2.Pop_nil last hs2, bind, Except.bind]
      simp
    have h12 := LockFreeStack.run_append _ (pops.map StackCall.Pop) _ _ _ h1
    rw [h2] at h12
    simp only [List.nil_append] at h12
    have h123 := LockFreeStack.run_append _ [StackCall.Pop last] _ _ _ h12
    rw [h3] at h123
    exact ⟨s2, h123, hs2⟩

/-- Claim C5, at a concrete run: push 5, 6, 7 (with spurious failures), pop three times,
pop once more. -/
theorem stack_pops_come_from_pushes_witness :
    ∃ s', (LockFreeStack.new : LockFreeStack Nat).run
        [StackCall.Push 5 0, StackCall.Push 6 1, StackCall.Push 7 2,
         StackCall.Pop 0, StackCall.Pop 3, StackCall.Pop 1, StackCall.Pop 0]
        = .ok (s', [some 7, some 6, some 5, none]) ∧ s'.Holds [] :=
  stack_pops_come_from_pushes.2 [(5, 0), (6, 1), (7, 2)] [0, 3, 1] 0 rfl

/-- Claim C6. `RemoveIf` of the fixed-sentinel list removes exactly the elements that
satisfy the predicate: on every list that holds `xs`, the call succeeds and leaves a list
that holds the elements of `xs` that do not satisfy the predicate, in their original
order. -/
theorem list_removeIf_filters {T : Type} (l : ConcurrentList T) (xs : List T)
    (predicate : T → Bool) (hl : l.Holds xs) :
    ∃ l', l.RemoveIf predicate = .ok l' ∧ l'.Holds (xs.filter (fun x => !predicate x)) :=
  l.RemoveIf_holds xs predicate hl

/-- Claim C6, on the list that holds 2, 4, 1, 6 with `IsEven`: the first element, two
adjacent elements and the last element match, and 1 alone is left. -/
theorem list_removeIf_filters_witness :
    sampleList.Holds [2, 4, 1, 6] ∧
    ∃ l', sampleList.RemoveIf IsEven = .ok l' ∧ l'.Holds [1] :=
  have hl : sampleList.Holds [2, 4, 1, 6] :=
    ⟨0, some 1, [(1, 2), (2, 4), (3, 1), (4, 6)], rfl, rfl,
      ⟨rfl, some 2, rfl, rfl, some 3, rfl, rfl, some 4, rfl, rfl, none, rfl, rfl⟩, rfl⟩
  ⟨hl, list_removeIf_filters sampleList [2, 4, 1, 6] IsEven hl⟩

section ListRunValueLemmas

variable {T : Type}

/-- Every run on a list that holds values returns, and the values held afterwards are
among the values held before and the values pushed, as changed by the later `ForEach`
calls. -/
theorem ConcurrentList.run_values (calls : List (ListCall T)) :
    ∀ (l : ConcurrentList T) (xs acc : List T), l.Holds xs → xs ⊆ acc →
      ∃ l' results ys, l.run calls = .ok (l', results) ∧ l'.Holds ys ∧
        ys ⊆ ListCall.pushedThenMapped acc calls := by
  induction calls with
  | nil => intro l xs acc hl hsub; exact ⟨l, [], xs, rfl, hl, hsub⟩
  | cons c cs ih =>
    intro l xs acc hl hsub
    cases c with
    | PushToFront data =>
      obtain ⟨l1, h1, hl1⟩ := l.PushToFront_holds xs data hl
      obtain ⟨l2, rs, ys, h2, hl2, hs2⟩ := ih l1 (data :: xs) (data :: acc) hl1
        (List.cons_subset_cons data hsub)
      refine ⟨l2, .done :: rs, ys, ?_, hl2, hs2⟩
      simp only [ConcurrentList.run, ConcurrentList.call, h1, h2, bind, Except.bind]
    | ForEach function =>
      obtain ⟨l1, h1, hl1⟩ := l.ForEach_holds xs function hl
      obtain ⟨l2, rs, ys, h2, hl2, hs2⟩ := ih l1 (xs.map function) (acc.map function) hl1
        (List.map_subset function hsub)
      refine ⟨l2, .visited xs :: rs, ys, ?_, hl2, hs2⟩
      simp only [ConcurrentList.run, ConcurrentList.call, h1, h2, bind, Except.bind]
    | FindFirstIf predicate =>
      have h1 := l.FindFirstIf_holds xs predicate hl
      obtain ⟨l2, rs, ys, h2, hl2, hs2⟩ := ih l xs acc hl hsub
      refine ⟨l2, .found (xs.find? predicate) :: rs, ys, ?_, hl2, hs2⟩
      simp only [ConcurrentList.run, ConcurrentList.call, h1, h2, bind, Except.bind]
    | RemoveIf predicate =>
      obtain ⟨l1, h1, hl1⟩ := l.RemoveIf_holds xs predicate hl
      obtain ⟨l2, rs, ys, h2, hl2, hs2⟩ := ih l1 _ acc hl1
        (fun v hv => hsub (List.mem_of_mem_filter hv))
      refine ⟨l2, .done :: rs, ys, ?_, hl2, hs2⟩
      simp only [ConcurrentList.run, ConcurrentList.call, h1, h2, bind, Except.bind]

/-- Without `ForEach` calls the values are the old ones and the pushed ones, unchanged. -/
theorem ListCall.pushedThenMapped_mem (calls : List (ListCall T)) :
    (∀ c ∈ calls, c.isForEach = false) → ∀ (acc : List T) (v : T),
      v ∈ ListCall.pushedThenMapped acc calls → v ∈ acc ∨ v ∈ ListCall.pushed calls := by
  induction calls with
  | nil => intro _ acc v hv; exact Or.inl hv
  | cons c cs ih =>
    intro hno acc v hv
    have hcs : ∀ c ∈ cs, c.isForEach = false := fun c hc => hno c (List.mem_cons_of_mem _ hc)
    cases c with
    | PushToFront data =>
      rcases ih hcs (data :: acc) v hv with h | h
      · rcases List.mem_cons.mp h with h | h
        · exact Or.inr (by rw [h]; exact List.mem_cons_self _ _)
        · exact Or.inl h
      · exact Or.inr (List.mem_cons_of_mem _ h)
    | ForEach function =>
      have := hno (.ForEach function) (List.mem_cons_self _ _)
      simp [ListCall.isForEach] at this
    | FindFirstIf predicate => exact ih hcs acc v hv
    | RemoveIf predicate => exact ih hcs acc v hv

end ListRunValueLemmas

/-- Claim C7 as stated fails in its last sentence: after `PushToFront(1)` and `ForEach` with
the `DoubleInteger` of the tests, `FindFirstIf` returns the value 2, and the only value that
was ever pushed is 1. -/
theorem findFirstIf_returns_unpushed_value :
    ∃ l results,
      (ConcurrentList.new : ConcurrentList Int).run
        [.PushToFront 1, .ForEach DoubleInteger] = .ok (l, results) ∧
      l.Holds [2] ∧
      l.FindFirstIf (fun _ => true) = .ok (some 2) ∧
      ListCall.pushed [ListCall.PushToFront (1 : Int), ListCall.ForEach DoubleInteger] = [1] ∧
      (2 : Int) ∉
        ListCall.pushed [ListCall.PushToFront (1 : Int), ListCall.ForEach DoubleInteger] :=
  ⟨_, _, rfl, ⟨0, some 1, [(1, 2)], rfl, rfl, ⟨rfl, none, rfl, rfl⟩, rfl⟩, rfl, rfl,
    by decide⟩

/-- Claim C7, amended.  `FindFirstIf` returns the first element, front to back, that
satisfies the predicate: on every list that holds `xs` the call succeeds; a non-empty result
`v` satisfies the predicate, occurs in `xs`, and no element before that occurrence satisfies
the predicate; the result is empty exactly when no element of `xs` satisfies the predicate.
The function only reads the list (its model has no state to return), so the list holds
`xs` afterwards.  On the list reached by any run of calls from construction, a non-empty
result is a value the list holds, hence a pushed value as changed by the `ForEach` calls
made after its push; when the run contains no `ForEach` call it is a value that was
pushed. -/
theorem list_findFirstIf_first_match {T : Type} (l : ConcurrentList T) (xs : List T)
    (predicate : T → Bool) (hl : l.Holds xs) :
    (∃ r, l.FindFirstIf predicate = .ok r ∧ r = xs.find? predicate ∧
      (∀ v, r = some v → predicate v = true ∧ v ∈ xs ∧
        ∃ before after, xs = before ++ v :: after ∧ ∀ y ∈ before, predicate y = false) ∧
      (r = none ↔ ∀ x ∈ xs, predicate x = false) ∧
      l.Holds xs) ∧
    ∀ calls : List (ListCall T), ∃ l' results ys,
      (ConcurrentList.new : ConcurrentList T).run calls = .ok (l', results) ∧ l'.Holds ys ∧
      ∃ r, l'.FindFirstIf predicate = .ok r ∧ r = ys.find? predicate ∧
        ∀ v, r = some v → v ∈ ys ∧ v ∈ ListCall.pushedThenMapped [] calls ∧
          ((∀ c ∈ calls, c.isForEach = false) → v ∈ ListCall.pushed calls) := by
  refine ⟨⟨_, l.FindFirstIf_holds xs predicate hl, rfl, ?_, ?_, hl⟩, ?_⟩
  · intro v hv
    refine ⟨List.find?_some hv, List.mem_of_find?_eq_some hv, ?_⟩
    obtain ⟨_, before, after, hsplit, hbefore⟩ := List.find?_eq_some.mp hv
    exact ⟨before, after, hsplit, fun y hy => by simpa using hbefore y hy⟩
  · rw [List.find?_eq_none]
    constructor
    · intro h x hx; simpa using h x hx
    · intro h x hx; simp [h x hx]
  · intro calls
    obtain ⟨l', results, ys, hrun, hl', hsub⟩ :=
      ConcurrentList.run_values calls (ConcurrentList.new : ConcurrentList T) [] []
        ConcurrentList.listNew_holds (fun _ h => h)
    refine ⟨l', results, ys, hrun, hl', _, l'.FindFirstIf_holds ys predicate hl', rfl, ?_⟩
    intro v hv
    have hmem : v ∈ ys := List.mem_of_find?_eq_some hv
    refine ⟨hmem, hsub hmem, fun hno => ?_⟩
    rcases ListCall.pushedThenMapped_mem calls hno [] v (hsub hmem) with h | h
    · cases h
    · exact h

/-- Claim C7, amended, on the list that holds 2, 4, 1, 6: the first odd element is 1, the
first even element is 2, and no element exceeds 9; and on the run push 1, push 2, remove
the even elements, where the first element found is the pushed value 1. -/
theorem list_findFirstIf_first_match_witness :
    sampleList.Holds [2, 4, 1, 6] ∧
    sampleList.FindFirstIf (fun i => !IsEven i) = .ok (some 1) ∧
    sampleList.FindFirstIf IsEven = .ok (some 2) ∧
    sampleList.FindFirstIf (fun i => decide (9 < i)) = .ok none ∧
    (∀ c ∈ [ListCall.PushToFront (1 : Int), ListCall.PushToFront 2, ListCall.RemoveIf IsEven],
      c.isForEach = false) ∧
    ∃ l' results ys,
      (ConcurrentList.new : ConcurrentList Int).run
        [ListCall.PushToFront 1, ListCall.PushToFront 2, ListCall.RemoveIf IsEven]
        = .ok (l', results) ∧ l'.Holds ys ∧
      ∃ r, l'.FindFirstIf (fun i => !IsEven i) = .ok r ∧
        r = ys.find? (fun i => !IsEven i) ∧
        ∀ v, r = some v → v ∈ ys ∧
          v ∈ ListCall.pushedThenMapped []
            [ListCall.PushToFront 1, ListCall.PushToFront 2, ListCall.RemoveIf IsEven] ∧
          ((∀ c ∈ [ListCall.PushToFront (1 : Int), ListCall.PushToFront 2,
              ListCall.RemoveIf IsEven], c.isForEach = false) →
            v ∈ ListCall.pushed
              [ListCall.PushToFront 1, ListCall.PushToFront 2, ListCall.RemoveIf IsEven]) :=
  have hl : sampleList.Holds [2, 4, 1, 6] :=
    ⟨0, some 1, [(1, 2), (2, 4), (3, 1), (4, 6)], rfl, rfl,
      ⟨rfl, some 2, rfl, rfl, some 3, rfl, rfl, some 4, rfl, rfl, none, rfl, rfl⟩, rfl⟩
  ⟨hl,
    (list_findFirstIf_first_match sampleList [2, 4, 1, 6] (fun i => !IsEven i) hl).1.elim
      fun _ h => h.1.trans (congrArg Except.ok h.2.1),
    rfl, rfl,
    (by simp [ListCall.isForEach]),
    (list_findFirstIf_first_match sampleList [2, 4, 1, 6] (fun i => !IsEven i) hl).2
      [ListCall.PushToFront 1, ListCall.PushToFront 2, ListCall.RemoveIf IsEven]⟩

/-- Claim C8. `ForEach` applies the function exactly once to every element, front to back,
and to nothing else: on every list that holds `xs` the call succeeds, the sequence of
arguments the function is called with is `xs`, and the list afterwards holds
`xs.map function`, which has the same length and order. -/
theorem list_forEach_maps {T : Type} (l : ConcurrentList T) (xs : List T) (function : T → T)
    (hl : l.Holds xs) :
    ∃ l', l.ForEach function = .ok (l', xs) ∧ l'.Holds (xs.map function) ∧
      (xs.map function).length = xs.length :=
  match l.ForEach_holds xs function hl with
  | ⟨l', h1, h2⟩ => ⟨l', h1, h2, List.length_map xs function⟩

/-- Claim C8, on the list that holds 2, 4, 1, 6 with the doubling function of the tests. -/
theorem list_forEach_maps_witness :
    sampleList.Holds [2, 4, 1, 6] ∧
    ∃ l', sampleList.ForEach (fun i => i * 2) = .ok (l', [2, 4, 1, 6]) ∧
      l'.Holds [4, 8, 2, 12] ∧ [4, 8, 2, 12].length = [2, 4, 1, 6].length :=
  have hl : sampleList.Holds [2, 4, 1, 6] :=
    ⟨0, some 1, [(1, 2), (2, 4), (3, 1), (4, 6)], rfl, rfl,
      ⟨rfl, some 2, rfl, rfl, some 3, rfl, rfl, some 4, rfl, rfl, none, rfl, rfl⟩, rfl⟩
  ⟨hl, list_forEach_maps sampleList [2, 4, 1, 6] (fun i => i * 2) hl⟩

/-- Claim C9. `PushToFront` links the new element directly after the sentinel: on every list
that holds `xs` the call succeeds and leaves a list that holds `data :: xs`; so the pushed
element is the one `FindFirstIf` returns for the always-true predicate and the first
argument `ForEach` calls its function with. -/
theorem list_pushToFront_conses {T : Type} (l : ConcurrentList T) (xs : List T) (data : T)
    (hl : l.Holds xs) :
    ∃ l', l.PushToFront data = .ok l' ∧ l'.Holds (data :: xs) ∧
      l'.FindFirstIf (fun _ => true) = .ok (some data) ∧
      ∀ function : T → T, ∃ l'' calls, l'.ForEach function = .ok (l'', calls) ∧
        calls.head? = some data := by
  obtain ⟨l', h1, h2⟩ := l.PushToFront_holds xs data hl
  refine ⟨l', h1, h2, ?_, ?_⟩
  · rw [l'.FindFirstIf_holds (data :: xs) _ h2]; rfl
  · intro function
    obtain ⟨l'', h3, _⟩ := l'.ForEach_holds (data :: xs) function h2
    exact ⟨l'', _, h3, rfl⟩

/-- Claim C9, on the list that holds 2, 4, 1, 6 with the new element 9. -/
theorem list_pushToFront_conses_witness :
    sampleList.Holds [2, 4, 1, 6] ∧
    ∃ l', sampleList.PushToFront 9 = .ok l' ∧ l'.Holds [9, 2, 4, 1, 6] ∧
      l'.FindFirstIf (fun _ => true) = .ok (some 9) ∧
      ∀ function : Int → Int, ∃ l'' calls, l'.ForEach function = .ok (l'', calls) ∧
        calls.head? = some 9 :=
  have hl : sampleList.Holds [2, 4, 1, 6] :=
    ⟨0, some 1, [(1, 2), (2, 4), (3, 1), (4, 6)], rfl, rfl,
      ⟨rfl, some 2, rfl, rfl, some 3, rfl, rfl, some 4, rfl, rfl, none, rfl, rfl⟩, rfl⟩
  ⟨hl, list_pushToFront_conses sampleList [2, 4, 1, 6] 9 hl⟩

/-- Claim C10. `SetValueForKey` is insert-or-update: on every table state with at least one
bucket, for every key and value, the call succeeds and `GetValueForKey` of the same key
right afterwards returns that value, whether or not the key was stored before. -/
theorem set_then_get {K V : Type} [DecidableEq K] (t : ConcurrentHashtable K V) (key : K)
    (value : V) (hBuckets : 1 ≤ t.m_buckets.length) :
    ∃ t', t.SetValueForKey key value = .ok t' ∧ t'.GetValueForKey key = .ok (some value) := by
  have hpos : 0 < t.m_buckets.length := hBuckets
  refine ⟨_, t.SetValueForKey_eq key value hpos, ?_⟩
  rw [ConcurrentHashtable.GetValueForKey_eq _ _ (by simpa using hpos)]
  have := t.view_set key key value hpos
  unfold ConcurrentHashtable.view at this
  rw [this, if_pos rfl]

/-- Claim C10, at concrete inputs: key 4 is present with another value, key 7 is absent
(both hash to bucket 1 of `sampleTable`). -/
theorem set_then_get_witness :
    (1 ≤ sampleTable.m_buckets.length) ∧
    (∃ t', sampleTable.SetValueForKey 4 41 = .ok t' ∧ t'.GetValueForKey 4 = .ok (some 41)) ∧
    (∃ t', sampleTable.SetValueForKey 7 70 = .ok t' ∧ t'.GetValueForKey 7 = .ok (some 70)) ∧
    sampleTable.GetValueForKey 4 = .ok (some 40) ∧ sampleTable.GetValueForKey 7 = .ok none :=
  ⟨by decide, set_then_get sampleTable 4 41 (by decide),
    set_then_get sampleTable 7 70 (by decide), rfl, rfl⟩

section HashtableMore

variable {K V : Type} [DecidableEq K]

/-- Without buckets the bucket selection divides by zero. -/
theorem ConcurrentHashtable.GetBucket_zero (t : ConcurrentHashtable K V) (key : K)
    (h0 : t.m_buckets.length = 0) : t.GetBucket key = .error .divideByZero := by
  unfold ConcurrentHashtable.GetBucket
  rw [if_pos h0]

/-- A call that returns keeps the number of buckets. -/
theorem ConcurrentHashtable.call_length (t t' : ConcurrentHashtable K V)
    (c : HashtableCall K V) (h : t.call c = .ok t') :
    t'.m_buckets.length = t.m_buckets.length := by
  by_cases hpos : 0 < t.m_buckets.length
  · cases c with
    | SetValueForKey k v =>
      simp only [ConcurrentHashtable.call, t.SetValueForKey_eq k v hpos, Except.ok.injEq] at h
      rw [← h]; simp
    | RemoveEntry k =>
      simp only [ConcurrentHashtable.call, t.RemoveEntry_eq k hpos, Except.ok.injEq] at h
      rw [← h]; simp
    | Clear =>
      simp only [ConcurrentHashtable.call, Except.ok.injEq] at h
      rw [← h]; simp [ConcurrentHashtable.Clear]
  · have h0 : t.m_buckets.length = 0 := by omega
    cases c with
    | SetValueForKey k v =>
      simp [ConcurrentHashtable.call, ConcurrentHashtable.SetValueForKey,
        t.GetBucket_zero k h0] at h
    | RemoveEntry k =>
      simp [ConcurrentHashtable.call, ConcurrentHashtable.RemoveEntry,
        t.GetBucket_zero k h0] at h
    | Clear =>
      simp only [ConcurrentHashtable.call, Except.ok.injEq] at h
      rw [← h]; simp [ConcurrentHashtable.Clear]

/-- A run that returns keeps the number of buckets. -/
theorem ConcurrentHashtable.run_length (calls : List (HashtableCall K V)) :
    ∀ (t t' : ConcurrentHashtable K V), t.run calls = .ok t' →
      t'.m_buckets.length = t.m_buckets.length := by
  induction calls with
  | nil =>
    intro t t' h
    simp only [ConcurrentHashtable.run, Except.ok.injEq] at h
    rw [h]
  | cons c cs ih =>
    intro t t' h
    simp only [ConcurrentHashtable.run] at h
    cases hc : t.call c with
    | error e => rw [hc] at h; cases h
    | ok t1 =>
      rw [hc] at h
      rw [ih t1 t' h, t.call_length t1 c hc]

/-- Calls that do not set `key` leave an empty reading for `key` empty. -/
theorem foldl_mapStep_none (key : K) (later : List (HashtableCall K V))
    (hl : ∀ c ∈ later, ∀ v, c ≠ HashtableCall.SetValueForKey key v) :
    later.foldl (mapStep key) none = none := by
  induction later with
  | nil => rfl
  | cons c cs ih =>
    have hcs : ∀ c ∈ cs, ∀ v, c ≠ HashtableCall.SetValueForKey key v :=
      fun x hx => hl x (List.mem_cons_of_mem _ hx)
    have hc : mapStep key none c = none := by
      cases c with
      | SetValueForKey k v =>
        have hk : ¬ k = key := fun e => hl _ (List.mem_cons_self _ _) v (by rw [e])
        simp [mapStep, hk]
      | RemoveEntry k => simp [mapStep]
      | Clear => rfl
    rw [List.foldl_cons, hc]
    exact ih hcs

/-- Writing back the bucket found at a position changes nothing. -/
theorem list_set_self {α : Type} (l : List α) (i : Nat) (a : α)
    (h : l[i]? = some a) : l.set i a = l := by
  apply List.ext_getElem?
  intro n
  rw [List.getElem?_set]
  by_cases hn : i = n
  · subst hn
    rw [if_pos rfl, h]
    have : i < l.length := by
      by_contra hge
      rw [List.getElem?_eq_none (by omega)] at h
      cases h
    rw [if_pos this]
  · rw [if_neg hn]

end HashtableMore

/-- Claim C11. On every table reachable from construction through `SetValueForKey` /
`RemoveEntry` / `Clear` calls, for every key: whenever `RemoveEntry key` returns, a
`GetValueForKey key` right after it returns the empty pointer.  With at least one bucket
all these calls do return, and the reading stays empty over any later calls that do not
set the key again.  The proof rests on no key being stored twice in a bucket. -/
theorem get_after_remove_is_empty {K V : Type} [DecidableEq K] :
    (∀ (numBuckets : Nat) (hashFunction : K → Nat) (calls : List (HashtableCall K V))
        (key : K) (t t' : ConcurrentHashtable K V),
      (ConcurrentHashtable.new numBuckets hashFunction).run calls = .ok t →
      t.RemoveEntry key = .ok t' → t'.GetValueForKey key = .ok none) ∧
    (∀ (numBuckets : Nat) (hashFunction : K → Nat) (calls later : List (HashtableCall K V))
        (key : K), 1 ≤ numBuckets →
      (∀ c ∈ later, ∀ v, c ≠ HashtableCall.SetValueForKey key v) →
      ∃ t, (ConcurrentHashtable.new numBuckets hashFunction).run
          (calls ++ HashtableCall.RemoveEntry key :: later) = .ok t ∧
        t.GetValueForKey key = .ok none) := by
  constructor
  · intro numBuckets hashFunction calls key t t' hrun hrem
    have hlen : t.m_buckets.length = numBuckets := by
      rw [ConcurrentHashtable.run_length calls _ t hrun, ConcurrentHashtable.new_length]
    have hpos : 0 < t.m_buckets.length := by
      by_contra h0
      simp [ConcurrentHashtable.RemoveEntry, t.GetBucket_zero key (by omega)] at hrem
    obtain ⟨t1, hrun1, _, hnd, _⟩ :=
      ConcurrentHashtable.run_spec calls
        (ConcurrentHashtable.new numBuckets hashFunction : ConcurrentHashtable K V)
        (by rw [ConcurrentHashtable.new_length]; omega)
        (ConcurrentHashtable.new_KeysNodup numBuckets hashFunction)
    rw [hrun] at hrun1
    cases hrun1
    rw [t.RemoveEntry_eq key hpos] at hrem
    cases hrem
    rw [ConcurrentHashtable.GetValueForKey_eq _ _ (by simpa using hpos)]
    have := t.view_erase key key hpos hnd
    unfold ConcurrentHashtable.view at this
    rw [this, if_pos rfl]
  · intro numBuckets hashFunction calls later key hn hlater
    obtain ⟨t, hrun, hlen, _, hview⟩ :=
      ConcurrentHashtable.run_spec (calls ++ HashtableCall.RemoveEntry key :: later)
        (ConcurrentHashtable.new numBuckets hashFunction : ConcurrentHashtable K V)
        (by rw [ConcurrentHashtable.new_length]; omega)
        (ConcurrentHashtable.new_KeysNodup numBuckets hashFunction)
    refine ⟨t, hrun, ?_⟩
    rw [t.GetValueForKey_eq key (by rw [hlen, ConcurrentHashtable.new_length]; omega)]
    have hv := hview key
    unfold ConcurrentHashtable.view at hv
    rw [hv, List.foldl_append, List.foldl_cons]
    have : ∀ current : Option V,
        mapStep key current (HashtableCall.RemoveEntry key) = none := by
      intro current; simp [mapStep]
    rw [this, foldl_mapStep_none key later hlater]

/-- Claim C11, on the run of the test: five buckets, `set(i, i)` for the keys 0 to 24, then
`remove(i)` for each of them.  Key 7 reads empty from its removal on, and at the end every
key reads empty.  The first part removes key 6 from a table in which it shares bucket 1
with key 1. -/
theorem get_after_remove_is_empty_witness :
    (ConcurrentHashtable.GetValueForKey
        ({ m_buckets := [Bucket.mk [], Bucket.mk [(1, 10)], Bucket.mk [], Bucket.mk [],
                         Bucket.mk []]
           m_hashFunction := fun k => k } : ConcurrentHashtable Nat Nat) 6 = .ok none) ∧
    (∃ t, (ConcurrentHashtable.new 5 (fun k : Nat => k)).run
        (((List.range 25).map (fun i => HashtableCall.SetValueForKey i i)
            ++ (List.range 7).map HashtableCall.RemoveEntry)
          ++ HashtableCall.RemoveEntry 7
            :: [8, 9, 10, 11, 12, 13, 14, 15, 16, 17, 18, 19, 20, 21, 22, 23, 24].map
              HashtableCall.RemoveEntry) = .ok t ∧
      t.GetValueForKey 7 = .ok none) ∧
    (∃ t, (ConcurrentHashtable.new 5 (fun k : Nat => k)).run
        ((List.range 25).map (fun i => HashtableCall.SetValueForKey i i)
          ++ (List.range 25).map HashtableCall.RemoveEntry) = .ok t ∧
      (List.range 25).map (fun i => t.GetValueForKey i)
        = List.replicate 25 (.ok none)) :=
  ⟨get_after_remove_is_empty.1 5 (fun k : Nat => k)
      [HashtableCall.SetValueForKey 1 10, HashtableCall.SetValueForKey 6 60] 6
      { m_buckets := [Bucket.mk [], Bucket.mk [(1, 10), (6, 60)], Bucket.mk [], Bucket.mk [],
                      Bucket.mk []]
        m_hashFunction := fun k => k }
      { m_buckets := [Bucket.mk [], Bucket.mk [(1, 10)], Bucket.mk [], Bucket.mk [],
                      Bucket.mk []]
        m_hashFunction := fun k => k } (by rfl) (by rfl),
    get_after_remove_is_empty.2 5 (fun k : Nat => k) _ _ 7 (by decide) (by simp),
    ⟨_, rfl, rfl⟩⟩

/-- Claim C18, as stated, fails on the table constructed with zero buckets: `Clear` returns,
and `GetValueForKey` afterwards divides by zero in the bucket selection instead of returning
the empty pointer. -/
theorem clear_then_get_without_buckets :
    ((ConcurrentHashtable.new 0 (fun k : Nat => k) : ConcurrentHashtable Nat Nat).Clear
        ).GetValueForKey 3 = .error .divideByZero ∧
    ((ConcurrentHashtable.new 0 (fun k : Nat => k) : ConcurrentHashtable Nat Nat).Clear
        ).GetValueForKey 3 ≠ .ok none :=
  ⟨rfl, fun h => by cases h⟩

/-- Claim C18, amended. `Clear` empties every bucket: on every table state, after `Clear`
every bucket's entry list is empty and the number of buckets and the hash function are
unchanged; and when the table has at least one bucket, `GetValueForKey` returns the empty
pointer for every key. -/
theorem clear_empties_every_bucket {K V : Type} [DecidableEq K] (t : ConcurrentHashtable K V) :
    (∀ bucket ∈ t.Clear.m_buckets, bucket.keyValueList = []) ∧
    t.Clear.m_buckets.length = t.m_buckets.length ∧
    t.Clear.m_hashFunction = t.m_hashFunction ∧
    (1 ≤ t.m_buckets.length → ∀ key, t.Clear.GetValueForKey key = .ok none) := by
  refine ⟨?_, by simp [ConcurrentHashtable.Clear], rfl, ?_⟩
  · intro bucket hb
    simp only [ConcurrentHashtable.Clear, List.mem_map] at hb
    obtain ⟨_, _, rfl⟩ := hb
    rfl
  · intro hpos key
    rw [ConcurrentHashtable.GetValueForKey_eq _ _ (by simpa [ConcurrentHashtable.Clear] using hpos)]
    have := t.view_Clear key
    unfold ConcurrentHashtable.view at this
    rw [this]

/-- Claim C18 amended, on the table with three buckets that stores the keys 1 and 4. -/
theorem clear_empties_every_bucket_witness :
    sampleTable.GetValueForKey 4 = .ok (some 40) ∧
    (∀ bucket ∈ sampleTable.Clear.m_buckets, bucket.keyValueList = []) ∧
    sampleTable.Clear.m_buckets.length = 3 ∧
    sampleTable.Clear.GetValueForKey 4 = .ok none ∧
    sampleTable.Clear.GetValueForKey 1 = .ok none :=
  ⟨rfl, (clear_empties_every_bucket sampleTable).1, (clear_empties_every_bucket sampleTable).2.1,
    (clear_empties_every_bucket sampleTable).2.2.2 (by decide) 4,
    (clear_empties_every_bucket sampleTable).2.2.2 (by decide) 1⟩

/-- Claim C19. `RemoveEntry` on an absent key is a no-op: on every table state with at least
one bucket, for every key for which `GetValueForKey` returns the empty pointer,
`RemoveEntry` returns and leaves the table as it was: the same buckets with the same
entries in the same order. -/
theorem remove_absent_is_noop {K V : Type} [DecidableEq K] (t : ConcurrentHashtable K V)
    (key : K) (hBuckets : 1 ≤ t.m_buckets.length) (hAbsent : t.GetValueForKey key = .ok none) :
    ∃ t', t.RemoveEntry key = .ok t' ∧ t'.m_buckets = t.m_buckets ∧
      t'.m_buckets.map (fun bucket => bucket.keyValueList)
        = t.m_buckets.map (fun bucket => bucket.keyValueList) ∧
      t' = t := by
  have hpos : 0 < t.m_buckets.length := hBuckets
  have hlt : t.m_hashFunction key % t.m_buckets.length < t.m_buckets.length :=
    Nat.mod_lt _ hpos
  have hnone : (t.entriesFor key)[List.findIdx (fun pair => decide (pair.1 = key))
      (t.entriesFor key)]? = none := by
    unfold ConcurrentHashtable.GetValueForKey at hAbsent
    rw [t.GetBucket_eq key hpos] at hAbsent
    simp only [Bucket.GetEntryForKey] at hAbsent
    cases hx : (t.entriesFor key)[List.findIdx (fun pair => decide (pair.1 = key))
        (t.entriesFor key)]? with
    | none => rfl
    | some pair => rw [hx] at hAbsent; cases hAbsent
  have herase : bucketErase (t.entriesFor key) key = t.entriesFor key := by
    unfold bucketErase
    rw [hnone]
  have hbucket : t.m_buckets[t.m_hashFunction key % t.m_buckets.length]?
      = some (Bucket.mk (t.entriesFor key)) := by
    unfold ConcurrentHashtable.entriesFor
    rw [List.getElem?_eq_getElem hlt]
  have hset : t.m_buckets.set (t.m_hashFunction key % t.m_buckets.length)
      (Bucket.mk (t.entriesFor key)) = t.m_buckets :=
    list_set_self _ _ _ hbucket
  have hrem := t.RemoveEntry_eq key hpos
  rw [herase, hset] at hrem
  exact ⟨t, hrem, rfl, rfl, rfl⟩

/-- Claim C19, on the table with three buckets that stores the keys 1 and 4 in bucket 1:
key 7 hashes to the same bucket and is absent, key 2 hashes to an empty bucket. -/
theorem remove_absent_is_noop_witness :
    (1 ≤ sampleTable.m_buckets.length) ∧ sampleTable.GetValueForKey 7 = .ok none ∧
    (∃ t', sampleTable.RemoveEntry 7 = .ok t' ∧ t'.m_buckets = sampleTable.m_buckets ∧
      t'.m_buckets.map (fun bucket => bucket.keyValueList)
        = [[], [(1, 10), (4, 40)], []] ∧ t' = sampleTable) ∧
    (∃ t', sampleTable.RemoveEntry 2 = .ok t' ∧ t'.m_buckets = sampleTable.m_buckets ∧
      t'.m_buckets.map (fun bucket => bucket.keyValueList)
        = [[], [(1, 10), (4, 40)], []] ∧ t' = sampleTable) :=
  ⟨by decide, rfl, remove_absent_is_noop sampleTable 7 (by decide) (by rfl),
    remove_absent_is_noop sampleTable 2 (by decide) (by rfl)⟩

/-- Claim C20, as stated, fails for the bucket count zero, which the constructor accepts:
the bucket selection `hash(key) % 0` is undefined, and none of `GetValueForKey`,
`SetValueForKey` and `RemoveEntry` completes with a result. -/
theorem zero_buckets_divide_by_zero :
    (ConcurrentHashtable.new 0 (fun k : Nat => k) : ConcurrentHashtable Nat Nat).m_buckets.length
      = 0 ∧
    (ConcurrentHashtable.new 0 (fun k : Nat => k) : ConcurrentHashtable Nat Nat).GetBucket 3
      = .error .divideByZero ∧
    (ConcurrentHashtable.new 0 (fun k : Nat => k) : ConcurrentHashtable Nat Nat).GetValueForKey 3
      = .error .divideByZero ∧
    (∀ t', (ConcurrentHashtable.new 0 (fun k : Nat => k) :
      ConcurrentHashtable Nat Nat).SetValueForKey 3 30 ≠ .ok t') ∧
    (∀ t', (ConcurrentHashtable.new 0 (fun k : Nat => k) :
      ConcurrentHashtable Nat Nat).RemoveEntry 3 ≠ .ok t') :=
  ⟨rfl, rfl, rfl, fun _ h => (by cases h), fun _ h => (by cases h)⟩

/-- Claim C20, amended. For every table with at least one bucket (so for every bucket count
of at least one given to the constructor), every hash function and every key, the bucket
selection `hash(key) % bucket_count` is defined and is a valid index into the bucket
vector, and `GetValueForKey`, `SetValueForKey` and `RemoveEntry` complete with a result. -/
theorem bucket_selection_is_valid {K V : Type} [DecidableEq K] :
    (∀ (t : ConcurrentHashtable K V) (key : K) (value : V), 1 ≤ t.m_buckets.length →
      (∃ bucket, t.GetBucket key = .ok (t.m_hashFunction key % t.m_buckets.length, bucket) ∧
        t.m_buckets[t.m_hashFunction key % t.m_buckets.length]? = some bucket) ∧
      t.m_hashFunction key % t.m_buckets.length < t.m_buckets.length ∧
      (∃ r, t.GetValueForKey key = .ok r) ∧
      (∃ t', t.SetValueForKey key value = .ok t') ∧
      (∃ t', t.RemoveEntry key = .ok t')) ∧
    (∀ (numBuckets : Nat) (hashFunction : K → Nat), 1 ≤ numBuckets →
      1 ≤ (ConcurrentHashtable.new numBuckets hashFunction :
        ConcurrentHashtable K V).m_buckets.length) := by
  constructor
  · intro t key value hpos
    have hlt : t.m_hashFunction key % t.m_buckets.length < t.m_buckets.length :=
      Nat.mod_lt _ hpos
    refine ⟨⟨_, t.GetBucket_eq key hpos, ?_⟩, hlt, ⟨_, t.GetValueForKey_eq key hpos⟩,
      ⟨_, t.SetValueForKey_eq key value hpos⟩, ⟨_, t.RemoveEntry_eq key hpos⟩⟩
    unfold ConcurrentHashtable.entriesFor
    rw [List.getElem?_eq_getElem hlt]
  · intro numBuckets hashFunction hn
    rw [ConcurrentHashtable.new_length]
    exact hn

/-- Claim C20 amended, with the default bucket count 5 and key 13, which selects bucket 3. -/
theorem bucket_selection_is_valid_witness :
    (∃ bucket, (ConcurrentHashtable.new 5 (fun k : Nat => k) :
        ConcurrentHashtable Nat Nat).GetBucket 13 = .ok (3, bucket)) ∧
    (∃ r, (ConcurrentHashtable.new 5 (fun k : Nat => k) :
        ConcurrentHashtable Nat Nat).GetValueForKey 13 = .ok r) ∧
    (∃ t', (ConcurrentHashtable.new 5 (fun k : Nat => k) :
        ConcurrentHashtable Nat Nat).SetValueForKey 13 130 = .ok t') ∧
    (∃ t', (ConcurrentHashtable.new 5 (fun k : Nat => k) :
        ConcurrentHashtable Nat Nat).RemoveEntry 13 = .ok t') :=
  have h := bucket_selection_is_valid.1
    (ConcurrentHashtable.new 5 (fun k : Nat => k) : ConcurrentHashtable Nat Nat) 13 130
    (bucket_selection_is_valid.2 5 (fun k : Nat => k) (by decide))
  ⟨h.1.imp fun _ hb => hb.1, h.2.2.1, h.2.2.2.1, h.2.2.2.2⟩

section QueueMore

variable {T : Type}

/-- On a queue that holds values, `Empty` tells whether there are none. -/
theorem ConcurrentQueue.Empty_iff_nil {q : ConcurrentQueue T} {xs : List T} (hq : q.Holds xs) :
    q.Empty = true ↔ xs = [] := by
  unfold ConcurrentQueue.Empty
  cases xs with
  | nil => simp [ConcurrentQueue.holds_nil hq]
  | cons x rest =>
    obtain ⟨_, _, _, hne, _, _⟩ := ConcurrentQueue.holds_cons hq
    simp [hne]

/-- The `Cleanup` loop pops every value, one `TryPop` call per value. -/
theorem ConcurrentQueue.cleanupLoop_spec (xs : List T) :
    ∀ (fuel : Nat) (q : ConcurrentQueue T), q.Holds xs → xs.length ≤ fuel →
      ∃ q', ConcurrentQueue.cleanupLoop fuel q = .ok (q', xs.length) ∧ q'.Holds [] := by
  induction xs with
  | nil =>
    intro fuel q hq _
    have he : q.Empty = true := (ConcurrentQueue.Empty_iff_nil hq).mpr rfl
    refine ⟨q, ?_, hq⟩
    cases fuel <;> simp [ConcurrentQueue.cleanupLoop, he]
  | cons x rest ih =>
    intro fuel q hq hfuel
    have he : q.Empty = false := by
      cases h : q.Empty with
      | false => rfl
      | true => exact absurd ((ConcurrentQueue.Empty_iff_nil hq).mp h) (by simp)
    obtain ⟨k, rfl⟩ : ∃ k, fuel = k + 1 := ⟨fuel - 1, by simp at hfuel; omega⟩
    obtain ⟨q1, h1, hq1⟩ := q.TryPop_holds x rest hq
    obtain ⟨q2, h2, hq2⟩ := ih k q1 hq1 (by simp at hfuel; omega)
    refine ⟨q2, ?_, hq2⟩
    simp only [ConcurrentQueue.cleanupLoop, he, h1, h2, bind, Except.bind]
    simp

/-- A queue that holds values has allocated at least one cell per value. -/
theorem ConcurrentQueue.holds_length_le {q : ConcurrentQueue T} {xs : List T}
    (hq : q.Holds xs) : xs.length ≤ q.heap.length := by
  obtain ⟨cells, tail, hseg, hmap, _, hl⟩ := hq
  have := Seg.length_le (ConcurrentQueue.tail_terminal hl) hseg
  rw [← hmap, List.length_map]
  exact this

end QueueMore

/-- Claim C14. The non-blocking pops signal an empty queue through their result and change
nothing: on every queue state with `m_head == m_tail`, `TryPop()` returns the empty pointer
and `TryPop(T& result)` returns `false`, and both leave the queue state, and the reference
overload the caller's variable, as they were. -/
theorem trypop_on_empty_changes_nothing {T : Type} (q : ConcurrentQueue T) (result : T)
    (hEmpty : q.m_head = q.m_tail) :
    q.TryPop = .ok (none, q) ∧ q.TryPopRef result = .ok (false, result, q) := by
  constructor
  · unfold ConcurrentQueue.TryPop
    rw [if_pos hEmpty]
  · unfold ConcurrentQueue.TryPopRef
    rw [if_pos hEmpty]

/-- Claim C14, on the freshly constructed queue and on the queue left by one `Push` and one
`TryPop()`, whose head and tail both point to the dummy at address 1. -/
theorem trypop_on_empty_changes_nothing_witness :
    ((ConcurrentQueue.new : ConcurrentQueue Nat).TryPop = .ok (none, ConcurrentQueue.new) ∧
      (ConcurrentQueue.new : ConcurrentQueue Nat).TryPopRef 7
        = .ok (false, 7, ConcurrentQueue.new)) ∧
    (ConcurrentQueue.new : ConcurrentQueue Nat).run [QueueCall.Push 5, QueueCall.TryPop]
      = .ok ({ heap := [none, some { data := none, next := none }], m_head := some 1,
               m_tail := some 1 }, [5]) ∧
    (ConcurrentQueue.TryPop
        ({ heap := [none, some { data := none, next := none }], m_head := some 1,
           m_tail := some 1 } : ConcurrentQueue Nat)
      = .ok (none, { heap := [none, some { data := none, next := none }], m_head := some 1,
                     m_tail := some 1 }) ∧
      ConcurrentQueue.TryPopRef
        ({ heap := [none, some { data := none, next := none }], m_head := some 1,
           m_tail := some 1 } : ConcurrentQueue Nat) 7
      = .ok (false, 7, { heap := [none, some { data := none, next := none }], m_head := some 1,
                         m_tail := some 1 })) :=
  ⟨trypop_on_empty_changes_nothing ConcurrentQueue.new 7 rfl, rfl,
    trypop_on_empty_changes_nothing _ 7 rfl⟩

/-- Claim C16. Once `m_head != m_tail` holds, `WaitAndPop` proceeds exactly as the non-empty
path of `TryPop`: on every queue state with `m_head != m_tail` each `WaitAndPop` overload
yields the same outcome as the `TryPop` overload of the same shape; and on every queue that
holds `x :: rest`, `TryPop()` and `WaitAndPop()` return a pointer to `x`,
`WaitAndPop(T& result)` stores `x` in `result`, and all three leave the same queue state,
which holds `rest`. -/
theorem waitAndPop_matches_tryPop {T : Type} :
    (∀ (q : ConcurrentQueue T) (result : T), q.m_head ≠ q.m_tail →
      q.WaitAndPop = q.TryPop ∧ q.WaitAndPopRef result = q.TryPopRef result) ∧
    (∀ (q : ConcurrentQueue T) (x : T) (rest : List T) (result : T), q.Holds (x :: rest) →
      ∃ q', q.TryPop = .ok (some x, q') ∧ q.WaitAndPop = .ok (some x, q') ∧
        q.WaitAndPopRef result = .ok (true, x, q') ∧ q'.Holds rest) := by
  constructor
  · intro q result hne
    constructor
    · unfold ConcurrentQueue.WaitAndPop ConcurrentQueue.TryPop
      rw [if_pos hne, if_neg hne]
      cases h : q.heap.deref q.m_head with
      | error e => simp only [h, bind, Except.bind]
      | ok p => simp only [h, bind, Except.bind]
    · unfold ConcurrentQueue.WaitAndPopRef ConcurrentQueue.TryPopRef
      rw [if_pos hne, if_neg hne]
  · intro q x rest result hq
    obtain ⟨head, next, hh, hne, hl, hrest⟩ := ConcurrentQueue.holds_cons hq
    refine ⟨_, ?_, ?_, ?_, hrest⟩
    · unfold ConcurrentQueue.TryPop
      rw [if_neg hne]
      simp only [hh, bind, Except.bind, Heap.deref_eq hl, Heap.delete_eq hl]
    · unfold ConcurrentQueue.WaitAndPop
      rw [if_pos hne]
      simp only [hh, bind, Except.bind, Heap.deref_eq hl, Heap.delete_eq hl]
    · unfold ConcurrentQueue.WaitAndPopRef
      rw [if_pos hne]
      simp only [hh, bind, Except.bind, Heap.deref_eq hl, Heap.delete_eq hl]

/-- Claim C16, on the queue that holds 1, 2: all three calls hand out 1 and leave the queue
with head at address 1, which holds 2. -/
theorem waitAndPop_matches_tryPop_witness :
    sampleQueue.Holds [1, 2] ∧ sampleQueue.m_head ≠ sampleQueue.m_tail ∧
    (sampleQueue.WaitAndPop = sampleQueue.TryPop ∧
      sampleQueue.WaitAndPopRef 0 = sampleQueue.TryPopRef 0) ∧
    (∃ q', sampleQueue.TryPop = .ok (some 1, q') ∧ sampleQueue.WaitAndPop = .ok (some 1, q') ∧
      sampleQueue.WaitAndPopRef 0 = .ok (true, 1, q') ∧ q'.Holds [2]) :=
  have hq : sampleQueue.Holds [1, 2] :=
    ⟨[(0, 1), (1, 2)], 2, ⟨rfl, some 1, rfl, rfl, some 2, rfl, rfl⟩, rfl, rfl, rfl⟩
  ⟨hq, by decide, waitAndPop_matches_tryPop.1 sampleQueue 0 (by decide),
    waitAndPop_matches_tryPop.2 sampleQueue 1 [2] 0 hq⟩

/-- Claim C17. `Empty()` returns true exactly when the queue holds no elements: on every
queue that holds `xs` it is true iff `xs` is empty, and iff `TryPop()` returns the empty
pointer; it is true on a freshly constructed queue and false right after any `Push`; after
any run of calls on a fresh queue it is true iff as many values were popped as were
pushed.  The function `Empty` only reads the two pointers and returns no state.  The
cleanup loop `while (!Empty()) TryPop();` on a queue that holds `n` values makes exactly `n`
`TryPop` calls and ends with a queue that holds nothing and for which `Empty()` is true. -/
theorem empty_iff_no_elements {T : Type} :
    (∀ (q : ConcurrentQueue T) (xs : List T), q.Holds xs →
      (q.Empty = true ↔ xs = []) ∧
      (q.Empty = true ↔ ∃ q', q.TryPop = .ok (none, q'))) ∧
    (ConcurrentQueue.new : ConcurrentQueue T).Empty = true ∧
    (∀ (q : ConcurrentQueue T) (xs : List T) (value : T), q.Holds xs →
      ∃ q', q.Push value = .ok q' ∧ q'.Empty = false) ∧
    (∀ calls : List (QueueCall T), QueueCall.waitsOnNonEmpty 0 calls = true →
      ∃ q popped, (ConcurrentQueue.new : ConcurrentQueue T).run calls = .ok (q, popped) ∧
        (q.Empty = true ↔ popped.length = (QueueCall.pushed calls).length)) ∧
    (∀ (q : ConcurrentQueue T) (xs : List T), q.Holds xs →
      ∃ q', q.Cleanup = .ok (q', xs.length) ∧ q'.Holds [] ∧ q'.Empty = true) := by
  refine ⟨?_, rfl, ?_, ?_, ?_⟩
  · intro q xs hq
    refine ⟨ConcurrentQueue.Empty_iff_nil hq, ?_⟩
    rw [ConcurrentQueue.Empty_iff_nil hq]
    cases xs with
    | nil => exact ⟨fun _ => ⟨q, q.TryPop_nil hq⟩, fun _ => rfl⟩
    | cons x rest =>
      obtain ⟨q1, h1, _⟩ := q.TryPop_holds x rest hq
      constructor
      · intro h; cases h
      · rintro ⟨q', h'⟩
        rw [h1] at h'
        cases h'
  · intro q xs value hq
    obtain ⟨q', h1, hq'⟩ := q.queuePush_holds xs value hq
    refine ⟨q', h1, ?_⟩
    cases h : q'.Empty with
    | false => rfl
    | true => exact absurd ((ConcurrentQueue.Empty_iff_nil hq').mp h) (by simp)
  · intro calls hw
    obtain ⟨q, popped, rest, hr, hq, hsplit⟩ :=
      ConcurrentQueue.queueRun_holds calls ConcurrentQueue.new [] ConcurrentQueue.queueNew_holds hw
    refine ⟨q, popped, hr, ?_⟩
    rw [ConcurrentQueue.Empty_iff_nil hq]
    have hlen := congrArg List.length hsplit
    simp only [List.length_append, List.nil_append] at hlen
    constructor
    · intro h; subst h; simpa using hlen
    · intro h
      exact List.length_eq_zero.mp (by omega)
  · intro q xs hq
    obtain ⟨q', h1, hq'⟩ := ConcurrentQueue.cleanupLoop_spec xs q.heap.length q hq
      (ConcurrentQueue.holds_length_le hq)
    exact ⟨q', h1, hq', (ConcurrentQueue.Empty_iff_nil hq').mpr rfl⟩

/-- Claim C17, on the queue that holds 1, 2: `Empty()` is false, a `Push` keeps it false, the
cleanup loop makes two `TryPop` calls and leaves an empty queue; and on the run push, push,
pop, pop of a fresh queue `Empty()` is true at the end. -/
theorem empty_iff_no_elements_witness :
    sampleQueue.Holds [1, 2] ∧ sampleQueue.Empty = false ∧
    (∃ q', sampleQueue.Push 3 = .ok q' ∧ q'.Empty = false) ∧
    (∃ q', sampleQueue.Cleanup = .ok (q', 2) ∧ q'.Holds [] ∧ q'.Empty = true) ∧
    (∃ q popped, (ConcurrentQueue.new : ConcurrentQueue Nat).run
        [QueueCall.Push 1, QueueCall.Push 2, QueueCall.TryPop, QueueCall.WaitAndPop]
          = .ok (q, popped) ∧
      (q.Empty = true ↔ popped.length = (QueueCall.pushed
        [QueueCall.Push 1, QueueCall.Push 2, QueueCall.TryPop,
          (QueueCall.WaitAndPop : QueueCall Nat)]).length)) :=
  have hq : sampleQueue.Holds [1, 2] :=
    ⟨[(0, 1), (1, 2)], 2, ⟨rfl, some 1, rfl, rfl, some 2, rfl, rfl⟩, rfl, rfl, rfl⟩
  ⟨hq, rfl, empty_iff_no_elements.2.2.1 sampleQueue [1, 2] 3 hq,
    empty_iff_no_elements.2.2.2.2 sampleQueue [1, 2] hq,
    empty_iff_no_elements.2.2.2.1 _ (by decide)⟩

section StackMore

variable {T : Type}

/-- A stack that holds nothing has a null head. -/
theorem LockFreeStack.holds_nil_head {s : LockFreeStack T} (hs : s.Holds []) :
    s.m_head = none := by
  obtain ⟨cells, hseg, hmap⟩ := hs
  cases cells with
  | nil => exact hseg
  | cons c cells' => simp at hmap

end StackMore

/-- Claim C15. `Pop` on an empty stack is an ordinary outcome: on every stack state whose
head is null, whatever the free store contains (also when it has no live node at all, so
that any dereference would fault) and whatever the spurious exchange failures, `Pop()`
returns the empty pointer and leaves the state as it was.  The head is null on a freshly
constructed stack and after as many pops as pushes. -/
theorem pop_on_empty_stack {T : Type} :
    (∀ (s : LockFreeStack T) (spurious : Nat), s.m_head = none →
      s.Pop spurious = .ok (none, s)) ∧
    (∀ (heap : Heap T) (spurious : Nat),
      LockFreeStack.Pop { heap := heap, m_head := none } spurious
        = .ok (none, { heap := heap, m_head := none })) ∧
    (LockFreeStack.new : LockFreeStack T).m_head = none ∧
    (∀ (pushes : List (T × Nat)) (pops : List Nat) (spurious : Nat),
      pops.length = pushes.length →
      ∃ s' results, (LockFreeStack.new : LockFreeStack T).run
          (pushes.map (fun p => StackCall.Push p.1 p.2) ++ pops.map StackCall.Pop)
            = .ok (s', results) ∧
        s'.m_head = none ∧ s'.Holds [] ∧ s'.Pop spurious = .ok (none, s')) := by
  have hpop : ∀ (s : LockFreeStack T) (spurious : Nat), s.m_head = none →
      s.Pop spurious = .ok (none, s) := by
    intro s spurious hh
    unfold LockFreeStack.Pop
    simp [hh, LockFreeStack.popLoop, bind, Except.bind]
  refine ⟨hpop, fun heap spurious => hpop _ spurious rfl, rfl, ?_⟩
  intro pushes pops spurious hlen
  obtain ⟨s1, h1, hs1⟩ := LockFreeStack.run_pushes pushes LockFreeStack.new []
    LockFreeStack.stackNew_holds
  rw [List.append_nil] at hs1
  obtain ⟨s2, h2, hs2⟩ := LockFreeStack.run_pops pops s1 _ hs1 (by simp [hlen])
  have h12 := LockFreeStack.run_append _ (pops.map StackCall.Pop) _ _ _ h1
  rw [h2] at h12
  have hh := LockFreeStack.holds_nil_head hs2
  exact ⟨s2, _, h12, hh, hs2, hpop s2 spurious hh⟩

/-- Claim C15, on the freshly constructed stack, on a state whose only node has been
deleted, and after pushing 5, 6 and popping twice. -/
theorem pop_on_empty_stack_witness :
    (LockFreeStack.new : LockFreeStack Nat).Pop 0 = .ok (none, LockFreeStack.new) ∧
    LockFreeStack.Pop ({ heap := [none], m_head := none } : LockFreeStack Nat) 2
      = .ok (none, { heap := [none], m_head := none }) ∧
    (∃ s' results, (LockFreeStack.new : LockFreeStack Nat).run
        [StackCall.Push 5 0, StackCall.Push 6 1, StackCall.Pop 0, StackCall.Pop 2]
          = .ok (s', results) ∧
      s'.m_head = none ∧ s'.Holds [] ∧ s'.Pop 1 = .ok (none, s')) :=
  ⟨pop_on_empty_stack.1 LockFreeStack.new 0 rfl, pop_on_empty_stack.2.1 [none] 2,
    pop_on_empty_stack.2.2.2 [(5, 0), (6, 1)] [0, 2] 1 rfl⟩

section ListMore

variable {T : Type}

/-- On a list that holds nothing the sentinel has no successor. -/
theorem ConcurrentList.holds_nil_sentinel {l : ConcurrentList T} (hl : l.Holds []) :
    ∃ head, l.m_head = some head ∧
      l.heap.lookup head = some { data := none, next := none } := by
  obtain ⟨head, first, cells, hh, hlk, hseg, hmap⟩ := hl
  cases cells with
  | nil =>
    have hf : first = none := hseg
    subst hf
    exact ⟨head, hh, hlk⟩
  | cons c cells' => simp at hmap

/-- Removing the elements that satisfy a predicate and then those that satisfy its negation
leaves nothing. -/
theorem filter_both_halves (p notP : T → Bool) (hnot : ∀ x, notP x = !p x) (xs : List T) :
    (xs.filter (fun x => !p x)).filter (fun x => !notP x) = [] := by
  rw [List.filter_filter, List.filter_eq_nil_iff]
  intro x _
  rw [hnot x]
  cases p x <;> simp

/-- Two `RemoveIf` calls with complementary predicates empty the list. -/
theorem ConcurrentList.RemoveIf_complement (l : ConcurrentList T) (xs : List T)
    (p notP : T → Bool) (hnot : ∀ x, notP x = !p x) (hl : l.Holds xs) :
    ∃ l1 l2, l.RemoveIf p = .ok l1 ∧ l1.RemoveIf notP = .ok l2 ∧ l2.Holds [] := by
  obtain ⟨l1, h1, hl1⟩ := l.RemoveIf_holds xs p hl
  obtain ⟨l2, h2, hl2⟩ := l1.RemoveIf_holds _ notP hl1
  rw [filter_both_halves p notP hnot xs] at hl2
  exact ⟨l1, l2, h1, h2, hl2⟩

end ListMore

/-- Claim C12. On every list that holds some `xs`, for every predicate `p` and every
predicate `notP` that is its negation, `RemoveIf(p)` followed by `RemoveIf(notP)`, and
likewise `RemoveIf(notP)` followed by `RemoveIf(p)`, succeed and leave the list empty: the
sentinel has no successor, and `FindFirstIf` returns the empty pointer for every
predicate, `p` and `notP` included. -/
theorem removeIf_complement_empties {T : Type} (l : ConcurrentList T) (xs : List T)
    (p notP : T → Bool) (hnot : ∀ x, notP x = !p x) (hl : l.Holds xs) :
    (∃ l1 l2, l.RemoveIf p = .ok l1 ∧ l1.RemoveIf notP = .ok l2 ∧ l2.Holds [] ∧
      (∃ head, l2.m_head = some head ∧
        l2.heap.lookup head = some { data := none, next := none }) ∧
      ∀ q : T → Bool, l2.FindFirstIf q = .ok none) ∧
    (∃ l1 l2, l.RemoveIf notP = .ok l1 ∧ l1.RemoveIf p = .ok l2 ∧ l2.Holds [] ∧
      (∃ head, l2.m_head = some head ∧
        l2.heap.lookup head = some { data := none, next := none }) ∧
      ∀ q : T → Bool, l2.FindFirstIf q = .ok none) := by
  have hnot' : ∀ x, p x = !notP x := by
    intro x; rw [hnot x]; cases p x <;> rfl
  constructor
  · obtain ⟨l1, l2, h1, h2, hl2⟩ := l.RemoveIf_complement xs p notP hnot hl
    exact ⟨l1, l2, h1, h2, hl2, ConcurrentList.holds_nil_sentinel hl2,
      fun q => l2.FindFirstIf_holds [] q hl2⟩
  · obtain ⟨l1, l2, h1, h2, hl2⟩ := l.RemoveIf_complement xs notP p hnot' hl
    exact ⟨l1, l2, h1, h2, hl2, ConcurrentList.holds_nil_sentinel hl2,
      fun q => l2.FindFirstIf_holds [] q hl2⟩

/-- Claim C12, on the list of the test: the values 0 to 9 pushed in this order, with
`IsEven` and `IsOdd`. -/
theorem removeIf_complement_empties_witness :
    (ConcurrentList.new : ConcurrentList Int).pushAll [0, 1, 2, 3, 4, 5, 6, 7, 8, 9]
      = .ok sampleDigits ∧
    sampleDigits.Holds [9, 8, 7, 6, 5, 4, 3, 2, 1, 0] ∧
    (∃ l1 l2, sampleDigits.RemoveIf IsEven = .ok l1 ∧ l1.RemoveIf IsOdd = .ok l2 ∧
      l2.Holds [] ∧
      (∃ head, l2.m_head = some head ∧
        l2.heap.lookup head = some { data := none, next := none }) ∧
      ∀ q : Int → Bool, l2.FindFirstIf q = .ok none) ∧
    (∃ l1 l2, sampleDigits.RemoveIf IsOdd = .ok l1 ∧ l1.RemoveIf IsEven = .ok l2 ∧
      l2.Holds [] ∧
      (∃ head, l2.m_head = some head ∧
        l2.heap.lookup head = some { data := none, next := none }) ∧
      ∀ q : Int → Bool, l2.FindFirstIf q = .ok none) :=
  have hl : sampleDigits.Holds [9, 8, 7, 6, 5, 4, 3, 2, 1, 0] :=
    ⟨0, some 10, [(10, 9), (9, 8), (8, 7), (7, 6), (6, 5), (5, 4), (4, 3), (3, 2), (2, 1),
        (1, 0)], rfl, rfl,
      ⟨rfl, some 9, rfl, rfl, some 8, rfl, rfl, some 7, rfl, rfl, some 6, rfl, rfl, some 5, rfl,
        rfl, some 4, rfl, rfl, some 3, rfl, rfl, some 2, rfl, rfl, some 1, rfl, rfl, none, rfl,
        rfl⟩, rfl⟩
  ⟨rfl, hl,
    removeIf_complement_empties sampleDigits _ IsEven IsOdd (fun _ => rfl) hl⟩

/-- The doubled `int` is even, also when the product wrapped around. -/
theorem IsEven_DoubleInteger (i : Int) : IsEven (DoubleInteger i) = true := by
  have hdvd : (2 : Int) ∣ DoubleInteger i := by
    unfold DoubleInteger wrapInt32
    omega
  unfold IsEven
  rw [Int.tmod_eq_zero_of_dvd hdvd]
  rfl

/-- The exact double of an integer is even. -/
theorem IsEven_double (i : Int) : IsEven (i * 2) = true := by
  have hdvd : (2 : Int) ∣ i * 2 := ⟨i, Int.mul_comm i 2⟩
  unfold IsEven
  rw [Int.tmod_eq_zero_of_dvd hdvd]
  rfl

/-- A function that makes every value even, followed by `RemoveIf(IsEven)`, empties the
list. -/
theorem ConcurrentList.forEach_even_then_removeIf (l : ConcurrentList Int) (xs : List Int)
    (function : Int → Int) (heven : ∀ i, IsEven (function i) = true) (hl : l.Holds xs) :
    ∃ l1 l2, l.ForEach function = .ok (l1, xs) ∧ l1.RemoveIf IsEven = .ok l2 ∧ l2.Holds [] ∧
      l2.FindFirstIf IsEven = .ok none ∧ l2.FindFirstIf IsOdd = .ok none := by
  obtain ⟨l1, h1, hl1⟩ := l.ForEach_holds xs function hl
  obtain ⟨l2, h2, hl2⟩ := l1.RemoveIf_holds _ IsEven hl1
  have hnil : (xs.map function).filter (fun x => !IsEven x) = [] := by
    rw [List.filter_eq_nil_iff]
    intro x hx
    obtain ⟨i, _, rfl⟩ := List.mem_map.mp hx
    simp [heven i]
  rw [hnil] at hl2
  exact ⟨l1, l2, h1, h2, hl2, l2.FindFirstIf_holds [] _ hl2, l2.FindFirstIf_holds [] _ hl2⟩

/-- Claim C13. On every list of integers, in any order, `ForEach` with the doubling function
`i *= 2` followed by `RemoveIf(IsEven)` succeeds and leaves the list empty, so that
`FindFirstIf(IsEven)` and `FindFirstIf(IsOdd)` afterwards both return the empty pointer.
This holds for the doubling of `int`, where a product out of range wraps around, and for
the doubling of unbounded integers. -/
theorem double_then_removeEven_empties (l : ConcurrentList Int) (xs : List Int)
    (hl : l.Holds xs) :
    (∃ l1 l2, l.ForEach DoubleInteger = .ok (l1, xs) ∧ l1.Holds (xs.map DoubleInteger) ∧
      l1.RemoveIf IsEven = .ok l2 ∧ l2.Holds [] ∧
      l2.FindFirstIf IsEven = .ok none ∧ l2.FindFirstIf IsOdd = .ok none) ∧
    (∃ l1 l2, l.ForEach (fun i => i * 2) = .ok (l1, xs) ∧ l1.Holds (xs.map (fun i => i * 2)) ∧
      l1.RemoveIf IsEven = .ok l2 ∧ l2.Holds [] ∧
      l2.FindFirstIf IsEven = .ok none ∧ l2.FindFirstIf IsOdd = .ok none) := by
  constructor
  · obtain ⟨l1, l2, h1, h2, h3, h4, h5⟩ :=
      l.forEach_even_then_removeIf xs DoubleInteger IsEven_DoubleInteger hl
    obtain ⟨l1', h1', hl1'⟩ := l.ForEach_holds xs DoubleInteger hl
    rw [h1] at h1'
    cases h1'
    exact ⟨l1, l2, h1, hl1', h2, h3, h4, h5⟩
  · obtain ⟨l1, l2, h1, h2, h3, h4, h5⟩ :=
      l.forEach_even_then_removeIf xs (fun i => i * 2) IsEven_double hl
    obtain ⟨l1', h1', hl1'⟩ := l.ForEach_holds xs (fun i => i * 2) hl
    rw [h1] at h1'
    cases h1'
    exact ⟨l1, l2, h1, hl1', h2, h3, h4, h5⟩

/-- Claim C13, on the list of the test, the values 0 to 9 pushed in this order: after the
doubling it holds 18, 16, ..., 0, and `RemoveIf(IsEven)` leaves it empty. -/
theorem double_then_removeEven_empties_witness :
    sampleDigits.Holds [9, 8, 7, 6, 5, 4, 3, 2, 1, 0] ∧
    ∃ l1 l2, sampleDigits.ForEach DoubleInteger = .ok (l1, [9, 8, 7, 6, 5, 4, 3, 2, 1, 0]) ∧
      l1.Holds [18, 16, 14, 12, 10, 8, 6, 4, 2, 0] ∧
      l1.RemoveIf IsEven = .ok l2 ∧ l2.Holds [] ∧
      l2.FindFirstIf IsEven = .ok none ∧ l2.FindFirstIf IsOdd = .ok none :=
  have hl : sampleDigits.Holds [9, 8, 7, 6, 5, 4, 3, 2, 1, 0] :=
    ⟨0, some 10, [(10, 9), (9, 8), (8, 7), (7, 6), (6, 5), (5, 4), (4, 3), (3, 2), (2, 1),
        (1, 0)], rfl, rfl,
      ⟨rfl, some 9, rfl, rfl, some 8, rfl, rfl, some 7, rfl, rfl, some 6, rfl, rfl, some 5, rfl,
        rfl, some 4, rfl, rfl, some 3, rfl, rfl, some 2, rfl, rfl, some 1, rfl, rfl, none, rfl,
        rfl⟩, rfl⟩
  ⟨hl, (double_then_removeEven_empties sampleDigits _ hl).1⟩

section HashtableInvariantLemmas

variable {K V : Type} [DecidableEq K]

/-- The entry list `entriesFor` reads is the list of the bucket at the selected index. -/
theorem ConcurrentHashtable.getElem_selected (t : ConcurrentHashtable K V) (key : K)
    (hpos : 0 < t.m_buckets.length) :
    t.m_buckets[t.m_hashFunction key % t.m_buckets.length]?
      = some (Bucket.mk (t.entriesFor key)) := by
  have hlt : t.m_hashFunction key % t.m_buckets.length < t.m_buckets.length :=
    Nat.mod_lt _ hpos
  unfold ConcurrentHashtable.entriesFor
  rw [List.getElem?_eq_getElem hlt]

/-- Replacing the selected bucket by entries whose keys were there before, or are the
selecting key, keeps every entry in its bucket. -/
theorem ConcurrentHashtable.Placed_set (t : ConcurrentHashtable K V) (key : K)
    (kvs : List (K × V)) (hpos : 0 < t.m_buckets.length) (hp : t.Placed)
    (hk : ∀ pair ∈ kvs, pair.1 = key ∨ pair.1 ∈ (t.entriesFor key).map Prod.fst) :
    ConcurrentHashtable.Placed
      { t with m_buckets := t.m_buckets.set
                              (t.m_hashFunction key % t.m_buckets.length) (Bucket.mk kvs) } := by
  intro j bucket hj pair hpair
  simp only [List.length_set, List.getElem?_set] at hj ⊢
  by_cases hij : t.m_hashFunction key % t.m_buckets.length = j
  · rw [if_pos hij, if_pos (Nat.mod_lt _ hpos)] at hj
    cases hj
    rcases hk pair hpair with h | h
    · rw [h]; exact hij
    · obtain ⟨pair', hmem, hfst⟩ := List.mem_map.mp h
      rw [← hfst, ← hij]
      exact hp _ _ (t.getElem_selected key hpos) pair' hmem
  · rw [if_neg hij] at hj
    exact hp j bucket hj pair hpair

theorem mem_keys_of_mem_bucketSet (kvs : List (K × V)) (key : K) (value : V) :
    ∀ pair ∈ bucketSet kvs key value, pair.1 = key ∨ pair.1 ∈ kvs.map Prod.fst := by
  intro pair hpair
  have hmem : pair.1 ∈ (bucketSet kvs key value).map Prod.fst :=
    List.mem_map.mpr ⟨pair, hpair, rfl⟩
  rw [keys_bucketSet] at hmem
  split at hmem
  · exact Or.inr hmem
  · rcases List.mem_append.mp hmem with h | h
    · exact Or.inr h
    · exact Or.inl (List.mem_singleton.mp h)

theorem mem_keys_of_mem_bucketErase (kvs : List (K × V)) (key : K) :
    ∀ pair ∈ bucketErase kvs key, pair.1 = key ∨ pair.1 ∈ kvs.map Prod.fst := by
  intro pair hpair
  have hmem : pair.1 ∈ (bucketErase kvs key).map Prod.fst :=
    List.mem_map.mpr ⟨pair, hpair, rfl⟩
  exact Or.inr ((keys_bucketErase_sublist kvs key).subset hmem)

/-- One call on a table with at least one bucket keeps every entry in its bucket and keeps
the hash function. -/
theorem ConcurrentHashtable.call_placed (t t' : ConcurrentHashtable K V)
    (c : HashtableCall K V) (hpos : 0 < t.m_buckets.length) (hp : t.Placed)
    (h : t.call c = .ok t') : t'.Placed ∧ t'.m_hashFunction = t.m_hashFunction := by
  cases c with
  | SetValueForKey k v =>
    simp only [ConcurrentHashtable.call, t.SetValueForKey_eq k v hpos, Except.ok.injEq] at h
    subst h
    exact ⟨t.Placed_set k _ hpos hp (mem_keys_of_mem_bucketSet _ k v), rfl⟩
  | RemoveEntry k =>
    simp only [ConcurrentHashtable.call, t.RemoveEntry_eq k hpos, Except.ok.injEq] at h
    subst h
    exact ⟨t.Placed_set k _ hpos hp (mem_keys_of_mem_bucketErase _ k), rfl⟩
  | Clear =>
    simp only [ConcurrentHashtable.call, Except.ok.injEq] at h
    subst h
    refine ⟨?_, rfl⟩
    intro j bucket hj pair hpair
    simp only [ConcurrentHashtable.Clear, List.getElem?_map] at hj
    cases hb : t.m_buckets[j]? with
    | none => rw [hb] at hj; cases hj
    | some b =>
      rw [hb] at hj
      simp only [Option.map_some', Option.some.injEq] at hj
      subst hj
      cases hpair

/-- A run on a table with at least one bucket keeps every entry in its bucket and keeps the
hash function. -/
theorem ConcurrentHashtable.run_placed (calls : List (HashtableCall K V)) :
    ∀ (t t' : ConcurrentHashtable K V), 0 < t.m_buckets.length → t.Placed →
      t.run calls = .ok t' → t'.Placed ∧ t'.m_hashFunction = t.m_hashFunction := by
  induction calls with
  | nil =>
    intro t t' _ hp h
    simp only [ConcurrentHashtable.run, Except.ok.injEq] at h
    subst h
    exact ⟨hp, rfl⟩
  | cons c cs ih =>
    intro t t' hpos hp h
    simp only [ConcurrentHashtable.run] at h
    cases hc : t.call c with
    | error e => rw [hc] at h; cases h
    | ok t1 =>
      rw [hc] at h
      obtain ⟨hp1, hh1⟩ := t.call_placed t1 c hpos hp hc
      have hlen1 := t.call_length t1 c hc
      obtain ⟨hp2, hh2⟩ := ih t1 t' (by omega) hp1 h
      exact ⟨hp2, hh2.trans hh1⟩

theorem ConcurrentHashtable.new_Placed (numBuckets : Nat) (hashFunction : K → Nat) :
    (ConcurrentHashtable.new numBuckets hashFunction : ConcurrentHashtable K V).Placed := by
  intro i bucket hi pair hpair
  have hb := List.getElem?_mem hi
  simp only [ConcurrentHashtable.new] at hb
  rw [List.eq_of_mem_replicate hb] at hpair
  cases hpair

end HashtableInvariantLemmas

/-- Claim C22. Bucket invariant: every run of `SetValueForKey` / `RemoveEntry` / `Clear` calls
on a table constructed with at least one bucket succeeds, and the table it reaches has as
many buckets as were given at construction, the same hash function, in each bucket at most
one entry per key, and every stored entry in the bucket whose index is the hash of its key
modulo the number of buckets. -/
theorem bucket_invariant {K V : Type} [DecidableEq K] (numBuckets : Nat)
    (hashFunction : K → Nat) (calls : List (HashtableCall K V)) (hBuckets : 1 ≤ numBuckets) :
    ∃ t, (ConcurrentHashtable.new numBuckets hashFunction).run calls = .ok t ∧
      t.m_buckets.length = numBuckets ∧ t.m_hashFunction = hashFunction ∧
      ∀ i bucket, t.m_buckets[i]? = some bucket →
        (bucket.keyValueList.map Prod.fst).Nodup ∧
        ∀ pair ∈ bucket.keyValueList, hashFunction pair.1 % numBuckets = i := by
  have hpos : 0 < (ConcurrentHashtable.new numBuckets hashFunction :
      ConcurrentHashtable K V).m_buckets.length := by
    rw [ConcurrentHashtable.new_length]; omega
  obtain ⟨t, hrun, hlen, hnd, _⟩ :=
    ConcurrentHashtable.run_spec calls
      (ConcurrentHashtable.new numBuckets hashFunction : ConcurrentHashtable K V) hpos
      (ConcurrentHashtable.new_KeysNodup numBuckets hashFunction)
  obtain ⟨hp, hh⟩ := ConcurrentHashtable.run_placed calls _ t hpos
    (ConcurrentHashtable.new_Placed numBuckets hashFunction) hrun
  have hlen' : t.m_buckets.length = numBuckets := by
    rw [hlen, ConcurrentHashtable.new_length]
  have hh' : t.m_hashFunction = hashFunction := hh
  refine ⟨t, hrun, hlen', hh', ?_⟩
  intro i bucket hi
  refine ⟨hnd bucket (List.getElem?_mem hi), ?_⟩
  intro pair hpair
  have := hp i bucket hi pair hpair
  rw [hh', hlen'] at this
  exact this

/-- Claim C22, on a run with five buckets that sets the keys 1, 6 and 11 (all of bucket 1),
sets key 6 again, removes key 1, sets key 3 and key 1: bucket 1 ends with the keys 6, 11, 1
and bucket 3 with key 3. -/
theorem bucket_invariant_witness :
    (∃ t, (ConcurrentHashtable.new 5 (fun k : Nat => k)).run
        [HashtableCall.SetValueForKey 1 10, HashtableCall.SetValueForKey 6 60,
         HashtableCall.SetValueForKey 11 110, HashtableCall.SetValueForKey 6 61,
         HashtableCall.RemoveEntry 1, HashtableCall.SetValueForKey 3 30,
         HashtableCall.SetValueForKey 1 12] = .ok t ∧
      t.m_buckets.length = 5 ∧ t.m_hashFunction = (fun k : Nat => k) ∧
      ∀ i bucket, t.m_buckets[i]? = some bucket →
        (bucket.keyValueList.map Prod.fst).Nodup ∧
        ∀ pair ∈ bucket.keyValueList, (fun k : Nat => k) pair.1 % 5 = i) ∧
    ∃ t, (ConcurrentHashtable.new 5 (fun k : Nat => k)).run
        [HashtableCall.SetValueForKey 1 10, HashtableCall.SetValueForKey 6 60,
         HashtableCall.SetValueForKey 11 110, HashtableCall.SetValueForKey 6 61,
         HashtableCall.RemoveEntry 1, HashtableCall.SetValueForKey 3 30,
         HashtableCall.SetValueForKey 1 12] = .ok t ∧
      t.m_buckets.map (fun bucket => bucket.keyValueList)
        = [[], [(6, 61), (11, 110), (1, 12)], [], [(3, 30)], []] :=
  ⟨bucket_invariant 5 (fun k : Nat => k) _ (by decide), _, rfl, rfl⟩

section HashtableFrame

variable {K V : Type} [DecidableEq K]

/-- Erasing the entry of one key does not change what is read for another key, whatever
the bucket contains. -/
theorem entryLookup_bucketErase_other (kvs : List (K × V)) (key other : K)
    (hne : key ≠ other) : entryLookup other (bucketErase kvs key) = entryLookup other kvs := by
  induction kvs with
  | nil => rfl
  | cons a rest ih =>
    obtain ⟨k, v⟩ := a
    rw [bucketErase_cons]
    by_cases h : k = key
    · subst h
      simp [entryLookup, hne]
    · rw [if_neg h]
      by_cases h' : k = other <;> simp [entryLookup, h', ih]

/-- Replacing the bucket selected by `key` leaves every other bucket as it was. -/
theorem ConcurrentHashtable.getElem_set_other (t : ConcurrentHashtable K V) (key : K)
    (kvs : List (K × V)) (j : Nat) (hj : j ≠ t.m_hashFunction key % t.m_buckets.length) :
    (t.m_buckets.set (t.m_hashFunction key % t.m_buckets.length) (Bucket.mk kvs))[j]?
      = t.m_buckets[j]? := by
  rw [List.getElem?_set, if_neg (Ne.symm hj)]

end HashtableFrame

/-- Claim C27. Hashtable writes touch only their own key: on every table state with at least
one bucket, for every two distinct keys `key` and `other` (also when both hash to the same
bucket) and every value, `SetValueForKey key value` and `RemoveEntry key` return, and
`GetValueForKey other` gives the same result after the call as before it; every bucket
other than the one `key` hashes to is left as it was. -/
theorem writes_touch_only_their_key {K V : Type} [DecidableEq K]
    (t : ConcurrentHashtable K V) (key other : K) (value : V)
    (hBuckets : 1 ≤ t.m_buckets.length) (hne : key ≠ other) :
    (∃ t', t.SetValueForKey key value = .ok t' ∧
      t'.GetValueForKey other = t.GetValueForKey other ∧
      ∀ j, j ≠ t.m_hashFunction key % t.m_buckets.length →
        t'.m_buckets[j]? = t.m_buckets[j]?) ∧
    (∃ t', t.RemoveEntry key = .ok t' ∧
      t'.GetValueForKey other = t.GetValueForKey other ∧
      ∀ j, j ≠ t.m_hashFunction key % t.m_buckets.length →
        t'.m_buckets[j]? = t.m_buckets[j]?) := by
  have hpos : 0 < t.m_buckets.length := hBuckets
  constructor
  · refine ⟨_, t.SetValueForKey_eq key value hpos, ?_, fun j hj => t.getElem_set_other key _ j hj⟩
    rw [ConcurrentHashtable.GetValueForKey_eq _ _ (by simpa using hpos),
      t.GetValueForKey_eq other hpos]
    have := t.view_set key other value hpos
    unfold ConcurrentHashtable.view at this
    rw [this, if_neg hne]
  · refine ⟨_, t.RemoveEntry_eq key hpos, ?_, fun j hj => t.getElem_set_other key _ j hj⟩
    rw [ConcurrentHashtable.GetValueForKey_eq _ _ (by simpa using hpos),
      t.GetValueForKey_eq other hpos, t.entriesFor_set key other _ hpos]
    split
    · rename_i hh
      rw [entryLookup_bucketErase_other _ _ _ hne]
      unfold ConcurrentHashtable.entriesFor
      rw [hh]
    · rfl

/-- Claim C27, on the table with three buckets that stores the keys 1 and 4 in bucket 1:
writing key 1 leaves the reading of key 4 (same bucket) at 40, writing key 7 (same bucket,
absent) too, and bucket 2 is untouched. -/
theorem writes_touch_only_their_key_witness :
    sampleTable.GetValueForKey 4 = .ok (some 40) ∧
    (∃ t', sampleTable.SetValueForKey 1 11 = .ok t' ∧
      t'.GetValueForKey 4 = sampleTable.GetValueForKey 4 ∧
      ∀ j, j ≠ sampleTable.m_hashFunction 1 % sampleTable.m_buckets.length →
        t'.m_buckets[j]? = sampleTable.m_buckets[j]?) ∧
    (∃ t', sampleTable.RemoveEntry 1 = .ok t' ∧
      t'.GetValueForKey 4 = sampleTable.GetValueForKey 4 ∧
      ∀ j, j ≠ sampleTable.m_hashFunction 1 % sampleTable.m_buckets.length →
        t'.m_buckets[j]? = sampleTable.m_buckets[j]?) ∧
    (∃ t', sampleTable.SetValueForKey 7 70 = .ok t' ∧
      t'.GetValueForKey 4 = sampleTable.GetValueForKey 4 ∧
      ∀ j, j ≠ sampleTable.m_hashFunction 7 % sampleTable.m_buckets.length →
        t'.m_buckets[j]? = sampleTable.m_buckets[j]?) :=
  ⟨rfl, (writes_touch_only_their_key sampleTable 1 4 11 (by decide) (by decide)).1,
    (writes_touch_only_their_key sampleTable 1 4 11 (by decide) (by decide)).2,
    (writes_touch_only_their_key sampleTable 7 4 70 (by decide) (by decide)).1⟩

section QueueReach

variable {T : Type}

/-- A call that returns on a queue that holds `xs` leaves a queue that holds values, and
what it hands out followed by what is left equals `xs` followed by what it pushed. -/
theorem ConcurrentQueue.call_reaches (q q' : ConcurrentQueue T) (xs : List T)
    (c : QueueCall T) (r : Option T) (hq : q.Holds xs) (hc : q.call c = .ok (q', r)) :
    ∃ rest, q'.Holds rest ∧ r.toList ++ rest = xs ++ QueueCall.pushed [c] := by
  by_cases hw : QueueCall.waitsOnNonEmpty xs.length [c] = true
  · obtain ⟨q1, r1, rest, h1, hq1, hsplit, _⟩ := q.call_holds xs c hq hw
    rw [hc] at h1
    simp only [Except.ok.injEq, Prod.mk.injEq] at h1
    obtain ⟨rfl, rfl⟩ := h1
    exact ⟨rest, hq1, hsplit⟩
  · cases c with
    | Push value => simp [QueueCall.waitsOnNonEmpty] at hw
    | TryPop => simp [QueueCall.waitsOnNonEmpty] at hw
    | TryPopRef result => simp [QueueCall.waitsOnNonEmpty] at hw
    | WaitAndPop =>
      have hx : xs = [] := by
        cases xs with
        | nil => rfl
        | cons x rest => simp [QueueCall.waitsOnNonEmpty] at hw
      subst hx
      have he := ConcurrentQueue.holds_nil hq
      simp [ConcurrentQueue.call, ConcurrentQueue.WaitAndPop, he, bind, Except.bind] at hc
    | WaitAndPopRef result =>
      have hx : xs = [] := by
        cases xs with
        | nil => rfl
        | cons x rest => simp [QueueCall.waitsOnNonEmpty] at hw
      subst hx
      have he := ConcurrentQueue.holds_nil hq
      simp [ConcurrentQueue.call, ConcurrentQueue.WaitAndPopRef, he, bind, Except.bind] at hc

/-- Every state a run returns, started on a queue that holds `xs`, holds values; the values
handed out followed by the values left are `xs` followed by the values pushed. -/
theorem ConcurrentQueue.run_reaches (calls : List (QueueCall T)) :
    ∀ (q q' : ConcurrentQueue T) (xs popped : List T), q.Holds xs →
      q.run calls = .ok (q', popped) →
      ∃ rest, q'.Holds rest ∧ popped ++ rest = xs ++ QueueCall.pushed calls := by
  induction calls with
  | nil =>
    intro q q' xs popped hq hr
    simp only [ConcurrentQueue.run, Except.ok.injEq, Prod.mk.injEq] at hr
    obtain ⟨rfl, rfl⟩ := hr
    exact ⟨xs, hq, by simp [QueueCall.pushed]⟩
  | cons c cs ih =>
    intro q q' xs popped hq hr
    simp only [ConcurrentQueue.run, bind, Except.bind] at hr
    cases hc : q.call c with
    | error e => rw [hc] at hr; cases hr
    | ok p =>
      obtain ⟨q1, r⟩ := p
      rw [hc] at hr
      simp only at hr
      cases hr1 : q1.run cs with
      | error e => rw [hr1] at hr; cases hr
      | ok p2 =>
        obtain ⟨q2, rs⟩ := p2
        rw [hr1] at hr
        simp only [Except.ok.injEq, Prod.mk.injEq] at hr
        obtain ⟨rfl, rfl⟩ := hr
        obtain ⟨rest1, hq1, hsplit1⟩ := q.call_reaches q1 xs c r hq hc
        obtain ⟨rest2, hq2, hsplit2⟩ := ih q1 q2 rest1 rs hq1 hr1
        refine ⟨rest2, hq2, ?_⟩
        rw [List.append_assoc, hsplit2, ← List.append_assoc, hsplit1,
          QueueCall.pushed_cons c cs, List.append_assoc]

/-- The two non-blocking pop overloads on a queue that holds `xs`. -/
theorem ConcurrentQueue.tryPop_both (q : ConcurrentQueue T) (xs : List T) (result : T)
    (hq : q.Holds xs) :
    ∃ r q', q.TryPop = .ok (r, q') ∧ q.TryPopRef result = .ok (r.isSome, r.getD result, q') ∧
      r = xs.head? ∧ q'.Holds xs.tail := by
  cases xs with
  | nil =>
    exact ⟨none, q, q.TryPop_nil hq, q.TryPopRef_nil result hq, rfl, hq⟩
  | cons x rest =>
    obtain ⟨head, next, hh, hne, hl, hrest⟩ := ConcurrentQueue.holds_cons hq
    refine ⟨some x, _, ?_, ?_, rfl, hrest⟩
    · unfold ConcurrentQueue.TryPop
      rw [if_neg hne]
      simp only [hh, bind, Except.bind, Heap.deref_eq hl, Heap.delete_eq hl]
    · unfold ConcurrentQueue.TryPopRef
      rw [if_neg hne]
      simp only [hh, bind, Except.bind, Heap.deref_eq hl, Heap.delete_eq hl]
      rfl

end QueueReach

/-- Claim C23. Queue structural invariant: in every queue state that a run of `Push`, `TryPop`
and `WaitAndPop` calls on a freshly constructed queue returns, following `next` from
`m_head` reaches `m_tail` after passing finitely many nodes (`cells`), the tail node is live
and carries no value and no successor, every node passed before the tail carries a value, and
`m_head == m_tail` holds exactly when no node is passed, that is when the queue has zero
elements.  Hence the dereference of the dequeued node's data in `TryPop(T&)` and
`WaitAndPop(T&)` never faults. -/
theorem queue_structural_invariant {T : Type} (calls : List (QueueCall T))
    (q : ConcurrentQueue T) (popped : List T)
    (hrun : (ConcurrentQueue.new : ConcurrentQueue T).run calls = .ok (q, popped)) :
    ∃ cells tail,
      Seg q.heap q.m_head cells (some tail) ∧ q.m_tail = some tail ∧
      q.heap.lookup tail = some { data := none, next := none } ∧
      (∀ a ∈ cells.map Prod.fst, ∃ x next,
        q.heap.lookup a = some { data := some x, next := next }) ∧
      (q.m_head = q.m_tail ↔ cells = []) ∧
      q.Holds (cells.map Prod.snd) ∧
      popped ++ cells.map Prod.snd = QueueCall.pushed calls ∧
      (∀ result, ∃ r, q.TryPopRef result = .ok r) ∧
      (∀ result, q.WaitAndPopRef result ≠ .error .invalidAccess) := by
  obtain ⟨rest, hq, hsplit⟩ := ConcurrentQueue.run_reaches calls _ q [] popped
    ConcurrentQueue.queueNew_holds hrun
  rw [List.nil_append] at hsplit
  have hq' := hq
  obtain ⟨cells, tail, hseg, hmap, ht, hl⟩ := hq
  subst hmap
  refine ⟨cells, tail, hseg, ht, hl, Seg.addr_data hseg, ?_, hq', hsplit, ?_, ?_⟩
  · have he := ConcurrentQueue.Empty_iff_nil hq'
    simp only [ConcurrentQueue.Empty, decide_eq_true_eq, List.map_eq_nil_iff] at he
    exact he
  · intro result
    obtain ⟨r, q1, _, h2, _, _⟩ := q.tryPop_both _ result hq'
    exact ⟨_, h2⟩
  · intro result
    cases hc : cells.map Prod.snd with
    | nil =>
      rw [hc] at hq'
      have he := ConcurrentQueue.holds_nil hq'
      simp [ConcurrentQueue.WaitAndPopRef, he]
    | cons x xs =>
      rw [hc] at hq'
      obtain ⟨q1, h1, _⟩ := q.WaitAndPopRef_holds x xs result hq'
      rw [h1]
      intro h; cases h

/-- Claim C23, on the state reached by push 1, push 2, `TryPop()`, push 3: the freed cell 0,
the nodes 1 and 2 with the values 2 and 3, and the dummy at address 3. -/
theorem queue_structural_invariant_witness :
    (ConcurrentQueue.new : ConcurrentQueue Nat).run
        [QueueCall.Push 1, QueueCall.Push 2, QueueCall.TryPop, QueueCall.Push 3]
      = .ok ({ heap := [none, some { data := some 2, next := some 2 },
                        some { data := some 3, next := some 3 },
                        some { data := none, next := none }],
               m_head := some 1, m_tail := some 3 }, [1]) ∧
    ∃ cells tail,
      Seg [none, some { data := some 2, next := some 2 }, some { data := some 3, next := some 3 },
          some ({ data := none, next := none } : Node Nat)] (some 1) cells (some tail) ∧
      some 3 = some tail ∧
      Heap.lookup [none, some { data := some 2, next := some 2 },
          some { data := some 3, next := some 3 },
          some ({ data := none, next := none } : Node Nat)] tail
        = some { data := none, next := none } ∧
      cells.map Prod.snd = [2, 3] :=
  have h := queue_structural_invariant
    [QueueCall.Push 1, QueueCall.Push 2, QueueCall.TryPop, QueueCall.Push 3]
    { heap := [none, some { data := some 2, next := some 2 },
               some { data := some 3, next := some 3 }, some { data := none, next := none }],
      m_head := some 1, m_tail := some 3 } [1] (by rfl)
  ⟨rfl, h.imp fun _ h1 => h1.imp fun _ h2 =>
    ⟨h2.1, h2.2.1, h2.2.2.1, List.append_cancel_left h2.2.2.2.2.2.2.1⟩⟩

/-- Claim C29. The two non-blocking pop overloads agree: on every queue that holds values,
and so on every state a run of calls on a freshly constructed queue returns,
`TryPop(T& result)` returns true exactly when `TryPop()` returns a non-empty pointer; then
the value stored in `result` is the value the pointer refers to, the front element, and
otherwise `result` is unchanged; in all cases both overloads leave the same queue state. -/
theorem tryPop_overloads_agree {T : Type} :
    (∀ (q : ConcurrentQueue T) (xs : List T) (result : T), q.Holds xs →
      ∃ r q', q.TryPop = .ok (r, q') ∧
        q.TryPopRef result = .ok (r.isSome, r.getD result, q') ∧ r = xs.head?) ∧
    (∀ (calls : List (QueueCall T)) (q : ConcurrentQueue T) (popped : List T) (result : T),
      (ConcurrentQueue.new : ConcurrentQueue T).run calls = .ok (q, popped) →
      ∃ r q', q.TryPop = .ok (r, q') ∧
        q.TryPopRef result = .ok (r.isSome, r.getD result, q')) := by
  constructor
  · intro q xs result hq
    obtain ⟨r, q', h1, h2, h3, _⟩ := q.tryPop_both xs result hq
    exact ⟨r, q', h1, h2, h3⟩
  · intro calls q popped result hrun
    obtain ⟨rest, hq, _⟩ := ConcurrentQueue.run_reaches calls _ q [] popped
      ConcurrentQueue.queueNew_holds hrun
    obtain ⟨r, q', h1, h2, _, _⟩ := q.tryPop_both rest result hq
    exact ⟨r, q', h1, h2⟩

/-- Claim C29, on the queue that holds 1, 2 (both overloads hand out 1 and leave the same
state) and on the freshly constructed queue (both report an empty queue). -/
theorem tryPop_overloads_agree_witness :
    sampleQueue.Holds [1, 2] ∧
    (∃ q', sampleQueue.TryPop = .ok (some 1, q') ∧
      sampleQueue.TryPopRef 0 = .ok (true, 1, q')) ∧
    (∃ r q', (ConcurrentQueue.new : ConcurrentQueue Nat).TryPop = .ok (r, q') ∧
      (ConcurrentQueue.new : ConcurrentQueue Nat).TryPopRef 7
        = .ok (r.isSome, r.getD 7, q')) :=
  have hq : sampleQueue.Holds [1, 2] :=
    ⟨[(0, 1), (1, 2)], 2, ⟨rfl, some 1, rfl, rfl, some 2, rfl, rfl⟩, rfl, rfl, rfl⟩
  ⟨hq,
    (tryPop_overloads_agree.1 sampleQueue [1, 2] 0 hq).elim fun r h1 =>
      h1.elim fun q' h2 => ⟨q', by rw [h2.1, h2.2.2]; rfl, by rw [h2.2.1, h2.2.2]; rfl⟩,
    tryPop_overloads_agree.2 [] ConcurrentQueue.new [] 7 (by rfl)⟩

section ListReach

variable {T : Type}

/-- A bind that returns has a first part that returns. -/
theorem except_bind_ok {ε α β : Type} {x : Except ε α} {f : α → Except ε β} {b : β}
    (h : (x >>= f) = .ok b) : ∃ a, x = .ok a ∧ f a = .ok b := by
  cases x with
  | error e => cases h
  | ok a => exact ⟨a, rfl, h⟩

theorem ConcurrentList.PushToFront_head (l l' : ConcurrentList T) (data : T)
    (h : l.PushToFront data = .ok l') : l'.m_head = l.m_head := by
  unfold ConcurrentList.PushToFront at h
  obtain ⟨a1, _, h⟩ := except_bind_ok h
  obtain ⟨a2, _, h⟩ := except_bind_ok h
  obtain ⟨a3, _, h⟩ := except_bind_ok h
  simp only [Except.ok.injEq] at h
  rw [← h]

theorem ConcurrentList.ForEach_head (l l' : ConcurrentList T) (function : T → T)
    (calls : List T) (h : l.ForEach function = .ok (l', calls)) : l'.m_head = l.m_head := by
  unfold ConcurrentList.ForEach at h
  obtain ⟨a1, _, h⟩ := except_bind_ok h
  obtain ⟨a2, _, h⟩ := except_bind_ok h
  simp only [Except.ok.injEq, Prod.mk.injEq] at h
  rw [← h.1]

theorem ConcurrentList.RemoveIf_head (l l' : ConcurrentList T) (predicate : T → Bool)
    (h : l.RemoveIf predicate = .ok l') : l'.m_head = l.m_head := by
  unfold ConcurrentList.RemoveIf at h
  obtain ⟨a1, _, h⟩ := except_bind_ok h
  obtain ⟨a2, _, h⟩ := except_bind_ok h
  simp only [Except.ok.injEq] at h
  rw [← h]

/-- The member functions never assign `m_head`. -/
theorem ConcurrentList.call_head (l l' : ConcurrentList T) (c : ListCall T)
    (r : ListResult T) (h : l.call c = .ok (l', r)) : l'.m_head = l.m_head := by
  cases c with
  | PushToFront data =>
    obtain ⟨a, ha, h⟩ := except_bind_ok h
    simp only [Except.ok.injEq, Prod.mk.injEq] at h
    rw [← h.1]
    exact l.PushToFront_head a data ha
  | ForEach function =>
    obtain ⟨a, ha, h⟩ := except_bind_ok h
    simp only [Except.ok.injEq, Prod.mk.injEq] at h
    rw [← h.1]
    exact l.ForEach_head a.1 function a.2 ha
  | FindFirstIf predicate =>
    obtain ⟨a, _, h⟩ := except_bind_ok h
    simp only [Except.ok.injEq, Prod.mk.injEq] at h
    rw [← h.1]
  | RemoveIf predicate =>
    obtain ⟨a, ha, h⟩ := except_bind_ok h
    simp only [Except.ok.injEq, Prod.mk.injEq] at h
    rw [← h.1]
    exact l.RemoveIf_head a predicate ha

/-- Every call on a list that holds values returns and leaves a list that holds values. -/
theorem ConcurrentList.listCall_holds (l : ConcurrentList T) (xs : List T) (c : ListCall T)
    (hl : l.Holds xs) : ∃ l' r ys, l.call c = .ok (l', r) ∧ l'.Holds ys := by
  cases c with
  | PushToFront data =>
    obtain ⟨l', h1, h2⟩ := l.PushToFront_holds xs data hl
    exact ⟨l', .done, _, by simp only [ConcurrentList.call, h1, bind, Except.bind], h2⟩
  | ForEach function =>
    obtain ⟨l', h1, h2⟩ := l.ForEach_holds xs function hl
    exact ⟨l', .visited xs, _, by simp only [ConcurrentList.call, h1, bind, Except.bind], h2⟩
  | FindFirstIf predicate =>
    have h1 := l.FindFirstIf_holds xs predicate hl
    exact ⟨l, .found (xs.find? predicate), xs,
      by simp only [ConcurrentList.call, h1, bind, Except.bind], hl⟩
  | RemoveIf predicate =>
    obtain ⟨l', h1, h2⟩ := l.RemoveIf_holds xs predicate hl
    exact ⟨l', .done, _, by simp only [ConcurrentList.call, h1, bind, Except.bind], h2⟩

/-- Every run on a list that holds values returns, keeps `m_head` and leaves a list that
holds values. -/
theorem ConcurrentList.run_holds (calls : List (ListCall T)) :
    ∀ (l : ConcurrentList T) (xs : List T), l.Holds xs →
      ∃ l' results ys, l.run calls = .ok (l', results) ∧ l'.Holds ys ∧
        l'.m_head = l.m_head := by
  induction calls with
  | nil => intro l xs hl; exact ⟨l, [], xs, rfl, hl, rfl⟩
  | cons c cs ih =>
    intro l xs hl
    obtain ⟨l1, r, ys, h1, hl1⟩ := l.listCall_holds xs c hl
    obtain ⟨l2, rs, zs, h2, hl2, hh2⟩ := ih l1 ys hl1
    refine ⟨l2, r :: rs, zs, ?_, hl2, hh2.trans (l.call_head l1 c r h1)⟩
    simp only [ConcurrentList.run, h1, h2, bind, Except.bind]

end ListReach

/-- Claim C24. Sentinel invariant of the fixed-sentinel list: every run of `PushToFront`,
`ForEach`, `FindFirstIf` and `RemoveIf` calls on a freshly constructed list returns, and in
the list it reaches `m_head` is still the node created by the constructor (address 0), that
node is live and holds no value, every node after it up to the null pointer is another node
and holds a value, and the list holds no values exactly when the sentinel's `next` is null.
A further `ForEach` calls its function on exactly the held values (a call on the sentinel
would dereference its empty data pointer and fault), and a further `RemoveIf` returns and
leaves the sentinel live, without a value, as `m_head`. -/
theorem sentinel_invariant {T : Type} (calls : List (ListCall T)) :
    ∃ l results xs first cells,
      (ConcurrentList.new : ConcurrentList T).run calls = .ok (l, results) ∧
      (ConcurrentList.new : ConcurrentList T).m_head = some 0 ∧ l.m_head = some 0 ∧
      l.heap.lookup 0 = some { data := none, next := first } ∧
      Seg l.heap first cells none ∧ cells.map Prod.snd = xs ∧
      (∀ a ∈ cells.map Prod.fst, a ≠ 0 ∧
        ∃ x next, l.heap.lookup a = some { data := some x, next := next }) ∧
      (xs = [] ↔ first = none) ∧
      l.Holds xs ∧
      (∀ function : T → T, ∃ l', l.ForEach function = .ok (l', xs)) ∧
      (∀ predicate : T → Bool, ∃ l' next, l.RemoveIf predicate = .ok l' ∧
        l'.m_head = some 0 ∧ l'.heap.lookup 0 = some { data := none, next := next }) := by
  obtain ⟨l, results, xs, hrun, hl, hhead⟩ :=
    ConcurrentList.run_holds calls (ConcurrentList.new : ConcurrentList T) []
      ConcurrentList.listNew_holds
  have hhead0 : l.m_head = some 0 := hhead
  have hl' := hl
  obtain ⟨head, first, cells, hh, hlk, hseg, hmap⟩ := hl
  rw [hhead0] at hh
  cases hh
  refine ⟨l, results, xs, first, cells, hrun, rfl, hhead0, hlk, hseg, hmap, ?_, ?_, hl', ?_, ?_⟩
  · intro a ha
    exact ⟨Seg.ne_of_lookup_none hseg hlk a ha, Seg.addr_data hseg a ha⟩
  · rw [← hmap]
    constructor
    · intro hx
      have hc : cells = [] := List.map_eq_nil_iff.mp hx
      subst hc
      exact hseg
    · intro hf
      subst hf
      cases cells with
      | nil => rfl
      | cons c rest =>
        obtain ⟨a, x⟩ := c
        exact absurd hseg.1 (by simp)
  · intro function
    obtain ⟨l1, h1, _⟩ := l.ForEach_holds xs function hl'
    exact ⟨l1, h1⟩
  · intro predicate
    obtain ⟨l1, h1, hl1⟩ := l.RemoveIf_holds xs predicate hl'
    have hh1 : l1.m_head = some 0 := (l.RemoveIf_head l1 predicate h1).trans hhead0
    obtain ⟨head1, first1, _, hh, hlk1, _, _⟩ := hl1
    rw [hh1] at hh
    cases hh
    exact ⟨l1, first1, h1, hh1, hlk1⟩

/-- Claim C24, on the run push 1, push 2, push 3, double every element, look for 4, remove
the elements above 3: the sentinel at address 0 is followed by the node with the value 2. -/
theorem sentinel_invariant_witness :
    (ConcurrentList.new : ConcurrentList Nat).run
        [ListCall.PushToFront 1, ListCall.PushToFront 2, ListCall.PushToFront 3,
         ListCall.ForEach (fun i => i * 2), ListCall.FindFirstIf (fun i => i == 4),
         ListCall.RemoveIf (fun i => decide (3 < i))]
      = .ok ({ heap := [some { data := none, next := some 1 },
                        some { data := some 2, next := none }, none, none],
               m_head := some 0 },
             [ListResult.done, ListResult.done, ListResult.done, ListResult.visited [3, 2, 1],
              ListResult.found (some 4), ListResult.done]) ∧
    ∃ l results xs first cells, (ConcurrentList.new : ConcurrentList Nat).run
        [ListCall.PushToFront 1, ListCall.PushToFront 2, ListCall.PushToFront 3,
         ListCall.ForEach (fun i => i * 2), ListCall.FindFirstIf (fun i => i == 4),
         ListCall.RemoveIf (fun i => decide (3 < i))] = .ok (l, results) ∧
      l.m_head = some 0 ∧ l.heap.lookup 0 = some { data := none, next := first } ∧
      Seg l.heap first cells none ∧ cells.map Prod.snd = xs ∧ l.Holds xs :=
  ⟨rfl,
    (sentinel_invariant
      [ListCall.PushToFront 1, ListCall.PushToFront 2, ListCall.PushToFront 3,
       ListCall.ForEach (fun i => i * 2), ListCall.FindFirstIf (fun i => i == 4),
       ListCall.RemoveIf (fun i => decide (3 < i))]).imp fun _ h1 => h1.imp fun _ h2 =>
        h2.imp fun _ h3 => h3.imp fun _ h4 => h4.imp fun _ h5 =>
          ⟨h5.1, h5.2.2.1, h5.2.2.2.1, h5.2.2.2.2.1, h5.2.2.2.2.2.1, h5.2.2.2.2.2.2.2.2.1⟩⟩

section ListDestructorLemmas

variable {T : Type}

/-- The destructor loop walks to the last node of the chain and stops there. -/
theorem ConcurrentList.destructorLoop_spec (cells : List (Nat × T)) :
    ∀ (fuel : Nat) (h : Heap T) (current : Nat) (d : Option T) (next : Option Nat),
      h.lookup current = some { data := d, next := next } → Seg h next cells none →
      cells.length < fuel →
      ConcurrentList.destructorLoop fuel h current
        = .ok ((cells.map Prod.fst).getLastD current) := by
  induction cells with
  | nil =>
    intro fuel h current d next hl hseg hfuel
    have hn : next = none := hseg
    subst hn
    obtain ⟨k, rfl⟩ : ∃ k, fuel = k + 1 := ⟨fuel - 1, by simp at hfuel; omega⟩
    simp only [ConcurrentList.destructorLoop, bind, Except.bind, Heap.deref_eq hl]
    rfl
  | cons c rest ih =>
    obtain ⟨a, x⟩ := c
    intro fuel h current d next hl hseg hfuel
    obtain ⟨hp, next', hla, hrest⟩ := hseg
    subst hp
    obtain ⟨k, rfl⟩ : ∃ k, fuel = k + 1 := ⟨fuel - 1, by simp at hfuel; omega⟩
    simp only [ConcurrentList.destructorLoop, bind, Except.bind, Heap.deref_eq hl,
      Heap.deref_eq hla]
    rw [ih k h a (some x) next' hla hrest (by simp at hfuel; omega)]
    simp only [List.map_cons, List.getLastD_cons]

/-- The last address of a non-empty list of addresses is one of them. -/
theorem getLastD_mem_of_ne_nil (addrs : List Nat) (d : Nat) (h : addrs ≠ []) :
    addrs.getLastD d ∈ addrs := by
  induction addrs generalizing d with
  | nil => exact absurd rfl h
  | cons a rest ih =>
    rw [List.getLastD_cons]
    cases rest with
    | nil => simp
    | cons b rest' =>
      exact List.mem_cons_of_mem _ (ih a (by simp))

/-- The destructor deletes the last node of the chain and nothing else. -/
theorem ConcurrentList.destructor_eq (l : ConcurrentList T) (xs : List T) (hl : l.Holds xs) :
    ∃ head first cells, l.m_head = some head ∧
      l.heap.lookup head = some { data := none, next := first } ∧
      Seg l.heap first cells none ∧ cells.map Prod.snd = xs ∧
      l.destructor = .ok (l.heap.set ((cells.map Prod.fst).getLastD head) none) := by
  obtain ⟨head, first, cells, hh, hlk, hseg, hmap⟩ := hl
  refine ⟨head, first, cells, hh, hlk, hseg, hmap, ?_⟩
  have hlen : cells.length < l.heap.length := by
    have hnd : (head :: cells.map Prod.fst).Nodup :=
      List.nodup_cons.mpr ⟨fun hmem => Seg.ne_of_lookup_none hseg hlk head hmem rfl,
        Seg.nodup (Terminal.null _) hseg⟩
    have hsub : head :: cells.map Prod.fst ⊆ List.range l.heap.length := by
      intro a ha
      rcases List.mem_cons.mp ha with rfl | ha
      · exact List.mem_range.mpr (Heap.lookup_lt hlk)
      · exact List.mem_range.mpr (Seg.addr_lt hseg a ha)
    have := (List.subperm_of_subset hnd hsub).length_le
    simp only [List.length_cons, List.length_map, List.length_range] at this
    omega
  have hloop := ConcurrentList.destructorLoop_spec cells l.heap.length l.heap head none first
    hlk hseg hlen
  have hlive : ∃ node, l.heap.lookup ((cells.map Prod.fst).getLastD head) = some node := by
    by_cases hc : cells.map Prod.fst = []
    · rw [hc]; exact ⟨_, hlk⟩
    · obtain ⟨x, next, hx⟩ := Seg.addr_data hseg _ (getLastD_mem_of_ne_nil _ head hc)
      exact ⟨_, hx⟩
  obtain ⟨node, hnode⟩ := hlive
  unfold ConcurrentList.destructor
  simp only [hh, bind, Except.bind, Heap.deref_eq hlk, hloop, Heap.delete_eq hnode]

end ListDestructorLemmas

/-- Claim C30 fails on the code: the loop of `~ConcurrentList` never deletes `nodeToDelete`.
On every list that holds `x :: rest` the destructor returns and deletes exactly one node, the
last element node; the sentinel and every other element node stay allocated.  Only on a
list without elements does it delete every node, the sentinel.  On the list that holds
2, 4, 1, 6 the cells 0 to 3 are left live. -/
theorem destructor_deletes_only_last_node {T : Type} :
    (∀ (l : ConcurrentList T) (x : T) (rest : List T), l.Holds (x :: rest) →
      ∃ head last heap, l.m_head = some head ∧ l.destructor = .ok heap ∧
        heap = l.heap.set last none ∧ last ≠ head ∧
        heap.lookup head = l.heap.lookup head ∧ heap.lookup head ≠ none ∧
        ∀ a, a ≠ last → heap.lookup a = l.heap.lookup a) ∧
    (∀ (l : ConcurrentList T), l.Holds [] →
      ∃ head, l.m_head = some head ∧ l.destructor = .ok (l.heap.set head none)) ∧
    sampleList.destructor
      = .ok [some { data := none, next := some 1 }, some { data := some 2, next := some 2 },
             some { data := some 4, next := some 3 }, some { data := some 1, next := some 4 },
             none] := by
  refine ⟨?_, ?_, rfl⟩
  · intro l x rest hl
    obtain ⟨head, first, cells, hh, hlk, hseg, hmap, hd⟩ := l.destructor_eq (x :: rest) hl
    have hc : cells.map Prod.fst ≠ [] := by
      intro hc
      rw [List.map_eq_nil_iff] at hc
      subst hc
      simp at hmap
    have hne : (cells.map Prod.fst).getLastD head ≠ head :=
      Seg.ne_of_lookup_none hseg hlk _ (getLastD_mem_of_ne_nil _ head hc)
    refine ⟨head, _, _, hh, hd, rfl, hne, Heap.lookup_set_none_other _ _ _ hne, ?_,
      fun a ha => Heap.lookup_set_none_other _ _ _ (Ne.symm ha)⟩
    rw [Heap.lookup_set_none_other _ _ _ hne, hlk]
    simp
  · intro l hl
    obtain ⟨head, first, cells, hh, hlk, hseg, hmap, hd⟩ := l.destructor_eq [] hl
    have hc : cells = [] := List.map_eq_nil_iff.mp hmap
    subst hc
    exact ⟨head, hh, hd⟩

/-- Claim C30, at the failing input: the list built by `PushToFront(1)` on a fresh list.  The
destructor deletes the element node at address 1 and leaves the sentinel at address 0
allocated. -/
theorem destructor_deletes_only_last_node_witness :
    (ConcurrentList.new : ConcurrentList Nat).PushToFront 1
      = .ok { heap := [some { data := none, next := some 1 },
                       some { data := some 1, next := none }], m_head := some 0 } ∧
    ConcurrentList.destructor
        ({ heap := [some { data := none, next := some 1 },
                    some { data := some 1, next := none }], m_head := some 0 } :
          ConcurrentList Nat)
      = .ok [some { data := none, next := some 1 }, none] ∧
    ∃ head last heap,
      (some 0 : Option Nat) = some head ∧
      ConcurrentList.destructor
        ({ heap := [some { data := none, next := some 1 },
                    some { data := some 1, next := none }], m_head := some 0 } :
          ConcurrentList Nat) = .ok heap ∧ last ≠ head ∧ heap.lookup head ≠ none :=
  ⟨rfl, rfl,
    (destructor_deletes_only_last_node.1
      { heap := [some { data := none, next := some 1 },
                 some { data := some 1, next := none }], m_head := some 0 } 1 []
      ⟨0, some 1, [(1, 1)], rfl, rfl, ⟨rfl, none, rfl, rfl⟩, rfl⟩).imp fun _ h1 =>
        h1.imp fun _ h2 => h2.imp fun _ h3 => ⟨h3.1, h3.2.1, h3.2.2.2.1, h3.2.2.2.2.2.1⟩⟩

section TrailingDummyLemmas

variable {T : Type}

/-- A segment that ends at a live node starts at a live node. -/
theorem Seg.start_live {h : Heap T} {cells : List (Nat × T)} {p : Option Nat} {d : Nat}
    {node : Node T} (hs : Seg h p cells (some d)) (hd : h.lookup d = some node) :
    ∃ a node', p = some a ∧ h.lookup a = some node' := by
  cases cells with
  | nil =>
    have hp : p = some d := hs
    exact ⟨d, node, hp, hd⟩
  | cons c rest =>
    obtain ⟨a, x⟩ := c
    obtain ⟨hp, next, hl, _⟩ := hs
    exact ⟨a, _, hp, hl⟩

/-- A segment that ends before a node without a value is shorter than the free store. -/
theorem Seg.length_lt {h : Heap T} {cells : List (Nat × T)} {p : Option Nat} {d : Nat}
    (hs : Seg h p cells (some d)) (hd : h.lookup d = some { data := none, next := none }) :
    cells.length < h.length := by
  have hnd : (d :: cells.map Prod.fst).Nodup :=
    List.nodup_cons.mpr ⟨fun hmem => Seg.ne_of_lookup_none hs hd d hmem rfl,
      Seg.nodup (ConcurrentQueue.tail_terminal hd) hs⟩
  have hsub : d :: cells.map Prod.fst ⊆ List.range h.length := by
    intro a ha
    rcases List.mem_cons.mp ha with rfl | ha
    · exact List.mem_range.mpr (Heap.lookup_lt hd)
    · exact List.mem_range.mpr (Seg.addr_lt hs a ha)
  have := (List.subperm_of_subset hnd hsub).length_le
  simp only [List.length_cons, List.length_map, List.length_range] at this
  omega

theorem TrailingDummy.ConcurrentList.trailingNew_holds :
    (TrailingDummy.ConcurrentList.new : TrailingDummy.ConcurrentList T).Holds [] :=
  ⟨[], 0, rfl, rfl, rfl⟩

theorem TrailingDummy.ConcurrentList.trailingPush_holds (l : TrailingDummy.ConcurrentList T)
    (xs : List T) (data : T) (hl : l.Holds xs) :
    ∃ l', l.PushToFront data = .ok l' ∧ l'.Holds (data :: xs) := by
  obtain ⟨cells, dummy, hseg, hmap, hd⟩ := hl
  obtain ⟨head, headNode, hh, hlk⟩ := Seg.start_live hseg hd
  rw [hh] at hseg
  have hlt : head < l.heap.length := Heap.lookup_lt hlk
  have h1 : (l.heap.alloc { data := some data, next := none }).1.lookup head = some headNode := by
    rw [Heap.lookup_alloc_old _ _ _ hlt]; exact hlk
  have h2 : (l.heap.alloc { data := some data, next := none }).1.lookup l.heap.length
      = some { data := some data, next := none } := Heap.lookup_alloc_new _ _
  have hal : (l.heap.alloc { data := some data, next := none }).2 = l.heap.length := rfl
  refine ⟨{ heap := (l.heap.alloc { data := some data, next := none }).1.store l.heap.length
                      { data := some data, next := some head }
            m_head := some l.heap.length }, ?_, ?_⟩
  · unfold TrailingDummy.ConcurrentList.PushToFront
    simp only [hal, hh, bind, Except.bind, Heap.deref_eq h1, Heap.deref_eq h2]
  · have hfr : ∀ a, a < l.heap.length →
        ((l.heap.alloc { data := some data, next := none }).1.store l.heap.length
          { data := some data, next := some head }).lookup a = l.heap.lookup a := by
      intro a ha
      rw [Heap.lookup_store_other _ _ _ _ (by omega), Heap.lookup_alloc_old _ _ _ ha]
    refine ⟨(l.heap.length, data) :: cells, dummy, ⟨rfl, some head, ?_, ?_⟩, by simp [hmap], ?_⟩
    · exact Heap.lookup_store_same _ _ _ (by rw [Heap.length_alloc]; omega)
    · exact Seg.frame hseg (fun a ha => hfr a (Seg.addr_lt hseg a ha))
    · show Heap.lookup _ dummy = _
      rw [hfr dummy (Heap.lookup_lt hd)]; exact hd

theorem TrailingDummy.ConcurrentList.trailingForEachLoop_spec (function : T → T)
    (cells : List (Nat × T)) :
    ∀ (fuel : Nat) (h : Heap T) (current dummy : Nat) (calls : List T),
      Seg h (some current) cells (some dummy) →
      h.lookup dummy = some { data := none, next := none } → cells.length < fuel →
      ∃ h', TrailingDummy.ConcurrentList.forEachLoop function fuel h current calls
          = .ok (h', calls ++ cells.map Prod.snd) ∧
        Seg h' (some current) (cells.map (fun c => (c.1, function c.2))) (some dummy) ∧
        (∀ b, b ∉ cells.map Prod.fst → h'.lookup b = h.lookup b) := by
  induction cells with
  | nil =>
    intro fuel h current dummy calls hseg hd hfuel
    have hp : some current = some dummy := hseg
    cases hp
    obtain ⟨k, rfl⟩ : ∃ k, fuel = k + 1 := ⟨fuel - 1, by simp at hfuel; omega⟩
    refine ⟨h, ?_, rfl, fun _ _ => rfl⟩
    simp only [TrailingDummy.ConcurrentList.forEachLoop, bind, Except.bind, Heap.deref_eq hd]
    simp
  | cons c rest ih =>
    obtain ⟨a, x⟩ := c
    intro fuel h current dummy calls hseg hd hfuel
    have hnd := Seg.nodup (ConcurrentQueue.tail_terminal hd) hseg
    have hned : a ≠ dummy := Seg.ne_of_lookup_none hseg hd a (by simp)
    rw [List.map_cons, List.nodup_cons] at hnd
    obtain ⟨hp, next, hla, hrest⟩ := hseg
    cases hp
    obtain ⟨k, rfl⟩ : ∃ k, fuel = k + 1 := ⟨fuel - 1, by simp at hfuel; omega⟩
    have hlt := Heap.lookup_lt hla
    have hst : (h.store a { data := some (function x), next := next }).lookup a
        = some { data := some (function x), next := next } := Heap.lookup_store_same _ _ _ hlt
    have hrest' : Seg (h.store a { data := some (function x), next := next }) next rest
        (some dummy) := by
      apply Seg.frame hrest
      intro b hb
      apply Heap.lookup_store_other
      intro hab; subst hab; exact hnd.1 hb
    have hd' : (h.store a { data := some (function x), next := next }).lookup dummy
        = some { data := none, next := none } := by
      rw [Heap.lookup_store_other _ _ _ _ hned]; exact hd
    obtain ⟨n, nextNode, hn, hln⟩ := Seg.start_live hrest' hd'
    subst hn
    obtain ⟨h', hrun, hseg', hfr⟩ := ih k _ n dummy (calls ++ [x]) hrest' hd'
      (by simp at hfuel; omega)
    refine ⟨h', ?_, ?_, ?_⟩
    · simp only [TrailingDummy.ConcurrentList.forEachLoop, bind, Except.bind, Heap.deref_eq hla,
        Heap.deref_eq hst, Heap.deref_eq hln, hrun]
      simp
    · refine ⟨rfl, some n, ?_, hseg'⟩
      rw [hfr a hnd.1]; exact hst
    · intro b hb
      simp only [List.map_cons, List.mem_cons, not_or] at hb
      rw [hfr b hb.2]
      exact Heap.lookup_store_other _ _ _ _ (Ne.symm hb.1)

theorem TrailingDummy.ConcurrentList.trailingForEach_holds (l : TrailingDummy.ConcurrentList T)
    (xs : List T) (function : T → T) (hl : l.Holds xs) :
    ∃ l', l.ForEach function = .ok (l', xs) ∧ l'.Holds (xs.map function) := by
  obtain ⟨cells, dummy, hseg, hmap, hd⟩ := hl
  obtain ⟨head, headNode, hh, hlk⟩ := Seg.start_live hseg hd
  rw [hh] at hseg
  obtain ⟨h', hrun, hseg', hfr⟩ := TrailingDummy.ConcurrentList.trailingForEachLoop_spec function
    cells l.heap.length l.heap head dummy [] hseg hd (Seg.length_lt hseg hd)
  refine ⟨{ l with heap := h' }, ?_, _, dummy, hh ▸ hseg', ?_, ?_⟩
  · unfold TrailingDummy.ConcurrentList.ForEach
    simp only [hh, bind, Except.bind, Heap.deref_eq hlk, hrun]
    simp [hmap]
  · rw [← hmap]; simp [List.map_map]
  · show h'.lookup dummy = _
    rw [hfr dummy (fun hmem => Seg.ne_of_lookup_none hseg hd dummy hmem rfl)]
    exact hd

theorem TrailingDummy.ConcurrentList.trailingFindFirstIfLoop_spec (predicate : T → Bool)
    (cells : List (Nat × T)) :
    ∀ (fuel : Nat) (h : Heap T) (current dummy : Nat),
      Seg h (some current) cells (some dummy) →
      h.lookup dummy = some { data := none, next := none } → cells.length < fuel →
      TrailingDummy.ConcurrentList.findFirstIfLoop predicate fuel h current
        = .ok ((cells.map Prod.snd).find? predicate) := by
  induction cells with
  | nil =>
    intro fuel h current dummy hseg hd hfuel
    have hp : some current = some dummy := hseg
    cases hp
    obtain ⟨k, rfl⟩ : ∃ k, fuel = k + 1 := ⟨fuel - 1, by simp at hfuel; omega⟩
    simp only [TrailingDummy.ConcurrentList.findFirstIfLoop, bind, Except.bind,
      Heap.deref_eq hd]
    rfl
  | cons c rest ih =>
    obtain ⟨a, x⟩ := c
    intro fuel h current dummy hseg hd hfuel
    obtain ⟨hp, next, hla, hrest⟩ := hseg
    cases hp
    obtain ⟨k, rfl⟩ : ∃ k, fuel = k + 1 := ⟨fuel - 1, by simp at hfuel; omega⟩
    obtain ⟨n, nextNode, hn, hln⟩ := Seg.start_live hrest hd
    subst hn
    simp only [TrailingDummy.ConcurrentList.findFirstIfLoop, bind, Except.bind,
      Heap.deref_eq hla, Heap.deref_eq hln, List.map_cons, List.find?_cons]
    cases hpx : predicate x with
    | true => simp
    | false =>
      simp only [Bool.false_eq_true, if_false]
      exact ih k h n dummy hrest hd (by simp at hfuel; omega)

theorem TrailingDummy.ConcurrentList.trailingFindFirstIf_holds
    (l : TrailingDummy.ConcurrentList T) (xs : List T) (predicate : T → Bool)
    (hl : l.Holds xs) : l.FindFirstIf predicate = .ok (xs.find? predicate) := by
  obtain ⟨cells, dummy, hseg, hmap, hd⟩ := hl
  obtain ⟨head, headNode, hh, hlk⟩ := Seg.start_live hseg hd
  rw [hh] at hseg
  unfold TrailingDummy.ConcurrentList.FindFirstIf
  simp only [hh, bind, Except.bind, Heap.deref_eq hlk]
  rw [TrailingDummy.ConcurrentList.trailingFindFirstIfLoop_spec predicate cells l.heap.length
    l.heap head dummy hseg hd (Seg.length_lt hseg hd), hmap]

/-- A call on two lists, one of each variant, that hold the same values returns the same
observation and leaves two lists that hold the same values. -/
theorem TrailingDummy.ConcurrentList.call_agrees (fixed : ConcurrentDS.ConcurrentList T)
    (trailing : TrailingDummy.ConcurrentList T) (xs : List T) (c : CommonListCall T)
    (hf : fixed.Holds xs) (ht : trailing.Holds xs) :
    ∃ fixed' trailing' r ys, fixed.call c.toListCall = .ok (fixed', r) ∧
      trailing.call c = .ok (trailing', r) ∧ fixed'.Holds ys ∧ trailing'.Holds ys := by
  cases c with
  | PushToFront data =>
    obtain ⟨f', h1, h2⟩ := fixed.PushToFront_holds xs data hf
    obtain ⟨t', h3, h4⟩ := trailing.trailingPush_holds xs data ht
    exact ⟨f', t', .done, _,
      by simp only [CommonListCall.toListCall, ConcurrentDS.ConcurrentList.call, h1, bind,
        Except.bind],
      by simp only [TrailingDummy.ConcurrentList.call, h3, bind, Except.bind], h2, h4⟩
  | ForEach function =>
    obtain ⟨f', h1, h2⟩ := fixed.ForEach_holds xs function hf
    obtain ⟨t', h3, h4⟩ := trailing.trailingForEach_holds xs function ht
    exact ⟨f', t', .visited xs, _,
      by simp only [CommonListCall.toListCall, ConcurrentDS.ConcurrentList.call, h1, bind,
        Except.bind],
      by simp only [TrailingDummy.ConcurrentList.call, h3, bind, Except.bind], h2, h4⟩
  | FindFirstIf predicate =>
    have h1 := fixed.FindFirstIf_holds xs predicate hf
    have h3 := trailing.trailingFindFirstIf_holds xs predicate ht
    exact ⟨fixed, trailing, .found (xs.find? predicate), xs,
      by simp only [CommonListCall.toListCall, ConcurrentDS.ConcurrentList.call, h1, bind,
        Except.bind],
      by simp only [TrailingDummy.ConcurrentList.call, h3, bind, Except.bind], hf, ht⟩

/-- A run on two lists, one of each variant, that hold the same values returns the same
observations and leaves two lists that hold the same values. -/
theorem TrailingDummy.ConcurrentList.run_agrees (calls : List (CommonListCall T)) :
    ∀ (fixed : ConcurrentDS.ConcurrentList T) (trailing : TrailingDummy.ConcurrentList T)
      (xs : List T), fixed.Holds xs → trailing.Holds xs →
      ∃ fixed' trailing' results ys,
        fixed.run (calls.map CommonListCall.toListCall) = .ok (fixed', results) ∧
        trailing.run calls = .ok (trailing', results) ∧ fixed'.Holds ys ∧
        trailing'.Holds ys := by
  induction calls with
  | nil => intro fixed trailing xs hf ht; exact ⟨fixed, trailing, [], xs, rfl, rfl, hf, ht⟩
  | cons c cs ih =>
    intro fixed trailing xs hf ht
    obtain ⟨f1, t1, r, ys, h1, h2, hf1, ht1⟩ :=
      TrailingDummy.ConcurrentList.call_agrees fixed trailing xs c hf ht
    obtain ⟨f2, t2, rs, zs, h3, h4, hf2, ht2⟩ := ih f1 t1 ys hf1 ht1
    refine ⟨f2, t2, r :: rs, zs, ?_, ?_, hf2, ht2⟩
    · simp only [List.map_cons, ConcurrentDS.ConcurrentList.run, h1, h3, bind, Except.bind]
    · simp only [TrailingDummy.ConcurrentList.run, h2, h4, bind, Except.bind]

end TrailingDummyLemmas

/-- Claim C28. The two list variants are observationally equivalent on the operations both
define: every sequence of `PushToFront`, `ForEach` and `FindFirstIf` calls returns on a
fresh list of either variant, with the same observations call by call (the values each
`ForEach` visits, in order, and the pointer each `FindFirstIf` returns); and on the two
lists reached a further `ForEach` visits the same values in the same order and a further
`FindFirstIf` returns the same result, for every function and every predicate. -/
theorem list_variants_agree {T : Type} (calls : List (CommonListCall T)) :
    ∃ fixed trailing results xs,
      (ConcurrentList.new : ConcurrentList T).run (calls.map CommonListCall.toListCall)
        = .ok (fixed, results) ∧
      (TrailingDummy.ConcurrentList.new : TrailingDummy.ConcurrentList T).run calls
        = .ok (trailing, results) ∧
      (∀ function : T → T, ∃ fixed' trailing',
        fixed.ForEach function = .ok (fixed', xs) ∧
        trailing.ForEach function = .ok (trailing', xs)) ∧
      (∀ predicate : T → Bool,
        fixed.FindFirstIf predicate = .ok (xs.find? predicate) ∧
        trailing.FindFirstIf predicate = fixed.FindFirstIf predicate) := by
  obtain ⟨fixed, trailing, results, xs, h1, h2, hf, ht⟩ :=
    TrailingDummy.ConcurrentList.run_agrees calls (ConcurrentList.new : ConcurrentList T)
      TrailingDummy.ConcurrentList.new [] ConcurrentList.listNew_holds
      TrailingDummy.ConcurrentList.trailingNew_holds
  refine ⟨fixed, trailing, results, xs, h1, h2, ?_, ?_⟩
  · intro function
    obtain ⟨f', h3, _⟩ := fixed.ForEach_holds xs function hf
    obtain ⟨t', h4, _⟩ := trailing.trailingForEach_holds xs function ht
    exact ⟨f', t', h3, h4⟩
  · intro predicate
    rw [fixed.FindFirstIf_holds xs predicate hf,
      trailing.trailingFindFirstIf_holds xs predicate ht]
    exact ⟨rfl, rfl⟩

/-- Claim C28, on the run push 1, push 2, push 3, double every element, look for 4: both
variants report the visit of 3, 2, 1 and the found value 4, in lists laid out differently. -/
theorem list_variants_agree_witness :
    (ConcurrentList.new : ConcurrentList Nat).run
        ([CommonListCall.PushToFront 1, CommonListCall.PushToFront 2,
          CommonListCall.PushToFront 3, CommonListCall.ForEach (fun i => i * 2),
          CommonListCall.FindFirstIf (fun i => i == 4)].map CommonListCall.toListCall)
      = .ok ({ heap := [some { data := none, next := some 3 },
                        some { data := some 2, next := none },
                        some { data := some 4, next := some 1 },
                        some { data := some 6, next := some 2 }],
               m_head := some 0 },
             [ListResult.done, ListResult.done, ListResult.done, ListResult.visited [3, 2, 1],
              ListResult.found (some 4)]) ∧
    (TrailingDummy.ConcurrentList.new : TrailingDummy.ConcurrentList Nat).run
        [CommonListCall.PushToFront 1, CommonListCall.PushToFront 2,
         CommonListCall.PushToFront 3, CommonListCall.ForEach (fun i => i * 2),
         CommonListCall.FindFirstIf (fun i => i == 4)]
      = .ok ({ heap := [some { data := none, next := none },
                        some { data := some 2, next := some 0 },
                        some { data := some 4, next := some 1 },
                        some { data := some 6, next := some 2 }],
               m_head := some 3 },
             [ListResult.done, ListResult.done, ListResult.done, ListResult.visited [3, 2, 1],
              ListResult.found (some 4)]) ∧
    ∃ fixed trailing results,
      (ConcurrentList.new : ConcurrentList Nat).run
        ([CommonListCall.PushToFront 1, CommonListCall.PushToFront 2,
          CommonListCall.PushToFront 3, CommonListCall.ForEach (fun i => i * 2),
          CommonListCall.FindFirstIf (fun i => i == 4)].map CommonListCall.toListCall)
        = .ok (fixed, results) ∧
      (TrailingDummy.ConcurrentList.new : TrailingDummy.ConcurrentList Nat).run
        [CommonListCall.PushToFront 1, CommonListCall.PushToFront 2,
         CommonListCall.PushToFront 3, CommonListCall.ForEach (fun i => i * 2),
         CommonListCall.FindFirstIf (fun i => i == 4)] = .ok (trailing, results) :=
  ⟨rfl, rfl,
    (list_variants_agree
      [CommonListCall.PushToFront 1, CommonListCall.PushToFront 2,
       CommonListCall.PushToFront 3, CommonListCall.ForEach (fun i => i * 2),
       CommonListCall.FindFirstIf (fun i => i == 4)]).imp fun _ h1 => h1.imp fun _ h2 =>
        h2.imp fun _ h3 => h3.elim fun _ h4 => ⟨h4.1, h4.2.1⟩⟩

/-- Claim C21 fails on the code: `Pop` deletes the node it unlinked at once.  On every stack
that holds `x :: rest`, with two threads inside `Pop`: the five steps of the second thread
alone are the sequential `Pop`; when the first thread loads `m_head` before them, the node
it holds in `nodeToPop` has been deleted by the second thread, and its next step, the read
of `nodeToPop->next`, is an access to that deleted node. -/
theorem pop_reads_deleted_node {T : Type} (s : LockFreeStack T) (x : T) (rest : List T)
    (hs : s.Holds (x :: rest)) :
    ∃ node s',
      s.m_head = some node ∧
      s.Pop 0 = .ok (some x, s') ∧
      runPops s [.atLoad, .atLoad]
          [(1, false), (1, false), (1, false), (1, false), (1, false)]
        = .ok (s', [.atLoad, .returned (some x)]) ∧
      runPops s [.atLoad, .atLoad]
          [(0, false), (1, false), (1, false), (1, false), (1, false), (1, false)]
        = .ok (s', [.atLoopTest (some node), .returned (some x)]) ∧
      s'.heap.lookup node = none ∧
      PopThread.step s' false (.atLoopTest (some node) : PopThread T)
        = .error .invalidAccess ∧
      runPops s [.atLoad, .atLoad]
          [(0, false), (1, false), (1, false), (1, false), (1, false), (1, false), (0, false)]
        = .error .invalidAccess := by
  obtain ⟨cells, hseg, hmap⟩ := hs
  cases cells with
  | nil => simp at hmap
  | cons c cells' =>
    obtain ⟨a, y⟩ := c
    simp only [List.map_cons, List.cons.injEq] at hmap
    obtain ⟨hy, _⟩ := hmap
    subst hy
    obtain ⟨hp, next, hla, _⟩ := hseg
    have hlt := Heap.lookup_lt hla
    have hst : (s.heap.store a { data := none, next := next }).lookup a
        = some { data := none, next := next } := Heap.lookup_store_same _ _ _ hlt
    have hgone : Heap.lookup ((s.heap.store a { data := none, next := next }).set a none) a
        = none := Heap.lookup_set_none_same _ _
    have hfault : Heap.deref ((s.heap.store a { data := none, next := next }).set a none)
        (some a) = .error .invalidAccess := by
      simp [Heap.deref, hgone]
    have hloop := LockFreeStack.popLoop_eq s.heap a _ hla 0 2 (by omega)
    have hs' : s = { heap := s.heap, m_head := some a } := by
      cases s; simp only at hp; subst hp; rfl
    refine ⟨a, { heap := (s.heap.store a { data := none, next := next }).set a none,
                 m_head := next }, hp, ?_, ?_, ?_, hgone, ?_, ?_⟩
    · unfold LockFreeStack.Pop
      rw [hs']
      simp only [hloop, bind, Except.bind, Heap.deref_eq hla, Heap.delete_eq hst]
    · simp [runPops, PopThread.step, bind, Except.bind, hp, Heap.deref_eq hla,
        compareExchangeWeak, Heap.delete_eq hst]
    · simp [runPops, PopThread.step, bind, Except.bind, hp, Heap.deref_eq hla,
        compareExchangeWeak, Heap.delete_eq hst]
    · simp [PopThread.step, bind, Except.bind, hfault]
    · simp [runPops, PopThread.step, bind, Except.bind, hp, Heap.deref_eq hla,
        compareExchangeWeak, Heap.delete_eq hst, hfault]

/-- Claim C21, at the failing input: two concurrent `Pop` calls on the stack that holds 2, 1.
The first loads the head (address 1), the second pops and deletes that node, and the first
then reads `nodeToPop->next` of the deleted node. -/
theorem pop_reads_deleted_node_witness :
    runPops sampleStack [.atLoad, .atLoad]
        [(0, false), (1, false), (1, false), (1, false), (1, false), (1, false)]
      = .ok ({ heap := [some { data := some 1, next := none }, none], m_head := some 0 },
             [.atLoopTest (some 1), .returned (some 2)]) ∧
    ∃ node s',
      sampleStack.m_head = some node ∧
      sampleStack.Pop 0 = .ok (some 2, s') ∧
      s'.heap.lookup node = none ∧
      runPops sampleStack [.atLoad, .atLoad]
          [(0, false), (1, false), (1, false), (1, false), (1, false), (1, false), (0, false)]
        = .error .invalidAccess :=
  ⟨rfl,
    (pop_reads_deleted_node sampleStack 2 [1]
      ⟨[(1, 2), (0, 1)], ⟨rfl, some 0, rfl, rfl, none, rfl, rfl⟩, rfl⟩).imp fun _ h1 =>
        h1.imp fun _ h2 => ⟨h2.1, h2.2.1, h2.2.2.2.2.1, h2.2.2.2.2.2.2⟩⟩

section QueueLockLemmas

/-- Two threads that each hold the mutex the other one waits for stay as they are. -/
theorem runLocks_stuck (first second : List QueueLockEvent) (schedule : List Nat) :
    runLocks { headOwner := some 1, tailOwner := some 0 }
        [.lock .m_headMutex :: first, .lock .m_tailMutex :: second] schedule
      = ({ headOwner := some 1, tailOwner := some 0 },
         [.lock .m_headMutex :: first, .lock .m_tailMutex :: second]) := by
  induction schedule with
  | nil => rfl
  | cons i schedule ih =>
    match i with
    | 0 => simpa [runLocks, QueueLocks.step, QueueLocks.owner] using ih
    | 1 => simpa [runLocks, QueueLocks.step, QueueLocks.owner] using ih
    | n + 2 => simpa [runLocks] using ih

end QueueLockLemmas

/-- Claim C25 fails on the code: the lock order is not tail-before-head everywhere.  On every
queue both `TryPop` overloads lock `m_headMutex` while holding `m_tailMutex` and never the
other way round, but both `WaitAndPop` overloads (in their wait predicate) and `Empty` lock
`m_tailMutex` while holding `m_headMutex`.  Two threads in `TryPop` finish under the
schedule shown; a thread in `TryPop` and a thread in `Empty` that have each taken their
first lock wait for each other under every further schedule. -/
theorem queue_lock_order_inverted {T : Type} (q : ConcurrentQueue T) :
    (locksWhileHolding .m_tailMutex .m_headMutex false (q.lockEvents .TryPop) = true ∧
      locksWhileHolding .m_headMutex .m_tailMutex false (q.lockEvents .TryPop) = false) ∧
    (locksWhileHolding .m_tailMutex .m_headMutex false (q.lockEvents .TryPopRef) = true ∧
      locksWhileHolding .m_headMutex .m_tailMutex false (q.lockEvents .TryPopRef) = false) ∧
    (locksWhileHolding .m_headMutex .m_tailMutex false (q.lockEvents .WaitAndPop) = true ∧
      locksWhileHolding .m_tailMutex .m_headMutex false (q.lockEvents .WaitAndPop) = false) ∧
    (locksWhileHolding .m_headMutex .m_tailMutex false (q.lockEvents .WaitAndPopRef) = true ∧
      locksWhileHolding .m_tailMutex .m_headMutex false (q.lockEvents .WaitAndPopRef)
        = false) ∧
    (locksWhileHolding .m_headMutex .m_tailMutex false (q.lockEvents .Empty) = true ∧
      locksWhileHolding .m_tailMutex .m_headMutex false (q.lockEvents .Empty) = false) ∧
    runLocks { headOwner := none, tailOwner := none }
        [q.lockEvents .TryPop, q.lockEvents .TryPop] [0, 1, 0, 0, 0, 1, 1, 1, 1]
      = ({ headOwner := none, tailOwner := none }, [[], []]) ∧
    ∀ schedule : List Nat,
      runLocks { headOwner := none, tailOwner := none }
          [q.lockEvents .TryPop, q.lockEvents .Empty] (0 :: 1 :: schedule)
        = ({ headOwner := some 1, tailOwner := some 0 },
           [(q.lockEvents .TryPop).tail, (q.lockEvents .Empty).tail]) ∧
      (q.lockEvents .TryPop).tail.head? = some (.lock .m_headMutex) ∧
      (q.lockEvents .Empty).tail.head? = some (.lock .m_tailMutex) := by
  by_cases h : q.m_head = q.m_tail
  · simp only [ConcurrentQueue.lockEvents, if_pos h]
    refine ⟨by decide, by decide, by decide, by decide, by decide, by decide, ?_⟩
    intro schedule
    refine ⟨?_, rfl, rfl⟩
    simp only [runLocks, List.getElem?_cons_zero, List.getElem?_cons_succ, QueueLocks.step,
      QueueLocks.owner, QueueLocks.setOwner, if_true, List.set_cons_zero, List.set_cons_succ,
      List.tail_cons]
    exact runLocks_stuck _ _ schedule
  · simp only [ConcurrentQueue.lockEvents, if_neg h]
    refine ⟨by decide, by decide, by decide, by decide, by decide, by decide, ?_⟩
    intro schedule
    refine ⟨?_, rfl, rfl⟩
    simp only [runLocks, List.getElem?_cons_zero, List.getElem?_cons_succ, QueueLocks.step,
      QueueLocks.owner, QueueLocks.setOwner, if_true, List.set_cons_zero, List.set_cons_succ,
      List.tail_cons]
    exact runLocks_stuck _ _ schedule

section ListLockLemmas

variable {T : Type}

theorem ConcurrentList.forEachLoopLocked_spec (function : T → T) (cells : List (Nat × T)) :
    ∀ (fuel : Nat) (h : Heap T) (locked : Nat) (p : Option Nat) (calls : List T)
      (events : List ListLockEvent),
      Seg h p cells none → cells.length ≤ fuel →
      ∃ h', ConcurrentList.forEachLoopLocked function fuel h locked p calls events
          = .ok (h', calls ++ cells.map Prod.snd,
              events ++ handOverHandEvents locked (cells.map Prod.fst)) ∧
        ConcurrentList.forEachLoop function fuel h p calls
          = .ok (h', calls ++ cells.map Prod.snd) := by
  induction cells with
  | nil =>
    intro fuel h locked p calls events hseg _
    have hp : p = none := hseg
    subst hp
    refine ⟨h, ?_, ?_⟩
    · cases fuel <;> simp [ConcurrentList.forEachLoopLocked, handOverHandEvents]
    · simp [ConcurrentList.forEachLoop_none]
  | cons c rest ih =>
    obtain ⟨a, x⟩ := c
    intro fuel h locked p calls events hseg hfuel
    have hnd := Seg.nodup (Terminal.null h) hseg
    rw [List.map_cons, List.nodup_cons] at hnd
    obtain ⟨hp, next, hla, hrest⟩ := hseg
    subst hp
    obtain ⟨k, rfl⟩ : ∃ k, fuel = k + 1 := ⟨fuel - 1, by simp at hfuel; omega⟩
    have hlt := Heap.lookup_lt hla
    have hst : (h.store a { data := some (function x), next := next }).lookup a
        = some { data := some (function x), next := next } := Heap.lookup_store_same _ _ _ hlt
    have hrest' : Seg (h.store a { data := some (function x), next := next }) next rest none := by
      apply Seg.frame hrest
      intro b hb
      apply Heap.lookup_store_other
      intro hab; subst hab; exact hnd.1 hb
    obtain ⟨h', hrun, hrun'⟩ := ih k _ a next (calls ++ [x])
      (events ++ [.lock a, .unlock locked]) hrest' (by simp at hfuel; omega)
    refine ⟨h', ?_, ?_⟩
    · simp only [ConcurrentList.forEachLoopLocked, bind, Except.bind, Heap.deref_eq hla,
        Heap.deref_eq hst, hrun]
      simp [handOverHandEvents]
    · simp only [ConcurrentList.forEachLoop, bind, Except.bind, Heap.deref_eq hla,
        Heap.deref_eq hst, hrun']
      simp

theorem ConcurrentList.findFirstIfLoopLocked_spec (predicate : T → Bool)
    (cells : List (Nat × T)) :
    ∀ (fuel : Nat) (h : Heap T) (locked : Nat) (p : Option Nat) (events : List ListLockEvent),
      Seg h p cells none → cells.length ≤ fuel →
      ConcurrentList.findFirstIfLoopLocked predicate fuel h locked p events
        = .ok ((cells.map Prod.snd).find? predicate,
            events ++ findEvents predicate locked cells) := by
  induction cells with
  | nil =>
    intro fuel h locked p events hseg _
    have hp : p = none := hseg
    subst hp
    cases fuel <;> simp [ConcurrentList.findFirstIfLoopLocked, findEvents]
  | cons c rest ih =>
    obtain ⟨a, x⟩ := c
    intro fuel h locked p events hseg hfuel
    obtain ⟨hp, next, hla, hrest⟩ := hseg
    subst hp
    obtain ⟨k, rfl⟩ : ∃ k, fuel = k + 1 := ⟨fuel - 1, by simp at hfuel; omega⟩
    simp only [ConcurrentList.findFirstIfLoopLocked, bind, Except.bind, Heap.deref_eq hla,
      List.map_cons, List.find?_cons, findEvents]
    cases hpx : predicate x with
    | true => simp
    | false =>
      simp only [Bool.false_eq_true, if_false]
      rw [ih k h a next _ hrest (by simp at hfuel; omega)]
      simp

theorem ConcurrentList.removeIfLoopLocked_spec (predicate : T → Bool)
    (cells : List (Nat × T)) :
    ∀ (fuel : Nat) (h : Heap T) (previous : Nat) (current : Option Nat) (d : Option T)
      (events : List ListLockEvent),
      h.lookup previous = some { data := d, next := current } →
      Seg h current cells none → previous ∉ cells.map Prod.fst → cells.length ≤ fuel →
      ∃ h', ConcurrentList.removeIfLoopLocked predicate fuel h previous current events
          = .ok (h', events ++ removeEvents predicate previous cells) ∧
        ConcurrentList.removeIfLoop predicate fuel h previous current = .ok h' := by
  induction cells with
  | nil =>
    intro fuel h previous current d events hprev hseg _ _
    have hp : current = none := hseg
    subst hp
    refine ⟨h, ?_, ?_⟩
    · cases fuel <;> simp [ConcurrentList.removeIfLoopLocked, removeEvents]
    · cases fuel <;> rfl
  | cons c rest ih =>
    obtain ⟨a, x⟩ := c
    intro fuel h previous current d events hprev hseg hnotin hfuel
    have hnd := Seg.nodup (Terminal.null h) hseg
    rw [List.map_cons, List.nodup_cons] at hnd
    obtain ⟨hp, next, hla, hrest⟩ := hseg
    subst hp
    simp only [List.map_cons, List.mem_cons, not_or] at hnotin
    obtain ⟨hpa, hprest⟩ := hnotin
    obtain ⟨k, rfl⟩ : ∃ k, fuel = k + 1 := ⟨fuel - 1, by simp at hfuel; omega⟩
    have hk : rest.length ≤ k := by simp at hfuel; omega
    by_cases hpx : predicate x = true
    · have hltp := Heap.lookup_lt hprev
      have h1a : (h.store previous { data := d, next := next }).lookup a
          = some { data := some x, next := next } := by
        rw [Heap.lookup_store_other _ _ _ _ hpa]; exact hla
      have h2p : Heap.lookup ((h.store previous { data := d, next := next }).set a none) previous
          = some { data := d, next := next } := by
        rw [Heap.lookup_set_none_other _ _ _ (Ne.symm hpa)]
        exact Heap.lookup_store_same _ _ _ hltp
      have hrest' : Seg ((h.store previous { data := d, next := next }).set a none)
          next rest none := by
        apply Seg.frame hrest
        intro b hb
        have hba : a ≠ b := by intro hab; subst hab; exact hnd.1 hb
        have hbp : previous ≠ b := by intro hab; subst hab; exact hprest hb
        rw [Heap.lookup_set_none_other _ _ _ hba, Heap.lookup_store_other _ _ _ _ hbp]
      obtain ⟨h', hrun, hrun'⟩ := ih k _ previous next d
        (events ++ [.lock a] ++ [.unlink previous a] ++ [.unlock a]) h2p hrest' hprest hk
      refine ⟨h', ?_, ?_⟩
      · simp only [ConcurrentList.removeIfLoopLocked, bind, Except.bind, Heap.deref_eq hla, hpx,
          if_true, Heap.deref_eq hprev, Heap.deref_eq h1a, Heap.delete_eq h1a, hrun]
        simp [removeEvents, hpx]
      · simp only [ConcurrentList.removeIfLoop, bind, Except.bind, Heap.deref_eq hla, hpx,
          if_true, Heap.deref_eq hprev, Heap.deref_eq h1a, Heap.delete_eq h1a]
        exact hrun'
    · obtain ⟨h', hrun, hrun'⟩ := ih k h a next (some x)
        (events ++ [.lock a] ++ [.unlock previous]) hla hrest hnd.1 hk
      refine ⟨h', ?_, ?_⟩
      · simp only [ConcurrentList.removeIfLoopLocked, bind, Except.bind, Heap.deref_eq hla, hpx,
          Bool.false_eq_true, if_false, hrun]
        simp [removeEvents, hpx]
      · simp only [ConcurrentList.removeIfLoop, bind, Except.bind, Heap.deref_eq hla, hpx,
          Bool.false_eq_true, if_false]
        exact hrun'

end ListLockLemmas

section ListLockCheckers

variable {T : Type}

theorem handOverHandEvents_ok : ∀ (addrs : List Nat) (locked : Nat), (locked :: addrs).Nodup →
    locksTaken (handOverHandEvents locked addrs) = addrs ∧
    heldAfter [locked] (handOverHandEvents locked addrs) = [] ∧
    alwaysHolding [locked] (handOverHandEvents locked addrs) = true ∧
    handsOver [locked] (handOverHandEvents locked addrs) = true := by
  intro addrs
  induction addrs with
  | nil =>
    intro locked _
    simp [handOverHandEvents, locksTaken, heldAfter, alwaysHolding, handsOver]
  | cons a rest ih =>
    intro locked hnd
    have hne : a ≠ locked := by
      intro h; subst h
      exact (List.nodup_cons.mp hnd).1 (List.mem_cons_self _ _)
    obtain ⟨h1, h2, h3, h4⟩ := ih a (List.nodup_cons.mp hnd).2
    simp [handOverHandEvents, locksTaken, heldAfter, alwaysHolding, handsOver, h1, h2, h3, h4,
      hne]

theorem findEvents_ok (predicate : T → Bool) : ∀ (cells : List (Nat × T)) (locked : Nat),
    (locked :: cells.map Prod.fst).Nodup →
    locksTaken (findEvents predicate locked cells)
      = (cells.map Prod.fst).take ((cells.map Prod.snd).findIdx predicate + 1) ∧
    heldAfter [locked] (findEvents predicate locked cells) = [] ∧
    alwaysHolding [locked] (findEvents predicate locked cells) = true ∧
    handsOver [locked] (findEvents predicate locked cells) = true := by
  intro cells
  induction cells with
  | nil =>
    intro locked _
    simp [findEvents, locksTaken, heldAfter, alwaysHolding, handsOver]
  | cons c rest ih =>
    obtain ⟨a, x⟩ := c
    intro locked hnd
    have hne : a ≠ locked := by
      intro h; subst h
      exact (List.nodup_cons.mp hnd).1 (by simp)
    obtain ⟨h1, h2, h3, h4⟩ := ih a (List.nodup_cons.mp hnd).2
    cases hpx : predicate x with
    | true =>
      simp [findEvents, locksTaken, heldAfter, alwaysHolding, handsOver, hne, hpx,
        List.findIdx_cons]
    | false =>
      simp [findEvents, locksTaken, heldAfter, alwaysHolding, handsOver, h1, h2, h3, h4, hne,
        hpx, List.findIdx_cons]

theorem removeEvents_ok (predicate : T → Bool) : ∀ (cells : List (Nat × T)) (previous : Nat),
    (previous :: cells.map Prod.fst).Nodup →
    locksTaken (removeEvents predicate previous cells) = cells.map Prod.fst ∧
    heldAfter [previous] (removeEvents predicate previous cells) = [] ∧
    alwaysHolding [previous] (removeEvents predicate previous cells) = true ∧
    unlinksUnderBothLocks [previous] (removeEvents predicate previous cells) = true ∧
    handsOverOrUnlinked none [previous] (removeEvents predicate previous cells) = true := by
  intro cells
  induction cells with
  | nil =>
    intro previous _
    simp [removeEvents, locksTaken, heldAfter, alwaysHolding, unlinksUnderBothLocks,
      handsOverOrUnlinked]
  | cons c rest ih =>
    obtain ⟨a, x⟩ := c
    intro previous hnd
    have hne : a ≠ previous := by
      intro h; subst h
      exact (List.nodup_cons.mp hnd).1 (by simp)
    have hne' : previous ≠ a := Ne.symm hne
    cases hpx : predicate x with
    | true =>
      have hnd' : (previous :: rest.map Prod.fst).Nodup := by
        simp only [List.map_cons, List.nodup_cons, List.mem_cons, not_or] at hnd ⊢
        exact ⟨hnd.1.2, hnd.2.2⟩
      obtain ⟨h1, h2, h3, h4, h5⟩ := ih previous hnd'
      simp [removeEvents, locksTaken, heldAfter, alwaysHolding, unlinksUnderBothLocks,
        handsOverOrUnlinked, h1, h2, h3, h4, h5, hne, hne', hpx]
    | false =>
      obtain ⟨h1, h2, h3, h4, h5⟩ := ih a (List.nodup_cons.mp hnd).2
      simp [removeEvents, locksTaken, heldAfter, alwaysHolding, unlinksUnderBothLocks,
        handsOverOrUnlinked, h1, h2, h3, h4, h5, hne, hne', hpx]

/-- The sentinel and the nodes after it have different addresses. -/
theorem ConcurrentList.nodup_addrs {h : Heap T} {head : Nat} {first : Option Nat}
    {cells : List (Nat × T)} (hlk : h.lookup head = some { data := none, next := first })
    (hseg : Seg h first cells none) : (head :: cells.map Prod.fst).Nodup :=
  List.nodup_cons.mpr ⟨fun hmem => Seg.ne_of_lookup_none hseg hlk head hmem rfl,
    Seg.nodup (Terminal.null _) hseg⟩

end ListLockCheckers

/-- Claim C26 as stated fails: `RemoveIf` with `IsEven` on the list that holds 2, 4, 1, 6
unlinks the node at address 1 and unlocks its mutex before it locks the mutex of the next
node it visits, the node at address 2. -/
theorem removeIf_unlocks_before_next_lock :
    ∃ l events,
      sampleList.RemoveIfLocked IsEven = .ok (l, events) ∧
      sampleList.RemoveIf IsEven = .ok l ∧
      events = [.lock 0, .lock 1, .unlink 0 1, .unlock 1, .lock 2, .unlink 0 2, .unlock 2,
                .lock 3, .unlock 0, .lock 4, .unlink 3 4, .unlock 4, .unlock 3] ∧
      locksTaken events = [0, 1, 2, 3, 4] ∧
      events.indexOf (ListLockEvent.unlock 1) < events.indexOf (ListLockEvent.lock 2) ∧
      handsOver [] events = false :=
  ⟨_, _, rfl, rfl, rfl, rfl, by decide, rfl⟩

/-- Claim C26, amended.  On a list whose sentinel `head` is followed by the nodes `cells`,
every `ForEach`, `FindFirstIf` and `RemoveIf` call returns, with the result of the function
without events, and its events are exactly the lock of the sentinel followed by
`handOverHandEvents`, `findEvents` and `removeEvents`.  So: the mutexes are locked in list
order starting with the sentinel (all of them, and in `FindFirstIf` up to the first match);
in `ForEach` and `FindFirstIf` every unlock but the final one happens while a mutex locked
later is held; in `RemoveIf` the same holds for the nodes that are kept, and the mutex of an
unlinked node is unlocked by the very next event after the unlinking, before any other
mutex is locked, while the mutex of its predecessor is held; every unlinking happens while
the mutexes of the node and of its predecessor are both held; between any two events a mutex
is held; and at the end no mutex is held. -/
theorem hand_over_hand_locking {T : Type} (l : ConcurrentList T) (head : Nat)
    (first : Option Nat) (cells : List (Nat × T)) (hh : l.m_head = some head)
    (hlk : l.heap.lookup head = some { data := none, next := first })
    (hseg : Seg l.heap first cells none) :
    (∀ function : T → T, ∃ result events,
      l.ForEachLocked function = .ok (result, events) ∧ l.ForEach function = .ok result ∧
      events = .lock head :: handOverHandEvents head (cells.map Prod.fst) ∧
      locksTaken events = head :: cells.map Prod.fst ∧
      handsOver [] events = true ∧ alwaysHolding [] events = true ∧
      heldAfter [] events = []) ∧
    (∀ predicate : T → Bool, ∃ result events,
      l.FindFirstIfLocked predicate = .ok (result, events) ∧
      l.FindFirstIf predicate = .ok result ∧
      events = .lock head :: findEvents predicate head cells ∧
      locksTaken events
        = head :: (cells.map Prod.fst).take ((cells.map Prod.snd).findIdx predicate + 1) ∧
      handsOver [] events = true ∧ alwaysHolding [] events = true ∧
      heldAfter [] events = []) ∧
    (∀ predicate : T → Bool, ∃ result events,
      l.RemoveIfLocked predicate = .ok (result, events) ∧ l.RemoveIf predicate = .ok result ∧
      events = .lock head :: removeEvents predicate head cells ∧
      locksTaken events = head :: cells.map Prod.fst ∧
      handsOverOrUnlinked none [] events = true ∧ unlinksUnderBothLocks [] events = true ∧
      alwaysHolding [] events = true ∧ heldAfter [] events = []) := by
  have hnd := ConcurrentList.nodup_addrs hlk hseg
  have hlen := Seg.length_le (Terminal.null _) hseg
  refine ⟨?_, ?_, ?_⟩
  · intro function
    obtain ⟨h', hrun, hrun'⟩ := ConcurrentList.forEachLoopLocked_spec function cells
      l.heap.length l.heap head first [] [.lock head] hseg hlen
    obtain ⟨h1, h2, h3, h4⟩ := handOverHandEvents_ok (cells.map Prod.fst) head hnd
    refine ⟨({ l with heap := h' }, cells.map Prod.snd),
      .lock head :: handOverHandEvents head (cells.map Prod.fst), ?_, ?_, rfl, ?_, ?_, ?_, ?_⟩
    · unfold ConcurrentList.ForEachLocked
      simp only [hh, bind, Except.bind, Heap.deref_eq hlk, hrun]
      simp
    · unfold ConcurrentList.ForEach
      simp only [hh, bind, Except.bind, Heap.deref_eq hlk, hrun']
      simp
    · simp [locksTaken, h1]
    · simpa [handsOver] using h4
    · cases hc : handOverHandEvents head (cells.map Prod.fst) with
      | nil => rfl
      | cons e es =>
        rw [hc] at h3
        simp only [alwaysHolding, heldAfter, List.nil_append] at h3 ⊢
        simpa using h3
    · simpa [heldAfter] using h2
  · intro predicate
    have hrun := ConcurrentList.findFirstIfLoopLocked_spec predicate cells
      l.heap.length l.heap head first [.lock head] hseg hlen
    have hrun' := ConcurrentList.findFirstIfLoop_spec predicate cells
      l.heap.length l.heap first hseg hlen
    obtain ⟨h1, h2, h3, h4⟩ := findEvents_ok predicate cells head hnd
    refine ⟨(cells.map Prod.snd).find? predicate,
      .lock head :: findEvents predicate head cells, ?_, ?_, rfl, ?_, ?_, ?_, ?_⟩
    · unfold ConcurrentList.FindFirstIfLocked
      simp only [hh, bind, Except.bind, Heap.deref_eq hlk, hrun]
      simp
    · unfold ConcurrentList.FindFirstIf
      simp only [hh, bind, Except.bind, Heap.deref_eq hlk, hrun']
    · simp [locksTaken, h1]
    · simpa [handsOver] using h4
    · cases hc : findEvents predicate head cells with
      | nil => rfl
      | cons e es =>
        rw [hc] at h3
        simp only [alwaysHolding, heldAfter, List.nil_append] at h3 ⊢
        simpa using h3
    · simpa [heldAfter] using h2
  · intro predicate
    obtain ⟨h', hrun, hrun'⟩ := ConcurrentList.removeIfLoopLocked_spec predicate cells
      l.heap.length l.heap head first none [.lock head] hlk hseg
      (List.nodup_cons.mp hnd).1 hlen
    obtain ⟨h1, h2, h3, h4, h5⟩ := removeEvents_ok predicate cells head hnd
    refine ⟨{ l with heap := h' }, .lock head :: removeEvents predicate head cells,
      ?_, ?_, rfl, ?_, ?_, ?_, ?_, ?_⟩
    · unfold ConcurrentList.RemoveIfLocked
      simp only [hh, bind, Except.bind, Heap.deref_eq hlk, hrun]
      simp
    · unfold ConcurrentList.RemoveIf
      simp only [hh, bind, Except.bind, Heap.deref_eq hlk, hrun']
    · simp [locksTaken, h1]
    · simpa [handsOverOrUnlinked] using h5
    · simpa [unlinksUnderBothLocks] using h4
    · cases hc : removeEvents predicate head cells with
      | nil => rfl
      | cons e es =>
        rw [hc] at h3
        simp only [alwaysHolding, heldAfter, List.nil_append] at h3 ⊢
        simpa using h3
    · simpa [heldAfter] using h2

/-- Claim C26, amended, on the list that holds 2, 4, 1, 6: the events of `RemoveIf` with
`IsEven`, of `ForEach` with `DoubleInteger` and of `FindFirstIf` with `IsOdd`.  Events in
which the mutex of the next node is locked between an unlinking and the unlock of the
unlinked node, or in which that unlock is missing, do not pass. -/
theorem hand_over_hand_locking_witness :
    sampleList.RemoveIfLocked IsEven
      = .ok ({ heap := [some { data := none, next := some 3 }, none, none,
                        some { data := some 1, next := none }, none], m_head := some 0 },
             [.lock 0, .lock 1, .unlink 0 1, .unlock 1, .lock 2, .unlink 0 2, .unlock 2,
              .lock 3, .unlock 0, .lock 4, .unlink 3 4, .unlock 4, .unlock 3]) ∧
    (sampleList.ForEachLocked DoubleInteger).map Prod.snd
      = .ok [.lock 0, .lock 1, .unlock 0, .lock 2, .unlock 1, .lock 3, .unlock 2, .lock 4,
             .unlock 3, .unlock 4] ∧
    sampleList.FindFirstIfLocked IsOdd
      = .ok (some 1, [.lock 0, .lock 1, .unlock 0, .lock 2, .unlock 1, .lock 3, .unlock 2,
                      .unlock 3]) ∧
    handsOverOrUnlinked none []
      [.lock 0, .lock 1, .unlink 0 1, .lock 2, .unlock 1, .unlock 0, .unlock 2] = false ∧
    handsOverOrUnlinked none [] [.lock 0, .lock 1, .unlink 0 1, .unlock 0] = false ∧
    handsOverOrUnlinked none [] [.lock 0, .lock 1, .unlock 1, .unlock 0] = false ∧
    ∃ result events,
      sampleList.RemoveIfLocked IsEven = .ok (result, events) ∧
      sampleList.RemoveIf IsEven = .ok result ∧
      events = .lock 0 :: removeEvents IsEven 0 [(1, 2), (2, 4), (3, 1), (4, 6)] ∧
      locksTaken events = [0, 1, 2, 3, 4] ∧
      handsOverOrUnlinked none [] events = true ∧ unlinksUnderBothLocks [] events = true ∧
      alwaysHolding [] events = true ∧ heldAfter [] events = [] :=
  ⟨rfl, rfl, rfl, rfl, rfl, rfl,
    (hand_over_hand_locking sampleList 0 (some 1) [(1, 2), (2, 4), (3, 1), (4, 6)] rfl rfl
      ⟨rfl, some 2, rfl, rfl, some 3, rfl, rfl, some 4, rfl, rfl, none, rfl, rfl⟩).2.2 IsEven⟩

end ConcurrentDS
